import Mathlib

/-!
The library libini: document model, serializer and parser.

A shallow embedding of `src/libini/ini.c` (with `ini.h` and the C++ wrapper
`ini.hpp`).

Modelling conventions.

* A byte is a natural number; the `<ctype.h>` predicates are those of the "C"
  locale and hold of no byte above 127.  `char` is signed on the targets the
  library is written for, so the byte `0xFF` read into a `char` compares equal
  to `EOF`.
* A `const char*` argument or a stored name is modelled by the bytes before its
  terminator.  A local `char[INI_STR_MAX_LENGTH]` buffer that is later read as a
  string is cut at its first NUL byte (`cstr`).
* The pointer arrays `ini->secs` and `sec->keys` are lists; a pointer to a
  section is its index in `ini->secs`.  The blocks that hold the arrays have
  the size that `realloc` is called with, `sizeof(INI_KEY)` and
  `sizeof(INI_SECTION)`; sizes are those of the targets with 8 byte pointers
  and 4 byte `int` and `float`.  A store or a load of a pointer outside its
  block is undefined.
* Behaviour that C leaves undefined (a read past the end of the file buffer, a
  write past a 128 byte buffer, a null pointer dereference, a violated
  `strcpy_s` constraint) is an explicit `Undef` outcome.
* The union of `INI_KEY` is a tagged value.  The getters read the member they
  name without looking at the tag: on a key of another variant the member is
  the reinterpretation of the bytes of the union (least significant byte first,
  two's complement `int`; the `float` of a bit pattern is a result of `Libc`),
  where the bytes that no `key_set_*` call wrote are those `malloc` left.
* Single precision floats are a type parameter `F`.  The results of the C
  library that the model does not compute are the parameter `Libc`: `atof`
  with the cast to `float`, the conversion `%f`, and what `atoi` returns for a
  number that does not fit `int`.
* The methods `exist`, `get` and `get_opt` of the wrapper `ini.hpp` are
  modelled over the C functions they call; a `std::string` argument is the C
  string that `c_str()` gives.
* The file system is not modelled: `ini_parse` takes the content of the file as
  a list of bytes and `ini_serialize` returns the bytes written to a stream
  that was opened successfully.
-/

namespace Libini

/-! ## Constants and outcomes -/

/-- The capacity `INI_STR_MAX_LENGTH` of every name and text buffer (`ini.h`). -/
def INI_STR_MAX_LENGTH : Nat := 128

/-- The largest value of a C `int`. -/
def INT_MAX : Int := 2147483647

/-- The smallest value of a C `int`. -/
def INT_MIN : Int := -2147483648

/-- The byte that compares equal to `EOF` once stored in a signed `char`. -/
def EOF_BYTE : Nat := 255

/-- Ways in which an execution leaves the behaviour defined by C.  The last
constructor is the bound of the loop model; `ini_parse_fuel` shows that it is
never an outcome of `ini_parse`. -/
inductive Undef where
  | out_of_bounds_read
  | buffer_overflow
  | null_dereference
  | constraint_violation
  | fuel_exhausted
deriving DecidableEq, Repr

/-- The bytes of an ASCII string literal. -/
def bytes (s : String) : List Nat := s.toList.map Char.toNat

/-! ## `<ctype.h>`, `<string.h>` and `<stdlib.h>` -/

/-- The predicate `isspace` in the "C" locale: space, and `\t \n \v \f \r`. -/
def isspace (c : Nat) : Bool := c == 32 || (9 ≤ c && c ≤ 13)

/-- The predicate `iscntrl` in the "C" locale: bytes 0 to 31, and 127. -/
def iscntrl (c : Nat) : Bool := c < 32 || c == 127

/-- The predicate `isalpha` in the "C" locale: the 52 ASCII letters. -/
def isalpha (c : Nat) : Bool := (65 ≤ c && c ≤ 90) || (97 ≤ c && c ≤ 122)

/-- The predicate `isdigit`. -/
def isdigit (c : Nat) : Bool := 48 ≤ c && c ≤ 57

/-- The string held by a character buffer: the bytes before the first NUL. -/
def cstr (buf : List Nat) : List Nat := buf.takeWhile (fun c => c != 0)

/-- The call `strcpy_s(dest, cap, src)`: the copy needs `strlen(src) < cap`. -/
def strcpy_s (cap : Nat) (src : List Nat) : Except Undef (List Nat) :=
  if src.length < cap then .ok src else .error .constraint_violation

/-- The digit loop of `atoi`: the value of the longest prefix of decimal digits. -/
def atoi_digits : List Nat → Nat → Nat
  | [], acc => acc
  | c :: rest, acc => if isdigit c then atoi_digits rest (acc * 10 + (c - 48)) else acc

/-- The number `atoi` reads: leading white space, an optional sign, decimal
digits. -/
def atoi_value (s : List Nat) : Int :=
  match s.dropWhile isspace with
  | 45 :: r => - (atoi_digits r 0 : Int)
  | 43 :: r => (atoi_digits r 0 : Int)
  | r => (atoi_digits r 0 : Int)

/-- Decimal digits of a natural number, most significant first (`fuel` bounds
the number of digits). -/
def fmt_digits : Nat → Nat → List Nat → List Nat
  | 0, _, acc => acc
  | fuel + 1, n, acc =>
    if n < 10 then (n + 48) :: acc else fmt_digits fuel (n / 10) ((n % 10 + 48) :: acc)

/-- The conversion `%i` of `fprintf`: base 10, with `-` for a negative value. -/
def fmt_i (v : Int) : List Nat :=
  match v with
  | Int.ofNat n => fmt_digits (n + 1) n []
  | Int.negSucc n => 45 :: fmt_digits (n + 2) (n + 1) []

/-! ## Document model -/

/-- The tagged union of `INI_KEY` (`t_val` with `ival`, `fval`, `sval`).  The tag
`KVAL_TYPE_UNDEFINED` only exists between `key_create` and the `key_set_*` call
that always follows it. -/
inductive Value (F : Type) where
  | ival (v : Int)
  | fval (v : F)
  | sval (v : List Nat)
deriving DecidableEq, Repr

/-- The struct `INI_KEY`. -/
structure INI_KEY (F : Type) where
  key_name : List Nat
  val : Value F
deriving DecidableEq, Repr

/-- The struct `INI_SECTION`; `keys_count` is the length of `keys`. -/
structure INI_SECTION (F : Type) where
  sec_name : List Nat
  keys : List (INI_KEY F)
deriving DecidableEq, Repr

/-- The struct `INI`; `secs_count` is the length of `secs`. -/
structure INI (F : Type) where
  secs : List (INI_SECTION F)
deriving DecidableEq, Repr

variable {F : Type}

/-- The functions of the C library whose results the model does not compute:
`atof` followed by the cast to `float`, the `int` that `atoi` returns when the
number it reads does not fit `int` (the C standard leaves that result open; the
C libraries return a clamped or truncated `int`), and the conversion `%f` of
`fprintf`.  With them come the representation of a `float` (the `int` with the
same four bytes, and back) and the content of the bytes of a key that `malloc`
returned and no `key_set_*` call wrote (`uninit i` is the byte `i` places after
the last byte written). -/
structure Libc (F : Type) where
  atof : List Nat → F
  atoi_overflow : List Nat → Int
  fmt_f : F → List Nat
  float_bits : F → Int
  bits_float : Int → F
  uninit : Nat → Nat

/-- The function `atoi`. -/
def atoi (libc : Libc F) (s : List Nat) : Int :=
  if INT_MIN ≤ atoi_value s ∧ atoi_value s ≤ INT_MAX then atoi_value s
  else libc.atoi_overflow s

/-- A C library for a float type with a single value; it instantiates the
statements on concrete inputs that involve no Float. -/
def unit_libc : Libc Unit :=
  ⟨fun _ => (), fun _ => 0, fun _ => [], fun _ => 0, fun _ => (), fun _ => 0⟩

/-- Index of the first element satisfying `p` (the linear scans of the library). -/
def find_first {α : Type} (p : α → Bool) : List α → Option Nat
  | [] => none
  | x :: xs => if p x then some 0 else (find_first p xs).map (fun i => i + 1)

/-- Apply `f` to the section at index `i`. -/
def update_sec (f : INI_SECTION F → INI_SECTION F) :
    List (INI_SECTION F) → Nat → List (INI_SECTION F)
  | [], _ => []
  | s :: ss, 0 => f s :: ss
  | s :: ss, i + 1 => s :: update_sec f ss i

/-! ## The blocks of the pointer arrays -/

/-- The size of a pointer. -/
def SIZEOF_POINTER : Nat := 8

/-- The size `sizeof(INI_KEY)`: `key_name`, the union (as large as `sval`) and
`t_val`. -/
def SIZEOF_INI_KEY : Nat := 128 + 128 + 4

/-- The size `sizeof(INI_SECTION)`: `sec_name`, `keys` and `keys_count`, rounded
up to a multiple of the alignment of a pointer. -/
def SIZEOF_INI_SECTION : Nat :=
  (128 + SIZEOF_POINTER + 4 + (SIZEOF_POINTER - 1)) / SIZEOF_POINTER * SIZEOF_POINTER

/-- The store `array[count] = pointer` into the block returned by
`realloc(array, size)`: it writes the bytes from `count * sizeof(pointer)` up to
`(count + 1) * sizeof(pointer)`. -/
def store_in_block (size count : Nat) : Except Undef Unit :=
  if (count + 1) * SIZEOF_POINTER ≤ size then .ok () else .error .buffer_overflow

/-- The load `pointer = array[index]` from a block of `size` bytes. -/
def load_from_block (size index : Nat) : Except Undef Unit :=
  if (index + 1) * SIZEOF_POINTER ≤ size then .ok () else .error .out_of_bounds_read

/-! ## Documents -/

/-- The function `key_create`: the name is copied with `strcpy_s`. -/
def key_create (name : List Nat) : Except Undef (List Nat) :=
  strcpy_s INI_STR_MAX_LENGTH name

/-- The function `key_set_i` applied to a freshly created key. -/
def key_set_i (name : List Nat) (val : Int) : INI_KEY F := ⟨name, .ival val⟩

/-- The function `key_set_f` applied to a freshly created key. -/
def key_set_f (name : List Nat) (val : F) : INI_KEY F := ⟨name, .fval val⟩

/-- The function `key_set_str` applied to a freshly created key. -/
def key_set_str (name : List Nat) (val : List Nat) : Except Undef (INI_KEY F) :=
  match strcpy_s INI_STR_MAX_LENGTH val with
  | .ok v => .ok ⟨name, .sval v⟩
  | .error u => .error u

/-- The function `sec_create`: a section without keys. -/
def sec_create (name : List Nat) : Except Undef (INI_SECTION F) :=
  match strcpy_s INI_STR_MAX_LENGTH name with
  | .ok n => .ok ⟨n, []⟩
  | .error u => .error u

/-- The function `sec_add_key`: the store `sec->keys[sec->keys_count] = key`
into the block of `realloc(sec->keys, sizeof(INI_KEY))`. -/
def sec_add_key (sec : INI_SECTION F) (key : INI_KEY F) :
    Except Undef (INI_SECTION F) :=
  match store_in_block SIZEOF_INI_KEY sec.keys.length with
  | .ok _ => .ok ⟨sec.sec_name, sec.keys ++ [key]⟩
  | .error u => .error u

/-- The function `sec_get_key`: the first key with that name. -/
def sec_get_key (sec : INI_SECTION F) (key_name : List Nat) : Option (INI_KEY F) :=
  sec.keys.find? (fun key => key.key_name == key_name)

/-- The function `ini_create`. -/
def ini_create : INI F := ⟨[]⟩

/-- The function `ini_add_sec`: the store `ini->secs[ini->secs_count] = sec`
into the block of `realloc(ini->secs, sizeof(INI_SECTION))`. -/
def ini_add_sec (ini : INI F) (sec : INI_SECTION F) : Except Undef (INI F) :=
  match store_in_block SIZEOF_INI_SECTION ini.secs.length with
  | .ok _ => .ok ⟨ini.secs ++ [sec]⟩
  | .error u => .error u

/-- The function `ini_get_section`: a pointer to (the index of) the first section
with that name, or NULL. -/
def ini_get_section (ini : INI F) (sec_name : List Nat) : Option Nat :=
  find_first (fun sec => sec.sec_name == sec_name) ini.secs

/-- The call `sec_add_key(sec, key)` through a pointer into `ini->secs`.  The
library forms no pointer other than to a section of the document; the last
branch stands for one. -/
def sec_add_key_at (ini : INI F) (i : Nat) (key : INI_KEY F) : Except Undef (INI F) :=
  match ini.secs.get? i with
  | some sec =>
    match sec_add_key sec key with
    | .ok sec1 => .ok ⟨update_sec (fun _ => sec1) ini.secs i⟩
    | .error u => .error u
  | none => .error .null_dereference

/-- The function `ini_add_key_generic`. -/
def ini_add_key_generic (ini : INI F) (sec_name : List Nat) (key : INI_KEY F) :
    Except Undef (INI F) :=
  match ini_get_section ini sec_name with
  | some i => sec_add_key_at ini i key
  | none =>
    match sec_create sec_name with
    | .ok sec =>
      match sec_add_key sec key with
      | .ok sec1 => ini_add_sec ini sec1
      | .error u => .error u
    | .error u => .error u

/-- The function `ini_add_key_i` (`set` with an `int`). -/
def ini_add_key_i (ini : INI F) (sec_name key_name : List Nat) (val : Int) :
    Except Undef (INI F) :=
  match key_create key_name with
  | .ok name => ini_add_key_generic ini sec_name (key_set_i name val)
  | .error u => .error u

/-- The function `ini_add_key_f` (`set` with a `float`). -/
def ini_add_key_f (ini : INI F) (sec_name key_name : List Nat) (val : F) :
    Except Undef (INI F) :=
  match key_create key_name with
  | .ok name => ini_add_key_generic ini sec_name (key_set_f name val)
  | .error u => .error u

/-- The function `ini_add_key_str` (`set` with a string). -/
def ini_add_key_str (ini : INI F) (sec_name key_name val : List Nat) :
    Except Undef (INI F) :=
  match key_create key_name with
  | .ok name =>
    match key_set_str name val with
    | .ok key => ini_add_key_generic ini sec_name key
    | .error u => .error u
  | .error u => .error u

/-- The macro `ini_add_key` of `ini.h` (the overloads of `set` in `ini.hpp`):
dispatch on the type of the value. -/
def ini_add_key (ini : INI F) (sec_name key_name : List Nat) (val : Value F) :
    Except Undef (INI F) :=
  match val with
  | .ival v => ini_add_key_i ini sec_name key_name v
  | .fval v => ini_add_key_f ini sec_name key_name v
  | .sval v => ini_add_key_str ini sec_name key_name v

/-- The section a pointer returned by `ini_get_section` points to. -/
def section_at (ini : INI F) (p : Option Nat) : Option (INI_SECTION F) :=
  match p with
  | some i => ini.secs.get? i
  | none => none

/-- The key looked up by the getters: `sec_get_key(ini_get_section(..), ..)`.
Passing a NULL section to `sec_get_key` dereferences it. -/
def lookup_key (ini : INI F) (sec_name key_name : List Nat) :
    Except Undef (Option (INI_KEY F)) :=
  match section_at ini (ini_get_section ini sec_name) with
  | some sec => .ok (sec_get_key sec key_name)
  | none => .error .null_dereference

/-- The function `ini_does_key_exist`. -/
def ini_does_key_exist (ini : INI F) (sec_name key_name : List Nat) : Bool :=
  match section_at ini (ini_get_section ini sec_name) with
  | some sec =>
    match sec_get_key sec key_name with
    | some _ => true
    | none => false
  | none => false

/-- The `int` stored in the four bytes `b0 b1 b2 b3`, least significant byte
first, in two's complement. -/
def int_of_bytes (b0 b1 b2 b3 : Nat) : Int :=
  if b0 + 256 * b1 + 65536 * b2 + 16777216 * b3 < 2147483648 then
    ((b0 + 256 * b1 + 65536 * b2 + 16777216 * b3 : Nat) : Int)
  else ((b0 + 256 * b1 + 65536 * b2 + 16777216 * b3 : Nat) : Int) - 4294967296

/-- The four bytes that store an `int`, least significant byte first. -/
def bytes_of_int (v : Int) : List Nat :=
  [(v % 256).toNat, (v / 256 % 256).toNat, (v / 65536 % 256).toNat,
    (v / 16777216 % 256).toNat]

/-- The bytes of the union that the `key_set_*` call of a key wrote: the four
bytes of `ival` or of `fval`, or the text with its terminator. -/
def union_written (libc : Libc F) : Value F → List Nat
  | .ival v => bytes_of_int v
  | .fval v => bytes_of_int (libc.float_bits v)
  | .sval v => v ++ [0]

/-- The `INI_STR_MAX_LENGTH` bytes of the union of a key: the bytes written,
then the bytes that `malloc` left. -/
def union_bytes (libc : Libc F) (val : Value F) : List Nat :=
  (union_written libc val ++ (List.range INI_STR_MAX_LENGTH).map libc.uninit).take
    INI_STR_MAX_LENGTH

/-- The `int` in the first four bytes of the union. -/
def union_int (libc : Libc F) (val : Value F) : Int :=
  int_of_bytes ((union_bytes libc val).getD 0 0) ((union_bytes libc val).getD 1 0)
    ((union_bytes libc val).getD 2 0) ((union_bytes libc val).getD 3 0)

/-- The expression `key->ival`: the `int` stored, or on a key of another variant
the `int` in the first four bytes of the union. -/
def read_ival (libc : Libc F) (val : Value F) : Int :=
  match val with
  | .ival v => v
  | _ => union_int libc val

/-- The expression `key->fval`: the `float` stored, or on a key of another
variant the `float` in the first four bytes of the union. -/
def read_fval (libc : Libc F) (val : Value F) : F :=
  match val with
  | .fval v => v
  | _ => libc.bits_float (union_int libc val)

/-- The call `strcpy_s(out_buff, buff_size, key->sval)`: it copies the text
stored, or on a key of another variant the bytes of the union before the first
NUL byte; a union without a NUL byte leaves `strcpy_s` without a terminator to
find within `sval`. -/
def read_sval (libc : Libc F) (val : Value F) (buff_size : Nat) :
    Except Undef (List Nat) :=
  match val with
  | .sval v => strcpy_s buff_size v
  | _ =>
    if 0 ∈ union_bytes libc val then strcpy_s buff_size (cstr (union_bytes libc val))
    else if buff_size ≤ INI_STR_MAX_LENGTH then .error .constraint_violation
    else .error .out_of_bounds_read

/-- The function `ini_get_key_i`: returns `key->ival`, whatever the tag of the
key. -/
def ini_get_key_i (libc : Libc F) (ini : INI F) (sec_name key_name : List Nat) :
    Except Undef Int :=
  match lookup_key ini sec_name key_name with
  | .ok (some key) => .ok (read_ival libc key.val)
  | .ok none => .error .null_dereference
  | .error u => .error u

/-- The function `ini_get_key_f`: returns `key->fval`, whatever the tag of the
key. -/
def ini_get_key_f (libc : Libc F) (ini : INI F) (sec_name key_name : List Nat) :
    Except Undef F :=
  match lookup_key ini sec_name key_name with
  | .ok (some key) => .ok (read_fval libc key.val)
  | .ok none => .error .null_dereference
  | .error u => .error u

/-- The function `ini_get_key_str` with a destination of `buff_size` bytes:
copies `key->sval` with `strcpy_s`, whatever the tag of the key. -/
def ini_get_key_str (libc : Libc F) (ini : INI F) (sec_name key_name : List Nat)
    (buff_size : Nat) : Except Undef (List Nat) :=
  match lookup_key ini sec_name key_name with
  | .ok (some key) => read_sval libc key.val buff_size
  | .ok none => .error .null_dereference
  | .error u => .error u

/-! ## Serialization -/

/-- One `fprintf` of the key loop of `ini_serialize`. -/
def serialize_key (libc : Libc F) (key : INI_KEY F) : List Nat :=
  match key.val with
  | .ival v => key.key_name ++ [61] ++ fmt_i v ++ [10]
  | .fval v => key.key_name ++ [61] ++ libc.fmt_f v ++ [10]
  | .sval v => key.key_name ++ [61] ++ v ++ [10]

/-- The header written for a section: `[name]\n` when `sec_name[0] != 0`. -/
def serialize_header (sec : INI_SECTION F) : List Nat :=
  if sec.sec_name = [] then [] else [91] ++ sec.sec_name ++ [93, 10]

/-- The body of the section loop of `ini_serialize`.  The macro `foreach_key`
reads `sec->keys[0]` before it tests `keys_count`, and `keys` is NULL for a
section without keys; after the last key it loads `sec->keys[keys_count]`. -/
def serialize_section (libc : Libc F) (sec : INI_SECTION F) :
    Except Undef (List Nat) :=
  match sec.keys with
  | [] => .error .null_dereference
  | keys =>
    match load_from_block SIZEOF_INI_KEY keys.length with
    | .ok _ =>
      .ok (serialize_header sec ++ (keys.map (serialize_key libc)).flatten ++ [10])
    | .error u => .error u

/-- The section loop of `ini_serialize`. -/
def serialize_sections (libc : Libc F) :
    List (INI_SECTION F) → Except Undef (List Nat)
  | [] => .ok []
  | sec :: rest =>
    match serialize_section libc sec with
    | .ok out =>
      match serialize_sections libc rest with
      | .ok outs => .ok (out ++ outs)
      | .error u => .error u
    | .error u => .error u

/-- The function `ini_serialize`: the bytes written to the stream.  The macro
`foreach_section` reads `ini->secs[0]` before it tests `secs_count`, and `secs`
is NULL for a document without sections; after the last section it loads
`ini->secs[secs_count]`. -/
def ini_serialize (libc : Libc F) (ini : INI F) : Except Undef (List Nat) :=
  match ini.secs with
  | [] => .error .null_dereference
  | secs =>
    match serialize_sections libc secs with
    | .ok out =>
      match load_from_block SIZEOF_INI_SECTION secs.length with
      | .ok _ => .ok out
      | .error u => .error u
    | .error u => .error u

/-! ## Parsing -/

/-- The name loops of `parse_key` (`stop` is `=`) and of `parse_section` (`stop`
is `]`): `while ((c = buff[pos]) != stop) { name[n] = c; n++; pos++; }` followed
by `name[n] = 0`.  Returns the bytes stored and the buffer from the stop byte on. -/
def scan_name (stop : Nat) : List Nat → List Nat → Except Undef (List Nat × List Nat)
  | [], _ => .error .out_of_bounds_read
  | c :: rest, acc =>
    if acc.length < INI_STR_MAX_LENGTH then
      if c = stop then .ok (acc, c :: rest) else scan_name stop rest (acc ++ [c])
    else .error .buffer_overflow

/-- The outcome of the value loop of `parse_key`. -/
structure ScanValue where
  val : List Nat
  is_str : Bool
  is_float : Bool
  rest : List Nat
deriving DecidableEq, Repr

/-- The value loop of `parse_key`: up to the next newline, recording whether a
white space byte or a letter, and whether a dot, was seen. -/
def scan_value : List Nat → List Nat → Bool → Bool → Except Undef ScanValue
  | [], _, _, _ => .error .out_of_bounds_read
  | c :: rest, acc, is_str, is_float =>
    if acc.length < INI_STR_MAX_LENGTH then
      if c = 10 then .ok ⟨acc, is_str, is_float, c :: rest⟩
      else scan_value rest (acc ++ [c]) (is_str || isspace c || isalpha c)
        (is_float || c == 46)
    else .error .buffer_overflow

/-- The state of `ini_parse`: the document, `last_sec`, and the buffer from `pos`. -/
structure PState (F : Type) where
  ini : INI F
  last_sec : Option Nat
  rest : List Nat
deriving DecidableEq, Repr

/-- The key built by `parse_key` from the name and value buffers. -/
def classify (libc : Libc F) (name : List Nat) (v : ScanValue) :
    Except Undef (INI_KEY F) :=
  if v.is_str then key_set_str name (cstr v.val)
  else if v.is_float then .ok (key_set_f name (libc.atof (cstr v.val)))
  else .ok (key_set_i name (atoi libc (cstr v.val)))

/-- The first statement of `parse_key`: when `last_sec` is NULL the global
section is created, appended, and becomes `last_sec`. -/
def parse_key_open (ini : INI F) (last_sec : Option Nat) : Except Undef (INI F × Nat) :=
  match last_sec with
  | some i => .ok (ini, i)
  | none =>
    match sec_create [] with
    | .ok sec =>
      match ini_add_sec ini sec with
      | .ok ini1 => .ok (ini1, ini.secs.length)
      | .error u => .error u
    | .error u => .error u

/-- The statements of `parse_key` between the first and the last: the two scans
and the key built from them, with the buffer from the newline that ends the
value. -/
def parse_key_scan (libc : Libc F) (rest : List Nat) :
    Except Undef (INI_KEY F × List Nat) :=
  match scan_name 61 rest [] with
  | .error u => .error u
  | .ok (name_buf, at_eq) =>
    match key_create (cstr name_buf) with
    | .error u => .error u
    | .ok name =>
      match scan_value (at_eq.drop 1) [] false false with
      | .error u => .error u
      | .ok v =>
        match classify libc name v with
        | .error u => .error u
        | .ok key => .ok (key, v.rest)

/-- The function `parse_key`, entered with `pos` at the first letter; it leaves
`pos` at the newline that ends the value. -/
def parse_key (libc : Libc F) (st : PState F) : Except Undef (PState F) :=
  match parse_key_open st.ini st.last_sec with
  | .error u => .error u
  | .ok (ini, i) =>
    match parse_key_scan libc st.rest with
    | .error u => .error u
    | .ok (key, at_nl) =>
      match sec_add_key_at ini i key with
      | .ok ini1 => .ok ⟨ini1, some i, at_nl⟩
      | .error u => .error u

/-- The function `parse_section`, entered with `pos` after the `[`; it leaves
`pos` after the `]`. -/
def parse_section (st : PState F) : Except Undef (PState F) :=
  match scan_name 93 st.rest [] with
  | .error u => .error u
  | .ok (name_buf, at_close) =>
    match sec_create (cstr name_buf) with
    | .error u => .error u
    | .ok sec =>
      match ini_add_sec st.ini sec with
      | .ok ini1 => .ok ⟨ini1, some st.ini.secs.length, at_close.drop 1⟩
      | .error u => .error u

/-- The comment loop of `ini_parse`: `none` when a control byte ends the parse,
otherwise the buffer from the newline on. -/
def scan_comment : List Nat → Except Undef (Option (List Nat))
  | [] => .error .out_of_bounds_read
  | c :: rest =>
    if c = 10 then .ok (some (c :: rest))
    else if iscntrl c then .ok none
    else scan_comment rest

/-- What one iteration of the loop of `ini_parse` does. -/
inductive Step (F : Type) where
  | next (st : PState F)
  | ret (code : Int) (ini : INI F)
  | undef (u : Undef)
deriving DecidableEq, Repr

/-- One iteration of the `while` loop of `ini_parse` (the Top state). -/
def parse_step (libc : Libc F) (st : PState F) : Step F :=
  match st.rest with
  | [] => .undef .out_of_bounds_read
  | c :: rest =>
    if c = EOF_BYTE then .ret 1 st.ini
    else if isspace c then .next ⟨st.ini, st.last_sec, rest⟩
    else if iscntrl c then .ret 1 st.ini
    else if c = 59 then
      match scan_comment rest with
      | .error u => .undef u
      | .ok none => .ret 1 st.ini
      | .ok (some at_nl) => .next ⟨st.ini, st.last_sec, at_nl.drop 1⟩
    else if isalpha c then
      match parse_key libc st with
      | .error u => .undef u
      | .ok st1 => .next ⟨st1.ini, st1.last_sec, st1.rest.drop 1⟩
    else if c = 91 then
      match parse_section ⟨st.ini, st.last_sec, rest⟩ with
      | .error u => .undef u
      | .ok st1 => .next ⟨st1.ini, st1.last_sec, st1.rest.drop 1⟩
    else .ret 0 st.ini

/-- The `while` loop of `ini_parse`; every iteration advances `pos`, so `fuel`
above the length of the buffer is never used up. -/
def parse_loop (libc : Libc F) : Nat → PState F → Except Undef (Int × INI F)
  | 0, _ => .error .fuel_exhausted
  | fuel + 1, st =>
    match parse_step libc st with
    | .next st1 => parse_loop libc fuel st1
    | .ret code ini => .ok (code, ini)
    | .undef u => .error u

/-- The function `ini_parse` on the content `file` of the file at `path`:
`parse_buffer_stream` copies it into a zeroed buffer one byte longer.  The
result is the returned code and the document as the call leaves it. -/
def ini_parse (libc : Libc F) (ini : INI F) (file : List Nat) :
    Except Undef (Int × INI F) :=
  parse_loop libc (file.length + 2) ⟨ini, none, file ++ [0]⟩

/-- The loop of `ini_parse` from a state, with fuel above the length of the
buffer. -/
def run (libc : Libc F) (st : PState F) : Except Undef (Int × INI F) :=
  parse_loop libc (st.rest.length + 1) st

/-! ## Observations used by the statements -/

/-- The keys of a document in stored order, each with the name of its section. -/
def triples (ini : INI F) : List (List Nat × List Nat × Value F) :=
  (ini.secs.map (fun sec => sec.keys.map (fun key => (sec.sec_name, key.key_name, key.val)))).flatten

/-- The number of keys of a document. -/
def key_count (ini : INI F) : Nat :=
  (ini.secs.map (fun sec => sec.keys.length)).sum

/-! ## The line-oriented reading of the format -/

/-- A name or text that fits the document model: shorter than the capacity and
without the terminator byte. -/
def bounded (s : List Nat) : Prop := s.length < INI_STR_MAX_LENGTH ∧ 0 ∉ s

instance (s : List Nat) : Decidable (bounded s) := by
  unfold bounded; infer_instance

/-- Every byte is white space. -/
def all_space (ws : List Nat) : Prop := ∀ c ∈ ws, isspace c = true

instance (ws : List Nat) : Decidable (all_space ws) := by
  unfold all_space; infer_instance

/-- The first byte exists and is a letter. -/
def starts_with_letter : List Nat → Bool
  | [] => false
  | c :: _ => isalpha c

/-- The value bytes contain a white space byte or a letter. -/
def has_text_byte (value : List Nat) : Bool := value.any (fun c => isspace c || isalpha c)

/-- The value bytes contain a dot. -/
def has_dot (value : List Nat) : Bool := value.any (fun c => c == 46)

/-- The type heuristic in the words of the specification: Text when a byte is
white space or a letter, else Float when a byte is a dot, else Integer. -/
def value_of_text (libc : Libc F) (value : List Nat) : Value F :=
  if has_text_byte value then .sval value
  else if has_dot value then .fval (libc.atof value)
  else .ival (atoi libc value)

/-- The value `parse_key` builds from the bytes it stored in the value buffer:
the variant is decided by all of the bytes, while `key_set_str`, `atof` and
`atoi` read the buffer as a string, which ends at its first NUL byte. -/
def value_of_scan (libc : Libc F) (value : List Nat) : Value F :=
  if has_text_byte value then .sval (cstr value)
  else if has_dot value then .fval (libc.atof (cstr value))
  else .ival (atoi libc (cstr value))

/-- A line of the text format, without its newline: leading white space `ws`
followed by nothing, by a comment, by a section header, or by `name=value`. -/
inductive Line where
  | blank (ws : List Nat)
  | comment (ws body : List Nat)
  | header (ws name : List Nat)
  | key (ws name value : List Nat)
deriving DecidableEq, Repr

/-- The bytes of a line, newline included. -/
def Line.render : Line → List Nat
  | .blank ws => ws ++ [10]
  | .comment ws body => ws ++ 59 :: body ++ [10]
  | .header ws name => ws ++ 91 :: name ++ [93, 10]
  | .key ws name value => ws ++ name ++ 61 :: value ++ [10]

/-- The bytes of a sequence of lines. -/
def render_lines (lines : List Line) : List Nat := (lines.map Line.render).flatten

/-- The lines of the format: a comment body has no control byte, a header name
has no `]` and no newline, a key name starts with a letter and has no `=` and no
newline, a value has no newline; names and values fit the document model. -/
def Line.well_formed : Line → Prop
  | .blank ws => all_space ws
  | .comment ws body => all_space ws ∧ ∀ c ∈ body, iscntrl c = false
  | .header ws name => all_space ws ∧ 93 ∉ name ∧ 10 ∉ name ∧ bounded name
  | .key ws name value =>
    all_space ws ∧ starts_with_letter name = true ∧ 61 ∉ name ∧ 10 ∉ name ∧ bounded name ∧
      10 ∉ value ∧ bounded value

instance (l : Line) : Decidable l.well_formed := by
  cases l <;> (unfold Line.well_formed; infer_instance)

/-- The state of the line-oriented reference: the sections already closed and
the current section, if one is open. -/
structure RefState (F : Type) where
  closed : List (INI_SECTION F)
  current : Option (INI_SECTION F)
deriving DecidableEq, Repr

/-- The reference on one line: a header closes the current section and opens a
new one; a key line appends a key to the current section, opening the global
section when none is open; other lines do nothing. -/
def ref_line (libc : Libc F) (rs : RefState F) : Line → RefState F
  | .blank _ => rs
  | .comment _ _ => rs
  | .header _ name => ⟨rs.closed ++ rs.current.toList, some ⟨name, []⟩⟩
  | .key _ name value =>
    match rs.current with
    | some sec => ⟨rs.closed, some ⟨sec.sec_name, sec.keys ++ [⟨name, value_of_text libc value⟩]⟩⟩
    | none => ⟨rs.closed, some ⟨[], [⟨name, value_of_text libc value⟩]⟩⟩

/-- The document a reference state stands for. -/
def ref_document (rs : RefState F) : INI F := ⟨rs.closed ++ rs.current.toList⟩

/-- The pointer `last_sec` a reference state stands for. -/
def ref_last_sec (rs : RefState F) : Option Nat := rs.current.map (fun _ => rs.closed.length)

/-- The reference on a sequence of lines, from the empty document. -/
def ref_parse (libc : Libc F) (lines : List Line) : INI F :=
  ref_document (lines.foldl (ref_line libc) ⟨[], none⟩)

/-- The first and the last statement of `parse_key`, with the key built in
between: the global section is created when `last_sec` is NULL, and
`sec_add_key(*last_sec, key)` is called. -/
def add_to_current (ini : INI F) (last : Option Nat) (key : INI_KEY F) :
    Except Undef (INI F × Option Nat) :=
  match parse_key_open ini last with
  | .ok (ini0, i) =>
    match sec_add_key_at ini0 i key with
    | .ok ini1 => .ok (ini1, some i)
    | .error u => .error u
  | .error u => .error u

/-- What the parser does to the document and to `last_sec` on one line of the
format: the call `ini_add_sec` of `parse_section`, and for a key line the first
and the last statement of `parse_key`. -/
def exec_line (libc : Libc F) (ini : INI F) (last : Option Nat) :
    Line → Except Undef (INI F × Option Nat)
  | .blank _ => .ok (ini, last)
  | .comment _ _ => .ok (ini, last)
  | .header _ name =>
    match ini_add_sec ini ⟨name, []⟩ with
    | .ok ini1 => .ok (ini1, some ini.secs.length)
    | .error u => .error u
  | .key _ name value => add_to_current ini last ⟨name, value_of_text libc value⟩

/-- The same on a sequence of lines. -/
def exec_lines (libc : Libc F) (ini : INI F) (last : Option Nat) :
    List Line → Except Undef (INI F × Option Nat)
  | [] => .ok (ini, last)
  | l :: ls =>
    match exec_line libc ini last l with
    | .ok (ini1, last1) => exec_lines libc ini1 last1 ls
    | .error u => .error u

/-- The number of pointers the block of `sec->keys` holds. -/
def KEYS_MAX : Nat := SIZEOF_INI_KEY / SIZEOF_POINTER

/-- The number of pointers the block of `ini->secs` holds. -/
def SECS_MAX : Nat := SIZEOF_INI_SECTION / SIZEOF_POINTER

/-- The arrays of the document are within their blocks. -/
def fits (d : INI F) : Prop :=
  d.secs.length ≤ SECS_MAX ∧ ∀ sec ∈ d.secs, sec.keys.length ≤ KEYS_MAX

instance (d : INI F) : Decidable (fits d) := by
  unfold fits; infer_instance

/-- The arrays of the document leave one pointer of their blocks free, so that
the loads of `ini_serialize` after the last element are within the blocks. -/
def fits_loads (d : INI F) : Prop :=
  d.secs.length < SECS_MAX ∧ ∀ sec ∈ d.secs, sec.keys.length < KEYS_MAX

instance (d : INI F) : Decidable (fits_loads d) := by
  unfold fits_loads; infer_instance

/-- The block that a key added under the section name `s` is stored in has a
free pointer: the block of the keys of the first section named `s`, or, when no
section has that name, the block of the sections. -/
def has_room (ini : INI F) (s : List Nat) : Prop :=
  match section_at ini (ini_get_section ini s) with
  | some sec => sec.keys.length < KEYS_MAX
  | none => ini.secs.length < SECS_MAX

instance (ini : INI F) (s : List Nat) : Decidable (has_room ini s) := by
  unfold has_room; split <;> infer_instance

/-! ## The lines written by the serializer -/

/-- The text `ini_serialize` writes for a value. -/
def value_text (libc : Libc F) : Value F → List Nat
  | .ival v => fmt_i v
  | .fval v => libc.fmt_f v
  | .sval v => v

/-- The line written for a key. -/
def key_line (libc : Libc F) (key : INI_KEY F) : Line :=
  .key [] key.key_name (value_text libc key.val)

/-- The lines written for a section: the header unless the name is empty, the
keys, one blank line. -/
def section_lines (libc : Libc F) (sec : INI_SECTION F) : List Line :=
  (if sec.sec_name = [] then [] else [Line.header [] sec.sec_name]) ++
    sec.keys.map (key_line libc) ++ [Line.blank []]

/-- The lines written for a document. -/
def document_lines (libc : Libc F) (ini : INI F) : List Line :=
  (ini.secs.map (section_lines libc)).flatten

/-! ## Conditions on documents -/

/-- Free of the bytes `=`, `[`, `]`, `;` and newline. -/
def plain (s : List Nat) : Prop := 61 ∉ s ∧ 91 ∉ s ∧ 93 ∉ s ∧ 59 ∉ s ∧ 10 ∉ s

instance (s : List Nat) : Decidable (plain s) := by
  unfold plain; infer_instance

/-- A value whose text, if it is a Text, is plain. -/
def plain_value : Value F → Prop
  | .sval v => plain v
  | _ => True

instance (v : Value F) : Decidable (plain_value v) := by
  cases v <;> (unfold plain_value; infer_instance)

/-- Section names, key names and values are plain. -/
def plain_document (d : INI F) : Prop :=
  ∀ sec ∈ d.secs, plain sec.sec_name ∧
    ∀ key ∈ sec.keys, plain key.key_name ∧ plain_value key.val

instance (d : INI F) : Decidable (plain_document d) := by
  unfold plain_document; infer_instance

/-- A value the text form gives back: a C `int`, or a Text of the document
model with a letter or a white space byte. -/
def stable_value : Value F → Prop
  | .ival v => INT_MIN ≤ v ∧ v ≤ INT_MAX
  | .fval _ => False
  | .sval v => has_text_byte v = true ∧ bounded v

instance (v : Value F) : Decidable (stable_value v) := by
  cases v <;> (unfold stable_value; infer_instance)

/-- A key the text form gives back: its name is a name of the document model
that starts with a letter, its value is stable. -/
def stable_key (key : INI_KEY F) : Prop :=
  starts_with_letter key.key_name = true ∧ bounded key.key_name ∧ stable_value key.val

instance (key : INI_KEY F) : Decidable (stable_key key) := by
  unfold stable_key; infer_instance

/-- Only the first section may have the empty name. -/
def named_tail : List (INI_SECTION F) → Prop
  | [] => True
  | _ :: rest => ∀ sec ∈ rest, sec.sec_name ≠ []

instance (secs : List (INI_SECTION F)) : Decidable (named_tail secs) := by
  cases secs <;> (unfold named_tail; infer_instance)

/-- The documents the restricted round trip is about: at least one section,
every section with at least one key, the empty name only for the first section,
section names of the document model, stable keys. -/
def round_trippable (d : INI F) : Prop :=
  d.secs ≠ [] ∧ named_tail d.secs ∧
    ∀ sec ∈ d.secs, bounded sec.sec_name ∧ sec.keys ≠ [] ∧ ∀ key ∈ sec.keys, stable_key key

instance (d : INI F) [DecidableEq F] : Decidable (round_trippable d) := by
  unfold round_trippable; infer_instance

/-- A Float the text form gives back: `%f` writes it without a letter or a white
space byte and with a dot, in a text of the document model, and `atof` reads the
same Float from that text. -/
def stable_float (libc : Libc F) (x : F) : Prop :=
  has_text_byte (libc.fmt_f x) = false ∧ has_dot (libc.fmt_f x) = true ∧
    bounded (libc.fmt_f x) ∧ libc.atof (libc.fmt_f x) = x

instance (libc : Libc F) [DecidableEq F] (x : F) : Decidable (stable_float libc x) := by
  unfold stable_float; infer_instance

/-- A value the text form gives back: a C `int`, a stable Float, or a Text of the
document model with a letter or a white space byte. -/
def returned_value (libc : Libc F) : Value F → Prop
  | .ival v => INT_MIN ≤ v ∧ v ≤ INT_MAX
  | .fval v => stable_float libc v
  | .sval v => has_text_byte v = true ∧ bounded v

instance (libc : Libc F) [DecidableEq F] (v : Value F) : Decidable (returned_value libc v) := by
  cases v <;> (unfold returned_value; infer_instance)

/-- A key the text form gives back: its name is a name of the document model
that starts with a letter, its value is one the text form gives back. -/
def returned_key (libc : Libc F) (key : INI_KEY F) : Prop :=
  starts_with_letter key.key_name = true ∧ bounded key.key_name ∧
    returned_value libc key.val

instance (libc : Libc F) [DecidableEq F] (key : INI_KEY F) :
    Decidable (returned_key libc key) := by
  unfold returned_key; infer_instance

/-- The sections with the empty name that lead the document. -/
def leading_unnamed (secs : List (INI_SECTION F)) : List (INI_SECTION F) :=
  secs.takeWhile (fun sec => sec.sec_name.isEmpty)

/-- The sections from the first one that has a name. -/
def from_first_named (secs : List (INI_SECTION F)) : List (INI_SECTION F) :=
  secs.dropWhile (fun sec => sec.sec_name.isEmpty)

/-- No section with the empty name follows a section that has a name. -/
def unnamed_lead (secs : List (INI_SECTION F)) : Prop :=
  ∀ sec ∈ from_first_named secs, sec.sec_name ≠ []

instance (secs : List (INI_SECTION F)) : Decidable (unnamed_lead secs) := by
  unfold unnamed_lead; infer_instance

/-- The keys of the sections with the empty name that lead the document. -/
def leading_keys (secs : List (INI_SECTION F)) : List (INI_KEY F) :=
  ((leading_unnamed secs).map (fun sec => sec.keys)).flatten

/-- The documents of the round trip: at least one section, every section with at
least one key, no section with the empty name after a section that has a name,
section names of the document model, keys the text form gives back. -/
def returned_document (libc : Libc F) (d : INI F) : Prop :=
  d.secs ≠ [] ∧ unnamed_lead d.secs ∧
    ∀ sec ∈ d.secs, bounded sec.sec_name ∧ sec.keys ≠ [] ∧
      ∀ key ∈ sec.keys, returned_key libc key

instance (libc : Libc F) [DecidableEq F] (d : INI F) :
    Decidable (returned_document libc d) := by
  unfold returned_document; infer_instance

/-- A C library whose floats are named by the text `%f` writes for them, which
`atof` reads back; it instantiates the statements on concrete inputs with a
Float that its text gives back. -/
def text_libc : Libc (List Nat) :=
  ⟨fun s => s, fun _ => 0, fun x => x, fun _ => 0, fun _ => [], fun _ => 0⟩

/-- A C library with two floats, `true` for a float below the precision of `%f`
and `false` for zero: both are written `0.000000`, from which `atof` reads zero. -/
def coarse_libc : Libc Bool :=
  ⟨fun _ => false, fun _ => 0, fun _ => bytes "0.000000", fun _ => 0, fun _ => false,
    fun _ => 0⟩

/-! ## Notions used by the statements about the parser -/

/-- A byte the Top state has no branch for: not white space, not a control
byte, not `;`, not a letter, not `[`. -/
def unrecognised (c : Nat) : Bool :=
  !isspace c && !iscntrl c && c != 59 && !isalpha c && c != 91

/-- The relation `Visits libc st st1`: the loop of `ini_parse`, started in
`st`, evaluates its condition in `st1`. -/
inductive Visits (libc : Libc F) : PState F → PState F → Prop where
  | start (st : PState F) : Visits libc st st
  | step (st st1 st2 : PState F) :
    parse_step libc st = .next st1 → Visits libc st1 st2 → Visits libc st st2

/-- A text in which every line is ended by a newline. -/
def complete_lines (p : List Nat) : Prop := p = [] ∨ p.getLast? = some 10

instance (p : List Nat) : Decidable (complete_lines p) := by
  unfold complete_lines; infer_instance

/-- Whether a line is a section header. -/
def Line.is_header : Line → Bool
  | .header _ _ => true
  | _ => false

/-- The keys of the key lines among `lines`, in order. -/
def line_keys (libc : Libc F) (lines : List Line) : List (INI_KEY F) :=
  lines.filterMap (fun l =>
    match l with
    | .key _ name value => some ⟨name, value_of_text libc value⟩
    | _ => none)

/-- The global section holding `keys`: absent when there is no key. -/
def global_section (keys : List (INI_KEY F)) : List (INI_SECTION F) :=
  match keys with
  | [] => []
  | keys => [⟨[], keys⟩]

/-- The document that the text written for `d` is read as: `ini_serialize` writes
no header for a section with the empty name, so the sections with the empty name
that lead the document are read as one global section. -/
def read_back (d : INI F) : INI F :=
  ⟨global_section (leading_keys d.secs) ++ from_first_named d.secs⟩

/-- The names of the header lines among `lines`, in order. -/
def header_names (lines : List Line) : List (List Nat) :=
  lines.filterMap (fun l =>
    match l with
    | .header _ name => some name
    | _ => none)

/-! ## The wrapper `ini.hpp` -/

/-- The method `ini::exist`. -/
def exist (ini : INI F) (sec_name key_name : List Nat) : Bool :=
  ini_does_key_exist ini sec_name key_name

/-- The method `ini::get<int>`. -/
def get_int (libc : Libc F) (ini : INI F) (sec_name key_name : List Nat) :
    Except Undef Int :=
  ini_get_key_i libc ini sec_name key_name

/-- The method `ini::get<float>`. -/
def get_float (libc : Libc F) (ini : INI F) (sec_name key_name : List Nat) :
    Except Undef F :=
  ini_get_key_f libc ini sec_name key_name

/-- The method `ini::get<std::string>`: the text is copied into a local buffer
of `INI_STR_MAX_LENGTH` bytes. -/
def get_string (libc : Libc F) (ini : INI F) (sec_name key_name : List Nat) :
    Except Undef (List Nat) :=
  ini_get_key_str libc ini sec_name key_name INI_STR_MAX_LENGTH

/-- The method `ini::get_opt<int>`. -/
def get_opt_int (libc : Libc F) (ini : INI F) (sec_name key_name : List Nat) :
    Except Undef (Option Int) :=
  if exist ini sec_name key_name then
    match ini_get_key_i libc ini sec_name key_name with
    | .ok v => .ok (some v)
    | .error u => .error u
  else .ok none

/-- The method `ini::get_opt<float>`. -/
def get_opt_float (libc : Libc F) (ini : INI F) (sec_name key_name : List Nat) :
    Except Undef (Option F) :=
  if exist ini sec_name key_name then
    match ini_get_key_f libc ini sec_name key_name with
    | .ok v => .ok (some v)
    | .error u => .error u
  else .ok none

/-- The method `ini::get_opt<std::string>`. -/
def get_opt_string (libc : Libc F) (ini : INI F) (sec_name key_name : List Nat) :
    Except Undef (Option (List Nat)) :=
  if exist ini sec_name key_name then
    match ini_get_key_str libc ini sec_name key_name INI_STR_MAX_LENGTH with
    | .ok v => .ok (some v)
    | .error u => .error u
  else .ok none

/-! ## Sequences of `set` calls -/

/-- The arguments of one call of `set`. -/
structure SetCall (F : Type) where
  sec_name : List Nat
  key_name : List Nat
  val : Value F
deriving DecidableEq, Repr

/-- A sequence of `set` calls, from left to right. -/
def apply_sets : INI F → List (SetCall F) → Except Undef (INI F)
  | ini, [] => .ok ini
  | ini, c :: cs =>
    match ini_add_key ini c.sec_name c.key_name c.val with
    | .ok ini1 => apply_sets ini1 cs
    | .error u => .error u

/-- A value whose text, if it is a Text, has no newline. -/
def single_line_value : Value F → Prop
  | .sval t => 10 ∉ t
  | _ => True

instance (v : Value F) : Decidable (single_line_value v) := by
  cases v <;> (unfold single_line_value; infer_instance)

/-- A key that `ini_serialize` writes as one line that `parse_key` reads back:
its name starts with a letter and holds no `=` and no newline, its value is an
Integer or a Text with a letter or a white space byte and without newline;
names and texts are those of the document model. -/
def good_key (key : INI_KEY F) : Prop :=
  stable_key key ∧ 61 ∉ key.key_name ∧ 10 ∉ key.key_name ∧ single_line_value key.val

instance (key : INI_KEY F) : Decidable (good_key key) := by
  unfold good_key; infer_instance

/-- A section that `ini_serialize` writes as lines that the parser reads back:
a name of the document model without `]` and newline, at least one key, good
keys. -/
def good_section (sec : INI_SECTION F) : Prop :=
  bounded sec.sec_name ∧ 93 ∉ sec.sec_name ∧ 10 ∉ sec.sec_name ∧ sec.keys ≠ [] ∧
    ∀ key ∈ sec.keys, good_key key

/-- The conditions (ii) to (v) on one call of `set`. -/
def restricted_call (c : SetCall F) : Prop :=
  bounded c.sec_name ∧ 93 ∉ c.sec_name ∧ 10 ∉ c.sec_name ∧ good_key ⟨c.key_name, c.val⟩

instance (c : SetCall F) : Decidable (restricted_call c) := by
  unfold restricted_call; infer_instance

/-- Condition (i) for calls applied to a document with the sections `secs`: a
call with the empty section name finds the empty name on the first section,
which is the first of `secs`, or the one the first call creates. -/
def empty_name_first : List (INI_SECTION F) → List (SetCall F) → Prop
  | [], [] => True
  | [], c :: cs => ∀ x ∈ cs, x.sec_name = [] → c.sec_name = []
  | sec :: _, calls => ∀ x ∈ calls, x.sec_name = [] → sec.sec_name = []

instance (secs : List (INI_SECTION F)) (calls : List (SetCall F)) :
    Decidable (empty_name_first secs calls) := by
  cases secs with
  | nil => cases calls <;> (unfold empty_name_first; infer_instance)
  | cons sec secs => unfold empty_name_first; infer_instance

/-- The sequences of calls of the restricted round trip. -/
def restricted_calls (calls : List (SetCall F)) : Prop :=
  (∀ c ∈ calls, restricted_call c) ∧ empty_name_first [] calls

instance (calls : List (SetCall F)) : Decidable (restricted_calls calls) := by
  unfold restricted_calls; infer_instance

/-! ## Observations for the statements about lookup and `atoi` -/

/-- The key that the lookups of the library reach: the first key named `k` of
the first section named `s`. -/
def find_key (ini : INI F) (s k : List Nat) : Option (INI_KEY F) :=
  (ini.secs.find? (fun sec => sec.sec_name == s)).bind
    (fun sec => sec.keys.find? (fun key => key.key_name == k))

/-- The number denoted by decimal digits. -/
def decimal (ds : List Nat) : Nat := ds.foldl (fun n d => n * 10 + (d - 48)) 0

/-- The longest prefix of decimal digits. -/
def leading_digits (s : List Nat) : List Nat := s.takeWhile isdigit

/-- The number denoted by the longest prefix made of an optional sign followed
by decimal digits; 0 when that prefix has no digit. -/
def prefix_number (s : List Nat) : Int :=
  match s with
  | 45 :: r => - (decimal (leading_digits r) : Int)
  | 43 :: r => (decimal (leading_digits r) : Int)
  | r => (decimal (leading_digits r) : Int)

/-! ## Library functions and scanning loops -/

theorem cstr_of_no_nul (l : List Nat) (h : 0 ∉ l) : cstr l = l := by
  unfold cstr
  rw [List.takeWhile_eq_self_iff]
  intro x hx
  have : x ≠ 0 := fun e => h (e ▸ hx)
  simpa using this

theorem strcpy_s_ok (cap : Nat) (src : List Nat) (h : src.length < cap) :
    strcpy_s cap src = .ok src := by
  simp [strcpy_s, h]

theorem scan_name_spec (stop : Nat) (pre rest : List Nat) :
    ∀ acc : List Nat, stop ∉ pre → (acc ++ pre).length < INI_STR_MAX_LENGTH →
      scan_name stop (pre ++ stop :: rest) acc = .ok (acc ++ pre, stop :: rest) := by
  induction pre with
  | nil =>
    intro acc _ hlen
    have : acc.length < INI_STR_MAX_LENGTH := by simpa using hlen
    simp [scan_name, this]
  | cons c pre ih =>
    intro acc hstop hlen
    have hc : c ≠ stop := fun e => hstop (by simp [e])
    have hpre : stop ∉ pre := fun e => hstop (by simp [e])
    have hl : acc.length < INI_STR_MAX_LENGTH := by
      simp only [List.length_append, List.length_cons] at hlen; omega
    have := ih (acc ++ [c]) hpre (by simpa using hlen)
    simp [scan_name, hl, hc, this]

theorem scan_value_spec (v rest : List Nat) :
    ∀ (acc : List Nat) (s f : Bool), 10 ∉ v → (acc ++ v).length < INI_STR_MAX_LENGTH →
      scan_value (v ++ 10 :: rest) acc s f =
        .ok ⟨acc ++ v, s || v.any (fun c => isspace c || isalpha c),
          f || v.any (fun c => c == 46), 10 :: rest⟩ := by
  induction v with
  | nil =>
    intro acc s f _ hlen
    have : acc.length < INI_STR_MAX_LENGTH := by simpa using hlen
    simp [scan_value, this]
  | cons c v ih =>
    intro acc s f hnl hlen
    have hc : c ≠ 10 := fun e => hnl (by simp [e])
    have hv : 10 ∉ v := fun e => hnl (by simp [e])
    have hl : acc.length < INI_STR_MAX_LENGTH := by
      simp only [List.length_append, List.length_cons] at hlen; omega
    have := ih (acc ++ [c]) (s || isspace c || isalpha c) (f || c == 46) hv (by simpa using hlen)
    show scan_value (c :: (v ++ 10 :: rest)) acc s f = _
    simp only [scan_value, hl, hc, if_true, if_false]
    rw [this]
    simp [Bool.or_assoc]

theorem scan_comment_spec (body rest : List Nat) (h : ∀ c ∈ body, iscntrl c = false) :
    scan_comment (body ++ 10 :: rest) = .ok (some (10 :: rest)) := by
  induction body with
  | nil => simp [scan_comment]
  | cons c body ih =>
    have hc : iscntrl c = false := h c (by simp)
    have hne : c ≠ 10 := by
      intro e; subst e; simp [iscntrl] at hc
    have := ih (fun x hx => h x (by simp [hx]))
    simp [scan_comment, hc, hne, this]

theorem scan_name_inv (stop : Nat) :
    ∀ (buf acc name r : List Nat), scan_name stop buf acc = .ok (name, r) →
      ∃ pre rest, buf = pre ++ stop :: rest ∧ r = stop :: rest ∧ name = acc ++ pre ∧
        stop ∉ pre ∧ name.length < INI_STR_MAX_LENGTH := by
  intro buf
  induction buf with
  | nil => intro acc name r h; simp [scan_name] at h
  | cons c buf ih =>
    intro acc name r h
    unfold scan_name at h
    split at h
    · rename_i hl
      split at h
      · rename_i hc
        simp only [Except.ok.injEq, Prod.mk.injEq] at h
        refine ⟨[], buf, by simp [hc], by simp [← h.2, hc], by simp [h.1], by simp, by simpa [← h.1] using hl⟩
      · rename_i hc
        obtain ⟨pre, rest, h1, h2, h3, h4, h5⟩ := ih _ _ _ h
        refine ⟨c :: pre, rest, by simp [h1], h2, by simp [h3], ?_, h5⟩
        simp only [List.mem_cons, not_or]
        exact ⟨fun e => hc e.symm, h4⟩
    · simp at h

theorem scan_value_inv :
    ∀ (buf acc : List Nat) (s f : Bool) (v : ScanValue), scan_value buf acc s f = .ok v →
      ∃ pre rest, buf = pre ++ 10 :: rest ∧ v.rest = 10 :: rest ∧ v.val = acc ++ pre ∧
        10 ∉ pre ∧ v.val.length < INI_STR_MAX_LENGTH := by
  intro buf
  induction buf with
  | nil => intro acc s f v h; simp [scan_value] at h
  | cons c buf ih =>
    intro acc s f v h
    unfold scan_value at h
    split at h
    · rename_i hl
      split at h
      · rename_i hc
        simp only [Except.ok.injEq] at h
        subst h
        exact ⟨[], buf, by simp [hc], by simp [hc], by simp, by simp, hl⟩
      · rename_i hc
        obtain ⟨pre, rest, h1, h2, h3, h4, h5⟩ := ih _ _ _ _ h
        refine ⟨c :: pre, rest, by simp [h1], h2, by simp [h3], ?_, h5⟩
        simp only [List.mem_cons, not_or]
        exact ⟨fun e => hc e.symm, h4⟩
    · simp at h

theorem scan_comment_inv :
    ∀ (buf r : List Nat), scan_comment buf = .ok (some r) →
      ∃ pre rest, buf = pre ++ 10 :: rest ∧ r = 10 :: rest ∧ ∀ c ∈ pre, iscntrl c = false := by
  intro buf
  induction buf with
  | nil => intro r h; simp [scan_comment] at h
  | cons c buf ih =>
    intro r h
    unfold scan_comment at h
    split at h
    · rename_i hc
      simp only [Except.ok.injEq, Option.some.injEq] at h
      exact ⟨[], buf, by simp [hc], by simp [← h, hc], by simp⟩
    · split at h
      · simp at h
      · rename_i hc
        obtain ⟨pre, rest, h1, h2, h3⟩ := ih _ h
        refine ⟨c :: pre, rest, by simp [h1], h2, ?_⟩
        intro x hx
        rcases List.mem_cons.1 hx with e | e
        · subst e; simpa using hc
        · exact h3 x e

theorem parse_key_scan_rest (libc : Libc F) (rest at_nl : List Nat) (key : INI_KEY F)
    (h : parse_key_scan libc rest = .ok (key, at_nl)) :
    at_nl.length + 1 ≤ rest.length ∧ at_nl ≠ [] := by
  unfold parse_key_scan at h
  split at h
  · simp at h
  · rename_i name_buf at_eq hname
    split at h
    · simp at h
    · split at h
      · simp at h
      · rename_i v hv
        split at h
        · simp at h
        · simp only [Except.ok.injEq, Prod.mk.injEq] at h
          obtain ⟨-, h⟩ := h
          subst h
          obtain ⟨pre, rest1, h1, h2, -, -, -⟩ := scan_name_inv _ _ _ _ _ hname
          obtain ⟨pre2, rest2, g1, g2, -, -, -⟩ := scan_value_inv _ _ _ _ _ hv
          subst h2
          simp only [List.drop_succ_cons, List.drop_zero] at g1
          subst g1
          simp [h1, g2]
          omega

theorem parse_key_rest (libc : Libc F) (st st1 : PState F)
    (h : parse_key libc st = .ok st1) : st1.rest.length + 1 ≤ st.rest.length ∧ st1.rest ≠ [] := by
  unfold parse_key at h
  split at h
  · simp at h
  · rename_i ini i hopen
    split at h
    · simp at h
    · rename_i key at_nl hscan
      split at h
      · simp only [Except.ok.injEq] at h
        subst h
        exact parse_key_scan_rest libc _ _ _ hscan
      · simp at h

theorem parse_section_rest (st st1 : PState F)
    (h : parse_section st = .ok st1) : st1.rest.length + 1 ≤ st.rest.length := by
  unfold parse_section at h
  split at h
  · simp at h
  · rename_i name_buf at_close hname
    split at h
    · simp at h
    · split at h
      · simp only [Except.ok.injEq] at h
        subst h
        obtain ⟨pre, rest, h1, h2, -, -, -⟩ := scan_name_inv _ _ _ _ _ hname
        simp [h1, h2]
      · simp at h

theorem parse_step_decreases (libc : Libc F) (st st1 : PState F)
    (h : parse_step libc st = .next st1) : st1.rest.length < st.rest.length := by
  unfold parse_step at h
  split at h
  · simp at h
  · rename_i c rest hrest
    rw [hrest]
    split at h
    · simp at h
    split at h
    · simp only [Step.next.injEq] at h
      subst h; simp
    split at h
    · simp at h
    split at h
    · split at h
      · simp at h
      · simp at h
      · rename_i at_nl hc
        simp only [Step.next.injEq] at h
        subst h
        obtain ⟨pre, r, h1, h2, -⟩ := scan_comment_inv _ _ hc
        simp [h1, h2]; omega
    split at h
    · split at h
      · simp at h
      · rename_i st2 hk
        simp only [Step.next.injEq] at h
        subst h
        have := parse_key_rest libc st st2 hk
        rw [hrest] at this
        simp only [List.length_drop, List.length_cons] at *
        omega
    split at h
    · split at h
      · simp at h
      · rename_i st2 hk
        simp only [Step.next.injEq] at h
        subst h
        have := parse_section_rest _ st2 hk
        simp only [List.length_drop, List.length_cons] at *
        omega
    · simp at h

theorem parse_loop_fuel (libc : Libc F) :
    ∀ (f1 f2 : Nat) (st : PState F), st.rest.length < f1 → st.rest.length < f2 →
      parse_loop libc f1 st = parse_loop libc f2 st := by
  intro f1
  induction f1 with
  | zero => intro f2 st h; omega
  | succ f1 ih =>
    intro f2 st h1 h2
    cases f2 with
    | zero => omega
    | succ f2 =>
      unfold parse_loop
      cases hs : parse_step libc st with
      | next st1 =>
        have := parse_step_decreases libc st st1 hs
        exact ih f2 st1 (by omega) (by omega)
      | ret code ini => rfl
      | undef u => rfl

theorem run_next (libc : Libc F) (st st1 : PState F)
    (h : parse_step libc st = .next st1) : run libc st = run libc st1 := by
  have hd := parse_step_decreases libc st st1 h
  unfold run
  conv_lhs => unfold parse_loop
  simp only [h]
  exact parse_loop_fuel libc _ _ st1 hd (by omega)

theorem run_ret (libc : Libc F) (st : PState F) (code : Int) (ini : INI F)
    (h : parse_step libc st = .ret code ini) : run libc st = .ok (code, ini) := by
  unfold run
  unfold parse_loop
  simp only [h]

theorem run_undef (libc : Libc F) (st : PState F) (u : Undef)
    (h : parse_step libc st = .undef u) : run libc st = .error u := by
  unfold run
  unfold parse_loop
  simp only [h]

theorem ini_parse_eq_run (libc : Libc F) (ini : INI F) (file : List Nat) :
    ini_parse libc ini file = run libc ⟨ini, none, file ++ [0]⟩ := by
  unfold ini_parse run
  simp

/-! ## One iteration of the loop on each kind of line -/

theorem isspace_facts (c : Nat) (h : isspace c = true) : c ≠ EOF_BYTE := by
  simp only [isspace, Bool.or_eq_true, beq_iff_eq, Bool.and_eq_true, decide_eq_true_eq] at h
  unfold EOF_BYTE
  omega

theorem isalpha_facts (c : Nat) (h : isalpha c = true) :
    c ≠ EOF_BYTE ∧ isspace c = false ∧ iscntrl c = false ∧ c ≠ 59 ∧ c ≠ 61 ∧ c ≠ 10 ∧ c ≠ 0 := by
  simp only [isalpha, Bool.or_eq_true, Bool.and_eq_true, decide_eq_true_eq] at h
  refine ⟨?_, ?_, ?_, ?_, ?_, ?_, ?_⟩
  · unfold EOF_BYTE; omega
  · simp only [isspace, Bool.or_eq_false_iff, beq_eq_false_iff_ne, Bool.and_eq_false_iff,
      decide_eq_false_iff_not]; omega
  · simp only [iscntrl, Bool.or_eq_false_iff, beq_eq_false_iff_ne,
      decide_eq_false_iff_not]; omega
  all_goals omega

theorem run_space (libc : Libc F) (ini : INI F) (last : Option Nat) (c : Nat)
    (rest : List Nat) (h : isspace c = true) :
    run libc ⟨ini, last, c :: rest⟩ = run libc ⟨ini, last, rest⟩ := by
  apply run_next
  simp [parse_step, isspace_facts c h, h]

theorem run_spaces (libc : Libc F) (ini : INI F) (last : Option Nat) (ws rest : List Nat)
    (h : all_space ws) : run libc ⟨ini, last, ws ++ rest⟩ = run libc ⟨ini, last, rest⟩ := by
  induction ws with
  | nil => rfl
  | cons c ws ih =>
    have hc : isspace c = true := h c (by simp)
    rw [List.cons_append, run_space libc ini last c _ hc]
    exact ih (fun x hx => h x (by simp [hx]))

theorem run_comment (libc : Libc F) (ini : INI F) (last : Option Nat) (body rest : List Nat)
    (h : ∀ c ∈ body, iscntrl c = false) :
    run libc ⟨ini, last, 59 :: body ++ 10 :: rest⟩ = run libc ⟨ini, last, rest⟩ := by
  apply run_next
  have := scan_comment_spec body rest h
  simp [parse_step, EOF_BYTE, isspace, iscntrl, this]

theorem store_in_block_key (n : Nat) :
    store_in_block SIZEOF_INI_KEY n =
      if n < KEYS_MAX then .ok () else .error .buffer_overflow := by
  have h1 : KEYS_MAX = 32 := rfl
  unfold store_in_block
  rw [h1]
  simp only [SIZEOF_INI_KEY, SIZEOF_POINTER]
  by_cases h : n < 32
  · rw [if_pos h, if_pos (by omega)]
  · rw [if_neg h, if_neg (by omega)]

theorem store_in_block_sec (n : Nat) :
    store_in_block SIZEOF_INI_SECTION n =
      if n < SECS_MAX then .ok () else .error .buffer_overflow := by
  have h1 : SECS_MAX = 18 := rfl
  have h2 : SIZEOF_INI_SECTION = 144 := rfl
  unfold store_in_block
  rw [h1, h2]
  simp only [SIZEOF_POINTER]
  by_cases h : n < 18
  · rw [if_pos h, if_pos (by omega)]
  · rw [if_neg h, if_neg (by omega)]

theorem load_from_block_key (n : Nat) :
    load_from_block SIZEOF_INI_KEY n =
      if n < KEYS_MAX then .ok () else .error .out_of_bounds_read := by
  have h1 : KEYS_MAX = 32 := rfl
  unfold load_from_block
  rw [h1]
  simp only [SIZEOF_INI_KEY, SIZEOF_POINTER]
  by_cases h : n < 32
  · rw [if_pos h, if_pos (by omega)]
  · rw [if_neg h, if_neg (by omega)]

theorem load_from_block_sec (n : Nat) :
    load_from_block SIZEOF_INI_SECTION n =
      if n < SECS_MAX then .ok () else .error .out_of_bounds_read := by
  have h1 : SECS_MAX = 18 := rfl
  have h2 : SIZEOF_INI_SECTION = 144 := rfl
  unfold load_from_block
  rw [h1, h2]
  simp only [SIZEOF_POINTER]
  by_cases h : n < 18
  · rw [if_pos h, if_pos (by omega)]
  · rw [if_neg h, if_neg (by omega)]

theorem sec_add_key_eq (sec : INI_SECTION F) (key : INI_KEY F) :
    sec_add_key sec key =
      if sec.keys.length < KEYS_MAX then .ok ⟨sec.sec_name, sec.keys ++ [key]⟩
      else .error .buffer_overflow := by
  unfold sec_add_key
  rw [store_in_block_key]
  by_cases h : sec.keys.length < KEYS_MAX <;> simp [h]

theorem ini_add_sec_eq (ini : INI F) (sec : INI_SECTION F) :
    ini_add_sec ini sec =
      if ini.secs.length < SECS_MAX then .ok ⟨ini.secs ++ [sec]⟩
      else .error .buffer_overflow := by
  unfold ini_add_sec
  rw [store_in_block_sec]
  by_cases h : ini.secs.length < SECS_MAX <;> simp [h]

theorem parse_section_spec (ini : INI F) (last : Option Nat) (name rest : List Nat)
    (h1 : 93 ∉ name) (h2 : bounded name) :
    parse_section ⟨ini, last, name ++ 93 :: rest⟩ =
      match ini_add_sec ini ⟨name, []⟩ with
      | .ok ini1 => .ok ⟨ini1, some ini.secs.length, rest⟩
      | .error u => .error u := by
  have hs := scan_name_spec 93 name rest [] h1 (by simpa using h2.1)
  simp only [List.nil_append] at hs
  simp [parse_section, hs, cstr_of_no_nul name h2.2, sec_create, strcpy_s_ok _ _ h2.1]

theorem parse_step_header (libc : Libc F) (ini : INI F) (last : Option Nat)
    (ws name : List Nat) (c : Nat) (rest : List Nat) (h1 : 93 ∉ name) (h2 : bounded name) :
    parse_step libc ⟨ini, last, 91 :: name ++ 93 :: c :: rest⟩ =
      match exec_line libc ini last (.header ws name) with
      | .ok (ini1, last1) => .next ⟨ini1, last1, rest⟩
      | .error u => .undef u := by
  have := parse_section_spec ini last name (c :: rest) h1 h2
  simp only [parse_step, List.cons_append, EOF_BYTE, isspace, iscntrl, isalpha, this, exec_line]
  cases ini_add_sec ini ⟨name, []⟩ <;> simp

theorem parse_key_open_spec (ini : INI F) (last : Option Nat) :
    parse_key_open ini last = match last with
      | some i => .ok (ini, i)
      | none =>
        match ini_add_sec ini ⟨[], []⟩ with
        | .ok ini1 => .ok (ini1, ini.secs.length)
        | .error u => .error u := by
  cases last <;> simp [parse_key_open, sec_create, strcpy_s, INI_STR_MAX_LENGTH]

theorem classify_spec (libc : Libc F) (name value rest : List Nat)
    (h1 : bounded value) :
    classify libc name ⟨value, has_text_byte value, has_dot value, rest⟩ =
      .ok ⟨name, value_of_text libc value⟩ := by
  unfold classify value_of_text
  simp only [cstr_of_no_nul value h1.2]
  cases ht : has_text_byte value
  · cases hd : has_dot value
    · simp [key_set_i]
    · simp [key_set_f]
  · simp [key_set_str, strcpy_s_ok _ _ h1.1]

theorem parse_key_scan_spec (libc : Libc F) (name value rest : List Nat)
    (h1 : 61 ∉ name) (h2 : bounded name) (h3 : 10 ∉ value) (h4 : bounded value) :
    parse_key_scan libc (name ++ 61 :: value ++ 10 :: rest) =
      .ok (⟨name, value_of_text libc value⟩, 10 :: rest) := by
  have hs := scan_name_spec 61 name (value ++ 10 :: rest) [] h1 (by simpa using h2.1)
  have hv := scan_value_spec value rest [] false false h3 (by simpa using h4.1)
  simp only [List.nil_append, Bool.false_or] at hs hv
  have hc := classify_spec libc name value (10 :: rest) h4
  unfold parse_key_scan
  simp only [List.append_assoc, List.cons_append, hs,
    cstr_of_no_nul name h2.2, key_create, strcpy_s_ok _ _ h2.1, List.drop_succ_cons,
    List.drop_zero, hv]
  change (match classify libc name ⟨value, has_text_byte value, has_dot value, 10 :: rest⟩ with
    | .error u => _ | .ok key => _) = _
  rw [hc]

theorem parse_key_spec (libc : Libc F) (ini : INI F) (last : Option Nat)
    (ws name value rest : List Nat) (h1 : 61 ∉ name) (h2 : bounded name)
    (h3 : 10 ∉ value) (h4 : bounded value) :
    parse_key libc ⟨ini, last, name ++ 61 :: value ++ 10 :: rest⟩ =
      match exec_line libc ini last (.key ws name value) with
      | .ok (ini1, last1) => .ok ⟨ini1, last1, 10 :: rest⟩
      | .error u => .error u := by
  have hk := parse_key_scan_spec libc name value rest h1 h2 h3 h4
  unfold parse_key exec_line add_to_current
  simp only [hk]
  cases parse_key_open ini last with
  | error u => rfl
  | ok r =>
    obtain ⟨ini0, i⟩ := r
    simp only []
    cases sec_add_key_at ini0 i ⟨name, value_of_text libc value⟩ <;> rfl

theorem parse_step_key (libc : Libc F) (ini : INI F) (last : Option Nat)
    (ws name value rest : List Nat) (h0 : starts_with_letter name = true) (h1 : 61 ∉ name)
    (h2 : bounded name) (h3 : 10 ∉ value) (h4 : bounded value) :
    parse_step libc ⟨ini, last, name ++ 61 :: value ++ 10 :: rest⟩ =
      match exec_line libc ini last (.key ws name value) with
      | .ok (ini1, last1) => .next ⟨ini1, last1, rest⟩
      | .error u => .undef u := by
  have hk := parse_key_spec libc ini last ws name value rest h1 h2 h3 h4
  cases name with
  | nil => simp [starts_with_letter] at h0
  | cons c r =>
    obtain ⟨e1, e2, e3, e4, -, -, -⟩ := isalpha_facts c h0
    unfold parse_step
    simp only [List.cons_append] at hk ⊢
    have h0' : isalpha c = true := h0
    simp only [e1, e2, e3, e4, h0', if_false, if_true, hk, Bool.false_eq_true]
    cases exec_line libc ini last (.key ws (c :: r) value) with
    | error u => rfl
    | ok p => rfl

/-! ## A key line with any bytes in the name and the value -/

theorem cstr_length_le (l : List Nat) : (cstr l).length ≤ l.length := by
  unfold cstr
  exact (List.takeWhile_sublist _).length_le

theorem cstr_prefix (l : List Nat) : cstr l <+: l := by
  unfold cstr
  exact List.takeWhile_prefix _

theorem classify_scan (libc : Libc F) (name value rest : List Nat)
    (h : value.length < INI_STR_MAX_LENGTH) :
    classify libc name ⟨value, has_text_byte value, has_dot value, rest⟩ =
      .ok ⟨name, value_of_scan libc value⟩ := by
  have hc : (cstr value).length < INI_STR_MAX_LENGTH :=
    Nat.lt_of_le_of_lt (cstr_length_le value) h
  unfold classify value_of_scan
  cases ht : has_text_byte value
  · cases hd : has_dot value
    · simp [key_set_i]
    · simp [key_set_f]
  · simp [key_set_str, strcpy_s_ok _ _ hc]

theorem parse_key_scan_general (libc : Libc F) (name value rest : List Nat)
    (h1 : 61 ∉ name) (h2 : name.length < INI_STR_MAX_LENGTH) (h3 : 10 ∉ value)
    (h4 : value.length < INI_STR_MAX_LENGTH) :
    parse_key_scan libc (name ++ 61 :: value ++ 10 :: rest) =
      .ok (⟨cstr name, value_of_scan libc value⟩, 10 :: rest) := by
  have hs := scan_name_spec 61 name (value ++ 10 :: rest) [] h1 (by simpa using h2)
  have hv := scan_value_spec value rest [] false false h3 (by simpa using h4)
  simp only [List.nil_append, Bool.false_or] at hs hv
  have hc := classify_scan libc (cstr name) value (10 :: rest) h4
  have hn : (cstr name).length < INI_STR_MAX_LENGTH :=
    Nat.lt_of_le_of_lt (cstr_length_le name) h2
  unfold parse_key_scan
  simp only [List.append_assoc, List.cons_append, hs, key_create, strcpy_s_ok _ _ hn,
    List.drop_succ_cons, List.drop_zero, hv]
  change (match classify libc (cstr name) ⟨value, has_text_byte value, has_dot value,
      10 :: rest⟩ with
    | .error u => _ | .ok key => _) = _
  rw [hc]

theorem parse_step_key_general (libc : Libc F) (ini : INI F) (last : Option Nat)
    (name value rest : List Nat) (h0 : starts_with_letter name = true) (h1 : 61 ∉ name)
    (h2 : name.length < INI_STR_MAX_LENGTH) (h3 : 10 ∉ value)
    (h4 : value.length < INI_STR_MAX_LENGTH) :
    parse_step libc ⟨ini, last, name ++ 61 :: value ++ 10 :: rest⟩ =
      match add_to_current ini last ⟨cstr name, value_of_scan libc value⟩ with
      | .ok (ini1, last1) => .next ⟨ini1, last1, rest⟩
      | .error u => .undef u := by
  have hk := parse_key_scan_general libc name value rest h1 h2 h3 h4
  cases name with
  | nil => simp [starts_with_letter] at h0
  | cons c r =>
    have hc : isalpha c = true := h0
    obtain ⟨e1, e2, e3, e4, -, -, -⟩ := isalpha_facts c hc
    unfold parse_step
    simp only [List.cons_append] at hk ⊢
    simp only [e1, e2, e3, e4, hc, if_false, if_true, Bool.false_eq_true]
    unfold parse_key add_to_current
    simp only [hk]
    cases parse_key_open ini last with
    | error u => rfl
    | ok p =>
      obtain ⟨ini0, i⟩ := p
      simp only []
      cases sec_add_key_at ini0 i ⟨cstr (c :: r), value_of_scan libc value⟩ <;> rfl

theorem value_of_scan_cases (libc : Libc F) (value : List Nat) :
    ((∃ c ∈ value, isspace c = true ∨ isalpha c = true) →
        value_of_scan libc value = .sval (cstr value)) ∧
      ((∀ c ∈ value, isspace c = false ∧ isalpha c = false) → 46 ∈ value →
        value_of_scan libc value = .fval (libc.atof (cstr value))) ∧
      ((∀ c ∈ value, isspace c = false ∧ isalpha c = false) → 46 ∉ value →
        value_of_scan libc value = .ival (atoi libc (cstr value))) := by
  refine ⟨?_, ?_, ?_⟩
  · rintro ⟨c, hc, hcl⟩
    have : has_text_byte value = true := by
      unfold has_text_byte
      rw [List.any_eq_true]
      exact ⟨c, hc, by simpa using hcl⟩
    simp [value_of_scan, this]
  · intro hno hdot
    have h1 : has_text_byte value = false := by
      unfold has_text_byte
      rw [List.any_eq_false]
      intro c hc
      simp [(hno c hc).1, (hno c hc).2]
    have h2 : has_dot value = true := by
      unfold has_dot
      rw [List.any_eq_true]
      exact ⟨46, hdot, rfl⟩
    simp [value_of_scan, h1, h2]
  · intro hno hdot
    have h1 : has_text_byte value = false := by
      unfold has_text_byte
      rw [List.any_eq_false]
      intro c hc
      simp [(hno c hc).1, (hno c hc).2]
    have h2 : has_dot value = false := by
      unfold has_dot
      rw [List.any_eq_false]
      intro c hc
      have : c ≠ 46 := fun e => hdot (e ▸ hc)
      simpa using this
    simp [value_of_scan, h1, h2]

/-! ## The parser on well-formed lines -/

theorem run_line (libc : Libc F) (ini : INI F) (last : Option Nat) (l : Line)
    (rest : List Nat) (h : l.well_formed) :
    run libc ⟨ini, last, l.render ++ rest⟩ =
      match exec_line libc ini last l with
      | .ok (ini1, last1) => run libc ⟨ini1, last1, rest⟩
      | .error u => .error u := by
  cases l with
  | blank ws =>
    simp only [Line.render, List.append_assoc, List.singleton_append]
    rw [run_spaces libc _ _ ws _ h, run_space libc _ _ 10 rest (by decide)]
    rfl
  | comment ws body =>
    simp only [Line.render, List.append_assoc, List.singleton_append, List.cons_append]
    rw [run_spaces libc _ _ ws _ h.1]
    exact run_comment libc _ _ body rest h.2
  | header ws name =>
    obtain ⟨hw, h1, -, h2⟩ := h
    simp only [Line.render, List.append_assoc, List.cons_append, List.nil_append]
    rw [run_spaces libc _ _ ws _ hw]
    have := parse_step_header libc ini last ws name 10 rest h1 h2
    simp only [List.cons_append] at this
    cases hr : exec_line libc ini last (.header ws name) with
    | error u => rw [hr] at this; exact run_undef libc _ u this
    | ok p =>
      obtain ⟨ini1, last1⟩ := p
      rw [hr] at this
      exact run_next libc _ _ this
  | key ws name value =>
    obtain ⟨hw, h0, h1, -, h2, h3, h4⟩ := h
    simp only [Line.render, List.append_assoc, List.cons_append, List.nil_append]
    rw [run_spaces libc _ _ ws _ hw]
    have := parse_step_key libc ini last ws name value rest h0 h1 h2 h3 h4
    simp only [List.append_assoc, List.cons_append] at this
    cases hr : exec_line libc ini last (.key ws name value) with
    | error u => rw [hr] at this; exact run_undef libc _ u this
    | ok p =>
      obtain ⟨ini1, last1⟩ := p
      rw [hr] at this
      exact run_next libc _ _ this

theorem run_lines (libc : Libc F) (lines : List Line) :
    ∀ (ini : INI F) (last : Option Nat) (rest : List Nat), (∀ l ∈ lines, l.well_formed) →
      run libc ⟨ini, last, render_lines lines ++ rest⟩ =
        match exec_lines libc ini last lines with
        | .ok (ini1, last1) => run libc ⟨ini1, last1, rest⟩
        | .error u => .error u := by
  induction lines with
  | nil => intro ini last rest _; rfl
  | cons l lines ih =>
    intro ini last rest h
    have hl : l.well_formed := h l (by simp)
    simp only [render_lines, List.map_cons, List.flatten_cons, List.append_assoc, exec_lines]
    rw [run_line libc ini last l _ hl]
    cases exec_line libc ini last l with
    | error u => rfl
    | ok p =>
      obtain ⟨ini1, last1⟩ := p
      exact ih ini1 last1 rest (fun x hx => h x (by simp [hx]))

theorem run_terminator (libc : Libc F) (ini : INI F) (last : Option Nat) (rest : List Nat) :
    run libc ⟨ini, last, 0 :: rest⟩ = .ok (1, ini) := by
  apply run_ret
  simp [parse_step, EOF_BYTE, isspace, iscntrl]

theorem parse_exec_lines (libc : Libc F) (ini : INI F) (lines : List Line)
    (h : ∀ l ∈ lines, l.well_formed) :
    ini_parse libc ini (render_lines lines) =
      match exec_lines libc ini none lines with
      | .ok (ini1, _) => .ok (1, ini1)
      | .error u => .error u := by
  rw [ini_parse_eq_run, run_lines libc lines ini none [0] h]
  cases exec_lines libc ini none lines with
  | error u => rfl
  | ok p => exact run_terminator libc _ _ _

/-! ## The parser and the line-oriented reference -/

theorem update_sec_append_length (f : INI_SECTION F → INI_SECTION F)
    (closed : List (INI_SECTION F)) (cur : INI_SECTION F) :
    update_sec f (closed ++ [cur]) closed.length = closed ++ [f cur] := by
  induction closed with
  | nil => rfl
  | cons s ss ih => simp [update_sec, ih]

theorem sec_add_key_at_last (closed : List (INI_SECTION F)) (cur : INI_SECTION F)
    (key : INI_KEY F) :
    sec_add_key_at ⟨closed ++ [cur]⟩ closed.length key =
      if cur.keys.length < KEYS_MAX then
        .ok ⟨closed ++ [⟨cur.sec_name, cur.keys ++ [key]⟩]⟩
      else .error .buffer_overflow := by
  unfold sec_add_key_at
  simp only [List.get?_eq_getElem?, List.getElem?_concat_length, sec_add_key_eq]
  by_cases h : cur.keys.length < KEYS_MAX <;> simp [h, update_sec_append_length]

theorem fits_append (closed : List (INI_SECTION F)) (cur : INI_SECTION F) :
    fits (⟨closed ++ [cur]⟩ : INI F) ↔
      closed.length < SECS_MAX ∧ (∀ sec ∈ closed, sec.keys.length ≤ KEYS_MAX) ∧
        cur.keys.length ≤ KEYS_MAX := by
  unfold fits
  simp only [List.length_append, List.length_singleton, List.mem_append, List.mem_singleton]
  constructor
  · rintro ⟨h1, h2⟩
    exact ⟨by omega, fun sec hs => h2 sec (Or.inl hs), h2 cur (Or.inr rfl)⟩
  · rintro ⟨h1, h2, h3⟩
    refine ⟨by omega, fun sec hs => ?_⟩
    rcases hs with hs | hs
    · exact h2 sec hs
    · subst hs; exact h3

theorem exec_line_ref (libc : Libc F) (rs : RefState F) (l : Line)
    (h : fits (ref_document rs)) :
    exec_line libc (ref_document rs) (ref_last_sec rs) l =
      if fits (ref_document (ref_line libc rs l)) then
        .ok (ref_document (ref_line libc rs l), ref_last_sec (ref_line libc rs l))
      else .error .buffer_overflow := by
  have hk : 1 ≤ KEYS_MAX := by decide
  obtain ⟨closed, current⟩ := rs
  cases l with
  | blank ws => simp only [exec_line, ref_line, if_pos h]
  | comment ws body => simp only [exec_line, ref_line, if_pos h]
  | header ws name =>
    cases current with
    | none =>
      simp only [ref_document, Option.toList_none, List.append_nil] at h
      simp only [exec_line, ref_line, ref_document, ref_last_sec, Option.toList_none,
        List.append_nil, Option.toList_some, Option.map_some', ini_add_sec_eq, fits_append,
        List.length_nil]
      by_cases hc : closed.length < SECS_MAX
      · rw [if_pos hc, if_pos ⟨hc, h.2, by omega⟩]
      · rw [if_neg hc, if_neg (fun hh => hc hh.1)]
    | some sec =>
      simp only [ref_document, Option.toList_some] at h
      simp only [exec_line, ref_line, ref_document, ref_last_sec, Option.toList_some,
        Option.map_some', ini_add_sec_eq, fits_append, List.length_nil]
      by_cases hc : (closed ++ [sec]).length < SECS_MAX
      · rw [if_pos hc, if_pos ⟨hc, h.2, by omega⟩]
      · rw [if_neg hc, if_neg (fun hh => hc hh.1)]
  | key ws name value =>
    cases current with
    | none =>
      simp only [ref_document, Option.toList_none, List.append_nil] at h
      simp only [exec_line, add_to_current, ref_line, ref_document, ref_last_sec,
        Option.toList_none,
        List.append_nil, Option.toList_some, Option.map_some', Option.map_none',
        parse_key_open_spec, ini_add_sec_eq, fits_append, List.length_singleton]
      by_cases hc : closed.length < SECS_MAX
      · rw [if_pos hc, if_pos ⟨hc, h.2, hk⟩]
        simp only [sec_add_key_at_last, List.length_nil, List.nil_append]
        rw [if_pos (by omega)]
      · rw [if_neg hc, if_neg (fun hh => hc hh.1)]
    | some sec =>
      simp only [ref_document, Option.toList_some] at h
      rw [fits_append] at h
      simp only [exec_line, add_to_current, ref_line, ref_document, ref_last_sec,
        Option.toList_some,
        Option.map_some', parse_key_open_spec, sec_add_key_at_last, fits_append,
        List.length_append, List.length_singleton]
      by_cases hc : sec.keys.length < KEYS_MAX
      · rw [if_pos hc, if_pos ⟨h.1, h.2.1, by omega⟩]
      · rw [if_neg hc, if_neg (fun hh => hc (by omega))]

theorem fits_ref_line (libc : Libc F) (rs : RefState F) (l : Line)
    (h : fits (ref_document (ref_line libc rs l))) : fits (ref_document rs) := by
  obtain ⟨closed, current⟩ := rs
  cases l with
  | blank ws => exact h
  | comment ws body => exact h
  | header ws name =>
    simp only [ref_line, ref_document, Option.toList_some, fits_append] at h
    exact ⟨Nat.le_of_lt h.1, h.2.1⟩
  | key ws name value =>
    cases current with
    | none =>
      simp only [ref_line, ref_document, Option.toList_some, fits_append] at h
      simp only [ref_document, Option.toList_none, List.append_nil]
      exact ⟨Nat.le_of_lt h.1, h.2.1⟩
    | some sec =>
      simp only [ref_line, ref_document, Option.toList_some, fits_append, List.length_append,
        List.length_singleton] at h ⊢
      exact ⟨h.1, h.2.1, by omega⟩

theorem fits_ref_lines (libc : Libc F) (lines : List Line) :
    ∀ rs : RefState F, fits (ref_document (lines.foldl (ref_line libc) rs)) →
      fits (ref_document rs) := by
  induction lines with
  | nil => intro rs h; exact h
  | cons l lines ih =>
    intro rs h
    exact fits_ref_line libc rs l (ih _ h)

theorem exec_lines_ref (libc : Libc F) (lines : List Line) :
    ∀ rs : RefState F, fits (ref_document rs) →
      exec_lines libc (ref_document rs) (ref_last_sec rs) lines =
        if fits (ref_document (lines.foldl (ref_line libc) rs)) then
          .ok (ref_document (lines.foldl (ref_line libc) rs),
            ref_last_sec (lines.foldl (ref_line libc) rs))
        else .error .buffer_overflow := by
  induction lines with
  | nil => intro rs h; simp only [exec_lines, List.foldl_nil, if_pos h]
  | cons l lines ih =>
    intro rs h
    simp only [exec_lines, List.foldl_cons, exec_line_ref libc rs l h]
    by_cases hf : fits (ref_document (ref_line libc rs l))
    · rw [if_pos hf]
      exact ih _ hf
    · rw [if_neg hf, if_neg (fun hh => hf (fits_ref_lines libc lines _ hh))]

theorem fits_create : fits (ini_create : INI F) :=
  ⟨Nat.zero_le _, fun _ h => absurd h (List.not_mem_nil _)⟩

theorem parse_lines_fits (libc : Libc F) (lines : List Line)
    (h : ∀ l ∈ lines, l.well_formed) :
    ini_parse libc ini_create (render_lines lines) =
      if fits (ref_parse libc lines) then .ok (1, ref_parse libc lines)
      else .error .buffer_overflow := by
  rw [parse_exec_lines libc _ lines h]
  have := exec_lines_ref libc lines ⟨[], none⟩ fits_create
  have e : (ini_create : INI F) = ref_document ⟨[], none⟩ := rfl
  have e2 : (none : Option Nat) = ref_last_sec (⟨[], none⟩ : RefState F) := rfl
  rw [e, e2, this]
  unfold ref_parse
  by_cases hf : fits (ref_document (lines.foldl (ref_line libc) ⟨[], none⟩))
  · simp only [if_pos hf]
  · simp only [if_neg hf]

theorem parse_lines (libc : Libc F) (lines : List Line) (h : ∀ l ∈ lines, l.well_formed)
    (hf : fits (ref_parse libc lines)) :
    ini_parse libc ini_create (render_lines lines) = .ok (1, ref_parse libc lines) := by
  rw [parse_lines_fits libc lines h, if_pos hf]

/-! ## Decimal rendering and `atoi` -/

theorem fmt_digits_acc : ∀ (fuel n : Nat) (acc : List Nat),
    fmt_digits fuel n acc = fmt_digits fuel n [] ++ acc := by
  intro fuel
  induction fuel with
  | zero => intro n acc; simp [fmt_digits]
  | succ fuel ih =>
    intro n acc
    unfold fmt_digits
    split
    · simp
    · rw [ih (n / 10) ((n % 10 + 48) :: acc), ih (n / 10) [n % 10 + 48]]
      simp

theorem fmt_digits_isdigit : ∀ (fuel n : Nat), ∀ c ∈ fmt_digits fuel n [], isdigit c = true := by
  intro fuel
  induction fuel with
  | zero => intro n c h; simp [fmt_digits] at h
  | succ fuel ih =>
    intro n c h
    unfold fmt_digits at h
    split at h
    · rename_i hn
      simp only [List.mem_singleton] at h
      subst h
      simp only [isdigit, Bool.and_eq_true, decide_eq_true_eq]; omega
    · rw [fmt_digits_acc] at h
      rcases List.mem_append.1 h with h | h
      · exact ih _ c h
      · simp only [List.mem_singleton] at h
        subst h
        simp only [isdigit, Bool.and_eq_true, decide_eq_true_eq]; omega

theorem fmt_digits_ne_nil (fuel n : Nat) : fmt_digits (fuel + 1) n [] ≠ [] := by
  unfold fmt_digits
  split
  · simp
  · rw [fmt_digits_acc]; simp

theorem fmt_digits_length : ∀ (fuel n : Nat) (acc : List Nat),
    (fmt_digits fuel n acc).length ≤ fuel + acc.length := by
  intro fuel
  induction fuel with
  | zero => intro n acc; simp [fmt_digits]
  | succ fuel ih =>
    intro n acc
    unfold fmt_digits
    split
    · simp only [List.length_cons]; omega
    · have := ih (n / 10) ((n % 10 + 48) :: acc)
      simp only [List.length_cons] at this
      omega

theorem fmt_digits_fuel : ∀ (f : Nat) (g n : Nat) (acc : List Nat), n < 10 ^ (f + 1) → f ≤ g →
    fmt_digits (g + 1) n acc = fmt_digits (f + 1) n acc := by
  intro f
  induction f with
  | zero =>
    intro g n acc hn _
    have : n < 10 := by simpa using hn
    simp [fmt_digits, this]
  | succ f ih =>
    intro g n acc hn hg
    obtain ⟨g, rfl⟩ : ∃ g1, g = g1 + 1 := ⟨g - 1, by omega⟩
    have e1 : fmt_digits (g + 1 + 1) n acc = if n < 10 then (n + 48) :: acc
        else fmt_digits (g + 1) (n / 10) ((n % 10 + 48) :: acc) := rfl
    have e2 : fmt_digits (f + 1 + 1) n acc = if n < 10 then (n + 48) :: acc
        else fmt_digits (f + 1) (n / 10) ((n % 10 + 48) :: acc) := rfl
    rw [e1, e2]
    split
    · rfl
    · apply ih
      · rw [pow_succ] at hn
        exact Nat.div_lt_of_lt_mul (by rw [Nat.mul_comm]; exact hn)
      · omega

theorem atoi_digits_append : ∀ (ds : List Nat) (rest : List Nat) (acc : Nat),
    (∀ c ∈ ds, isdigit c = true) →
      atoi_digits (ds ++ rest) acc = atoi_digits rest (atoi_digits ds acc) := by
  intro ds
  induction ds with
  | nil => intro rest acc _; cases rest <;> simp [atoi_digits]
  | cons d ds ih =>
    intro rest acc h
    have hd : isdigit d = true := h d (by simp)
    simp only [List.cons_append, atoi_digits, hd, if_true]
    exact ih rest _ (fun c hc => h c (by simp [hc]))

theorem atoi_digits_fmt : ∀ (fuel n : Nat), n < 10 ^ (fuel + 1) →
    atoi_digits (fmt_digits (fuel + 1) n []) 0 = n := by
  intro fuel
  induction fuel with
  | zero =>
    intro n hn
    have : n < 10 := by simpa using hn
    have hd : isdigit (n + 48) = true := by
      simp only [isdigit, Bool.and_eq_true, decide_eq_true_eq]; omega
    simp [fmt_digits, this, atoi_digits, hd]
  | succ fuel ih =>
    intro n hn
    rw [fmt_digits]
    split
    · rename_i h10
      have hd : isdigit (n + 48) = true := by
        simp only [isdigit, Bool.and_eq_true, decide_eq_true_eq]; omega
      simp [atoi_digits, hd]
    · rename_i h10
      have hlt : n / 10 < 10 ^ (fuel + 1) := by
        rw [pow_succ] at hn
        exact Nat.div_lt_of_lt_mul (by rw [Nat.mul_comm]; exact hn)
      have hd : isdigit (n % 10 + 48) = true := by
        simp only [isdigit, Bool.and_eq_true, decide_eq_true_eq]; omega
      rw [fmt_digits_acc, atoi_digits_append _ _ _ (fmt_digits_isdigit _ _), ih _ hlt]
      simp only [atoi_digits, hd, if_true]
      omega

theorem lt_ten_pow (n : Nat) : n < 10 ^ (n + 1) := by
  calc n < 2 ^ n := Nat.lt_two_pow n
    _ ≤ 10 ^ n := Nat.pow_le_pow_left (by norm_num) n
    _ ≤ 10 ^ (n + 1) := Nat.pow_le_pow_right (by norm_num) (by omega)

theorem isdigit_facts (c : Nat) (h : isdigit c = true) :
    isspace c = false ∧ isalpha c = false ∧ c ≠ 46 ∧ c ≠ 45 ∧ c ≠ 43 ∧ c ≠ 10 ∧ c ≠ 0 ∧
      c ≠ 61 := by
  simp only [isdigit, Bool.and_eq_true, decide_eq_true_eq] at h
  refine ⟨?_, ?_, ?_, ?_, ?_, ?_, ?_, ?_⟩
  · simp only [isspace, Bool.or_eq_false_iff, beq_eq_false_iff_ne, Bool.and_eq_false_iff,
      decide_eq_false_iff_not]; omega
  · simp only [isalpha, Bool.or_eq_false_iff, Bool.and_eq_false_iff,
      decide_eq_false_iff_not]; omega
  all_goals omega

theorem atoi_value_digits (ds : List Nat) (h : ∀ c ∈ ds, isdigit c = true) :
    atoi_value ds = (atoi_digits ds 0 : Int) := by
  cases ds with
  | nil => rfl
  | cons d ds =>
    obtain ⟨h1, -, -, h4, h5, -⟩ := isdigit_facts d (h d (by simp))
    unfold atoi_value
    rw [List.dropWhile_cons_of_neg (by simp [h1])]
    split
    · rename_i heq; simp only [List.cons.injEq] at heq; omega
    · rename_i heq; simp only [List.cons.injEq] at heq; omega
    · rfl

theorem atoi_value_minus (ds : List Nat) :
    atoi_value (45 :: ds) = - (atoi_digits ds 0 : Int) := by
  unfold atoi_value
  rw [List.dropWhile_cons_of_neg (by decide)]

/-- Every byte of the rendering of an `int` is a digit or the sign. -/
theorem fmt_i_bytes (v : Int) : ∀ c ∈ fmt_i v, isdigit c = true ∨ c = 45 := by
  intro c hc
  cases v with
  | ofNat n => exact Or.inl (fmt_digits_isdigit _ _ c hc)
  | negSucc n =>
    simp only [fmt_i, List.mem_cons] at hc
    rcases hc with hc | hc
    · exact Or.inr hc
    · exact Or.inl (fmt_digits_isdigit _ _ c hc)

theorem atoi_value_fmt_i (v : Int) : atoi_value (fmt_i v) = v := by
  cases v with
  | ofNat n =>
    simp only [fmt_i]
    rw [atoi_value_digits _ (fmt_digits_isdigit _ _), atoi_digits_fmt n n (lt_ten_pow n)]
    rfl
  | negSucc n =>
    simp only [fmt_i]
    rw [atoi_value_minus, atoi_digits_fmt (n + 1) (n + 1) (lt_ten_pow (n + 1))]
    rfl

theorem fmt_i_length (v : Int) (h1 : INT_MIN ≤ v) (h2 : v ≤ INT_MAX) : (fmt_i v).length ≤ 11 := by
  unfold INT_MIN at h1
  unfold INT_MAX at h2
  cases v with
  | ofNat n =>
    simp only [fmt_i]
    have hn : n < 10 ^ (9 + 1) := by
      have : (n : Int) ≤ 2147483647 := h2
      norm_num; omega
    by_cases hg : 9 ≤ n
    · rw [fmt_digits_fuel 9 n n [] hn hg]
      have := fmt_digits_length (9 + 1) n []
      simp only [List.length_nil] at this; omega
    · have := fmt_digits_length (n + 1) n []
      simp only [List.length_nil] at this; omega
  | negSucc n =>
    simp only [fmt_i, List.length_cons]
    have hn : n + 1 < 10 ^ (9 + 1) := by
      have : -2147483648 ≤ Int.negSucc n := h1
      rw [Int.negSucc_eq] at this
      norm_num; omega
    by_cases hg : 9 ≤ n + 1
    · rw [show n + 2 = (n + 1) + 1 from rfl, fmt_digits_fuel 9 (n + 1) (n + 1) [] hn hg]
      have := fmt_digits_length (9 + 1) (n + 1) []
      simp only [List.length_nil] at this; omega
    · have := fmt_digits_length (n + 2) (n + 1) []
      simp only [List.length_nil] at this; omega

/-! ## Serialization, and the round trip through the text form -/

theorem serialize_key_eq (libc : Libc F) (key : INI_KEY F) :
    serialize_key libc key = (key_line libc key).render := by
  unfold serialize_key key_line Line.render value_text
  cases key.val <;> simp

theorem serialize_section_eq (libc : Libc F) (sec : INI_SECTION F) (h : sec.keys ≠ [])
    (hl : sec.keys.length < KEYS_MAX) :
    serialize_section libc sec = .ok (render_lines (section_lines libc sec)) := by
  unfold serialize_section
  split
  · rename_i heq; exact absurd heq h
  · simp only [load_from_block_key, if_pos hl, Except.ok.injEq, render_lines, section_lines,
      List.map_append, List.map_map, List.flatten_append, serialize_header]
    congr 1
    · congr 1
      · split <;> simp [Line.render]
      · congr 1
        apply List.map_congr_left
        intro key _
        exact serialize_key_eq libc key

theorem serialize_sections_eq (libc : Libc F) (secs : List (INI_SECTION F))
    (h : ∀ sec ∈ secs, sec.keys ≠ []) (hl : ∀ sec ∈ secs, sec.keys.length < KEYS_MAX) :
    serialize_sections libc secs = .ok (render_lines (secs.map (section_lines libc)).flatten) := by
  induction secs with
  | nil => rfl
  | cons sec secs ih =>
    have h1 := serialize_section_eq libc sec (h sec (by simp)) (hl sec (by simp))
    have h2 := ih (fun x hx => h x (by simp [hx])) (fun x hx => hl x (by simp [hx]))
    simp [serialize_sections, h1, h2, render_lines]

theorem ini_serialize_eq (libc : Libc F) (ini : INI F) (h0 : ini.secs ≠ [])
    (h : ∀ sec ∈ ini.secs, sec.keys ≠ []) (hl : fits_loads ini) :
    ini_serialize libc ini = .ok (render_lines (document_lines libc ini)) := by
  unfold ini_serialize
  split
  · rename_i heq; exact absurd heq h0
  · rw [serialize_sections_eq libc _ h hl.2]
    simp only [load_from_block_sec, if_pos hl.1]
    rfl

theorem fmt_i_plain_bytes (v : Int) (c : Nat) (hc : c ∈ fmt_i v) :
    isspace c = false ∧ isalpha c = false ∧ c ≠ 46 ∧ c ≠ 10 ∧ c ≠ 0 ∧ c ≠ 61 := by
  rcases fmt_i_bytes v c hc with h | h
  · obtain ⟨h1, h2, h3, -, -, h6, h7, h8⟩ := isdigit_facts c h
    exact ⟨h1, h2, h3, h6, h7, h8⟩
  · subst h; decide

theorem fmt_i_no_text (v : Int) : has_text_byte (fmt_i v) = false ∧ has_dot (fmt_i v) = false := by
  constructor
  · unfold has_text_byte
    rw [List.any_eq_false]
    intro c hc
    have := fmt_i_plain_bytes v c hc
    simp [this.1, this.2.1]
  · unfold has_dot
    rw [List.any_eq_false]
    intro c hc
    have := fmt_i_plain_bytes v c hc
    simp [this.2.2.1]

theorem value_of_text_stable (libc : Libc F) (v : Value F)
    (h : stable_value v) : value_of_text libc (value_text libc v) = v := by
  cases v with
  | ival n =>
    have hr : INT_MIN ≤ n ∧ n ≤ INT_MAX := h
    simp [value_of_text, value_text, fmt_i_no_text n, atoi, atoi_value_fmt_i, hr]
  | fval x => exact absurd h (by simp [stable_value])
  | sval t =>
    have : has_text_byte t = true := h.1
    simp [value_of_text, value_text, this]

theorem key_line_well_formed (libc : Libc F) (key : INI_KEY F)
    (h : stable_key key) (h1 : 61 ∉ key.key_name) (h2 : 10 ∉ key.key_name)
    (h3 : plain_value key.val) : (key_line libc key).well_formed := by
  obtain ⟨ha, hb, hv⟩ := h
  refine ⟨by simp [all_space], ha, h1, h2, hb, ?_⟩
  cases hval : key.val with
  | ival n =>
    rw [hval] at hv
    have hbytes := fmt_i_plain_bytes n
    refine ⟨fun hc => (hbytes 10 hc).2.2.2.1 rfl, ?_, fun hc => (hbytes 0 hc).2.2.2.2.1 rfl⟩
    have := fmt_i_length n hv.1 hv.2
    show (fmt_i n).length < INI_STR_MAX_LENGTH
    unfold INI_STR_MAX_LENGTH; omega
  | fval x => rw [hval] at hv; exact absurd hv (by simp [stable_value])
  | sval t =>
    rw [hval] at hv h3
    exact ⟨h3.2.2.2.2, hv.2⟩

theorem document_lines_well_formed (libc : Libc F) (d : INI F)
    (h : round_trippable d) (hp : plain_document d) :
    ∀ l ∈ document_lines libc d, l.well_formed := by
  intro l hl
  simp only [document_lines, List.mem_flatten, List.mem_map, exists_exists_and_eq_and] at hl
  obtain ⟨sec, hsec, hl⟩ := hl
  obtain ⟨hb, -, hk⟩ := h.2.2 sec hsec
  obtain ⟨hps, hpk⟩ := hp sec hsec
  simp only [section_lines, List.mem_append, List.mem_map, List.mem_singleton] at hl
  rcases hl with (hl | ⟨key, hkey, rfl⟩) | rfl
  · split at hl
    · simp at hl
    · simp only [List.mem_singleton] at hl
      subst hl
      exact ⟨by simp [all_space], hps.2.2.1, hps.2.2.2.2, hb⟩
  · have := hpk key hkey
    exact key_line_well_formed libc key (hk key hkey) this.1.1 this.1.2.2.2.2 this.2
  · simp [Line.well_formed, all_space]

theorem fold_keys (libc : Libc F) (keys : List (INI_KEY F)) :
    ∀ (closed : List (INI_SECTION F)) (name : List Nat) (ks : List (INI_KEY F)),
      (∀ key ∈ keys, stable_key key) →
        (keys.map (key_line libc)).foldl (ref_line libc) ⟨closed, some ⟨name, ks⟩⟩ =
          ⟨closed, some ⟨name, ks ++ keys⟩⟩ := by
  induction keys with
  | nil => intro closed name ks _; simp
  | cons key keys ih =>
    intro closed name ks h
    have hk := (h key (by simp)).2.2
    simp only [List.map_cons, List.foldl_cons, key_line, ref_line,
      value_of_text_stable libc key.val hk]
    rw [ih closed name _ (fun x hx => h x (by simp [hx]))]
    simp

theorem fold_section_named (libc : Libc F) (sec : INI_SECTION F)
    (rs : RefState F) (hn : sec.sec_name ≠ []) (h : ∀ key ∈ sec.keys, stable_key key) :
    (section_lines libc sec).foldl (ref_line libc) rs =
      ⟨rs.closed ++ rs.current.toList, some sec⟩ := by
  simp only [section_lines, hn, if_false, List.foldl_append, List.foldl_cons, List.foldl_nil,
    ref_line]
  rw [fold_keys libc sec.keys _ _ _ h]
  simp

theorem fold_section_global (libc : Libc F) (sec : INI_SECTION F)
    (closed : List (INI_SECTION F)) (hn : sec.sec_name = []) (h0 : sec.keys ≠ [])
    (h : ∀ key ∈ sec.keys, stable_key key) :
    (section_lines libc sec).foldl (ref_line libc) ⟨closed, none⟩ = ⟨closed, some sec⟩ := by
  obtain ⟨name, keys⟩ := sec
  simp only at hn h0 h
  subst hn
  cases keys with
  | nil => exact absurd rfl h0
  | cons key keys =>
    have hk := (h key (by simp)).2.2
    simp only [section_lines, if_true, List.nil_append, List.map_cons, List.foldl_append,
      List.foldl_cons, List.foldl_nil, key_line, ref_line,
      value_of_text_stable libc key.val hk]
    rw [fold_keys libc keys _ _ _ (fun x hx => h x (by simp [hx]))]
    simp [ref_line]

theorem fold_sections_named (libc : Libc F)
    (secs : List (INI_SECTION F)) :
    ∀ (rs : RefState F), (∀ sec ∈ secs, sec.sec_name ≠ [] ∧ ∀ key ∈ sec.keys, stable_key key) →
      ref_document ((secs.map (section_lines libc)).flatten.foldl (ref_line libc) rs) =
        ⟨rs.closed ++ rs.current.toList ++ secs⟩ := by
  induction secs with
  | nil => intro rs _; simp [ref_document]
  | cons sec secs ih =>
    intro rs h
    obtain ⟨hn, hk⟩ := h sec (by simp)
    simp only [List.map_cons, List.flatten_cons, List.foldl_append]
    rw [fold_section_named libc sec rs hn hk, ih _ (fun x hx => h x (by simp [hx]))]
    simp

theorem ref_parse_document_lines (libc : Libc F) (d : INI F)
    (h : round_trippable d) : ref_parse libc (document_lines libc d) = d := by
  obtain ⟨secs⟩ := d
  obtain ⟨h0, ht, hs⟩ := h
  simp only at h0 ht hs
  cases secs with
  | nil => exact absurd rfl h0
  | cons sec secs =>
    have hrest : ∀ x ∈ secs, x.sec_name ≠ [] ∧ ∀ key ∈ x.keys, stable_key key :=
      fun x hx => ⟨ht x hx, (hs x (by simp [hx])).2.2⟩
    obtain ⟨-, hk0, hk⟩ := hs sec (by simp)
    unfold ref_parse document_lines
    simp only [List.map_cons, List.flatten_cons, List.foldl_append]
    by_cases hn : sec.sec_name = []
    · rw [fold_section_global libc sec [] hn hk0 hk, fold_sections_named libc secs _ hrest]
      simp
    · rw [fold_section_named libc sec _ hn hk, fold_sections_named libc secs _ hrest]
      simp

theorem fits_of_fits_loads (d : INI F) (h : fits_loads d) : fits d :=
  ⟨Nat.le_of_lt h.1, fun sec hs => Nat.le_of_lt (h.2 sec hs)⟩

theorem parse_serialize (libc : Libc F) (d : INI F)
    (h : round_trippable d) (hp : plain_document d) (hl : fits_loads d) :
    ∃ out, ini_serialize libc d = .ok out ∧ ini_parse libc ini_create out = .ok (1, d) := by
  refine ⟨render_lines (document_lines libc d), ?_, ?_⟩
  · exact ini_serialize_eq libc d h.1 (fun sec hsec => (h.2.2 sec hsec).2.1) hl
  · have e := ref_parse_document_lines libc d h
    rw [parse_lines libc _ (document_lines_well_formed libc d h hp)
      (by rw [e]; exact fits_of_fits_loads d hl), e]

/-! ## The round trip with Floats and leading sections without name -/

theorem value_of_text_returned (libc : Libc F) (v : Value F)
    (h : returned_value libc v) : value_of_text libc (value_text libc v) = v := by
  cases v with
  | ival n =>
    have hr : INT_MIN ≤ n ∧ n ≤ INT_MAX := h
    simp [value_of_text, value_text, fmt_i_no_text n, atoi, atoi_value_fmt_i, hr]
  | fval x =>
    obtain ⟨h1, h2, -, h4⟩ := h
    simp [value_of_text, value_text, h1, h2, h4]
  | sval t =>
    have : has_text_byte t = true := h.1
    simp [value_of_text, value_text, this]

theorem no_newline_of_no_text (value : List Nat) (h : has_text_byte value = false) :
    10 ∉ value := by
  intro hc
  unfold has_text_byte at h
  rw [List.any_eq_false] at h
  exact h 10 hc (by decide)

theorem key_line_well_formed_returned (libc : Libc F) (key : INI_KEY F)
    (h : returned_key libc key) (h1 : 61 ∉ key.key_name) (h2 : 10 ∉ key.key_name)
    (h3 : plain_value key.val) : (key_line libc key).well_formed := by
  obtain ⟨ha, hb, hv⟩ := h
  refine ⟨by simp [all_space], ha, h1, h2, hb, ?_⟩
  cases hval : key.val with
  | ival n =>
    rw [hval] at hv
    have hbytes := fmt_i_plain_bytes n
    refine ⟨fun hc => (hbytes 10 hc).2.2.2.1 rfl, ?_, fun hc => (hbytes 0 hc).2.2.2.2.1 rfl⟩
    have := fmt_i_length n hv.1 hv.2
    show (fmt_i n).length < INI_STR_MAX_LENGTH
    unfold INI_STR_MAX_LENGTH; omega
  | fval x =>
    rw [hval] at hv
    obtain ⟨f1, -, f3, -⟩ := hv
    exact ⟨no_newline_of_no_text _ f1, f3⟩
  | sval t =>
    rw [hval] at hv h3
    exact ⟨h3.2.2.2.2, hv.2⟩

theorem document_lines_well_formed_returned (libc : Libc F) (d : INI F)
    (h : returned_document libc d) (hp : plain_document d) :
    ∀ l ∈ document_lines libc d, l.well_formed := by
  intro l hl
  simp only [document_lines, List.mem_flatten, List.mem_map, exists_exists_and_eq_and] at hl
  obtain ⟨sec, hsec, hl⟩ := hl
  obtain ⟨hb, -, hk⟩ := h.2.2 sec hsec
  obtain ⟨hps, hpk⟩ := hp sec hsec
  simp only [section_lines, List.mem_append, List.mem_map, List.mem_singleton] at hl
  rcases hl with (hl | ⟨key, hkey, rfl⟩) | rfl
  · split at hl
    · simp at hl
    · simp only [List.mem_singleton] at hl
      subst hl
      exact ⟨by simp [all_space], hps.2.2.1, hps.2.2.2.2, hb⟩
  · have := hpk key hkey
    exact key_line_well_formed_returned libc key (hk key hkey) this.1.1 this.1.2.2.2.2 this.2
  · simp [Line.well_formed, all_space]

theorem fold_keys_returned (libc : Libc F) (keys : List (INI_KEY F)) :
    ∀ (closed : List (INI_SECTION F)) (name : List Nat) (ks : List (INI_KEY F)),
      (∀ key ∈ keys, returned_key libc key) →
        (keys.map (key_line libc)).foldl (ref_line libc) ⟨closed, some ⟨name, ks⟩⟩ =
          ⟨closed, some ⟨name, ks ++ keys⟩⟩ := by
  induction keys with
  | nil => intro closed name ks _; simp
  | cons key keys ih =>
    intro closed name ks h
    have hk := (h key (by simp)).2.2
    simp only [List.map_cons, List.foldl_cons, key_line, ref_line,
      value_of_text_returned libc key.val hk]
    rw [ih closed name _ (fun x hx => h x (by simp [hx]))]
    simp

theorem fold_section_named_returned (libc : Libc F) (sec : INI_SECTION F)
    (rs : RefState F) (hn : sec.sec_name ≠ [])
    (h : ∀ key ∈ sec.keys, returned_key libc key) :
    (section_lines libc sec).foldl (ref_line libc) rs =
      ⟨rs.closed ++ rs.current.toList, some sec⟩ := by
  simp only [section_lines, hn, if_false, List.foldl_append, List.foldl_cons, List.foldl_nil,
    ref_line]
  rw [fold_keys_returned libc sec.keys _ _ _ h]
  simp

theorem fold_section_global_returned (libc : Libc F) (sec : INI_SECTION F)
    (closed : List (INI_SECTION F)) (hn : sec.sec_name = []) (h0 : sec.keys ≠ [])
    (h : ∀ key ∈ sec.keys, returned_key libc key) :
    (section_lines libc sec).foldl (ref_line libc) ⟨closed, none⟩ = ⟨closed, some sec⟩ := by
  obtain ⟨name, keys⟩ := sec
  simp only at hn h0 h
  subst hn
  cases keys with
  | nil => exact absurd rfl h0
  | cons key keys =>
    have hk := (h key (by simp)).2.2
    simp only [section_lines, if_true, List.nil_append, List.map_cons, List.foldl_append,
      List.foldl_cons, List.foldl_nil, key_line, ref_line,
      value_of_text_returned libc key.val hk]
    rw [fold_keys_returned libc keys _ _ _ (fun x hx => h x (by simp [hx]))]
    simp [ref_line]

theorem fold_sections_named_returned (libc : Libc F)
    (secs : List (INI_SECTION F)) :
    ∀ (rs : RefState F),
      (∀ sec ∈ secs, sec.sec_name ≠ [] ∧ ∀ key ∈ sec.keys, returned_key libc key) →
      ref_document ((secs.map (section_lines libc)).flatten.foldl (ref_line libc) rs) =
        ⟨rs.closed ++ rs.current.toList ++ secs⟩ := by
  induction secs with
  | nil => intro rs _; simp [ref_document]
  | cons sec secs ih =>
    intro rs h
    obtain ⟨hn, hk⟩ := h sec (by simp)
    simp only [List.map_cons, List.flatten_cons, List.foldl_append]
    rw [fold_section_named_returned libc sec rs hn hk, ih _ (fun x hx => h x (by simp [hx]))]
    simp

theorem fold_section_unnamed_returned (libc : Libc F) (sec : INI_SECTION F)
    (closed : List (INI_SECTION F)) (ks : List (INI_KEY F)) (hn : sec.sec_name = [])
    (h : ∀ key ∈ sec.keys, returned_key libc key) :
    (section_lines libc sec).foldl (ref_line libc) ⟨closed, some ⟨[], ks⟩⟩ =
      ⟨closed, some ⟨[], ks ++ sec.keys⟩⟩ := by
  simp only [section_lines, hn, if_true, List.nil_append, List.foldl_append, List.foldl_cons,
    List.foldl_nil]
  rw [fold_keys_returned libc sec.keys _ _ _ h]
  simp [ref_line]

theorem fold_sections_unnamed_returned (libc : Libc F) (secs : List (INI_SECTION F)) :
    ∀ (closed : List (INI_SECTION F)) (ks : List (INI_KEY F)),
      (∀ sec ∈ secs, sec.sec_name = [] ∧ ∀ key ∈ sec.keys, returned_key libc key) →
      (secs.map (section_lines libc)).flatten.foldl (ref_line libc) ⟨closed, some ⟨[], ks⟩⟩ =
        ⟨closed, some ⟨[], ks ++ (secs.map (fun sec => sec.keys)).flatten⟩⟩ := by
  induction secs with
  | nil => intro closed ks _; simp
  | cons sec secs ih =>
    intro closed ks h
    obtain ⟨hn, hk⟩ := h sec (by simp)
    simp only [List.map_cons, List.flatten_cons, List.foldl_append]
    rw [fold_section_unnamed_returned libc sec closed ks hn hk,
      ih _ _ (fun x hx => h x (by simp [hx]))]
    simp

theorem leading_split (secs : List (INI_SECTION F)) :
    secs = leading_unnamed secs ++ from_first_named secs :=
  (List.takeWhile_append_dropWhile _ secs).symm

theorem leading_unnamed_names (secs : List (INI_SECTION F)) :
    ∀ sec ∈ leading_unnamed secs, sec.sec_name = [] := by
  intro sec hsec
  have := List.mem_takeWhile_imp hsec
  simpa using this

theorem ref_parse_document_lines_returned (libc : Libc F) (d : INI F)
    (h : returned_document libc d) : ref_parse libc (document_lines libc d) = read_back d := by
  obtain ⟨secs⟩ := d
  obtain ⟨-, ht, hs⟩ := h
  simp only at ht hs
  have hsplit := leading_split secs
  have hlead : ∀ x ∈ leading_unnamed secs,
      x.sec_name = [] ∧ ∀ key ∈ x.keys, returned_key libc key := fun x hx =>
    ⟨leading_unnamed_names secs x hx,
      (hs x (by rw [hsplit]; exact List.mem_append_left _ hx)).2.2⟩
  have hrest : ∀ x ∈ from_first_named secs,
      x.sec_name ≠ [] ∧ ∀ key ∈ x.keys, returned_key libc key := fun x hx =>
    ⟨ht x hx, (hs x (by rw [hsplit]; exact List.mem_append_right _ hx)).2.2⟩
  have hkeys : ∀ x ∈ leading_unnamed secs, x.keys ≠ [] := fun x hx =>
    (hs x (by rw [hsplit]; exact List.mem_append_left _ hx)).2.1
  unfold ref_parse document_lines read_back leading_keys
  simp only []
  generalize leading_unnamed secs = es at hsplit hlead hkeys
  generalize from_first_named secs = ns at hsplit hrest
  subst hsplit
  simp only [List.map_append, List.flatten_append, List.foldl_append]
  cases es with
  | nil =>
    rw [List.map_nil, List.flatten_nil, List.foldl_nil,
      fold_sections_named_returned libc ns _ hrest]
    simp [global_section]
  | cons e es =>
    obtain ⟨hn, hk⟩ := hlead e (by simp)
    have hk0 := hkeys e (by simp)
    simp only [List.map_cons, List.flatten_cons, List.foldl_append]
    rw [fold_section_global_returned libc e [] hn hk0 hk]
    obtain ⟨name, keys⟩ := e
    simp only at hn hk0
    subst hn
    rw [fold_sections_unnamed_returned libc es [] keys
      (fun x hx => hlead x (by simp [hx])),
      fold_sections_named_returned libc ns _ hrest]
    cases keys with
    | nil => exact absurd rfl hk0
    | cons key keys => simp [global_section]

theorem triples_unnamed (secs : List (INI_SECTION F)) (h : ∀ sec ∈ secs, sec.sec_name = []) :
    (secs.map (fun sec => sec.keys.map
        (fun key => (sec.sec_name, key.key_name, key.val)))).flatten =
      ((secs.map (fun sec => sec.keys)).flatten).map
        (fun key => (([] : List Nat), key.key_name, key.val)) := by
  induction secs with
  | nil => rfl
  | cons sec secs ih =>
    have hn := h sec (by simp)
    simp only [List.map_cons, List.flatten_cons, List.map_append, hn]
    rw [ih (fun x hx => h x (by simp [hx]))]

theorem triples_read_back (d : INI F) : triples (read_back d) = triples d := by
  obtain ⟨secs⟩ := d
  have hsplit := leading_split secs
  have hnames := leading_unnamed_names secs
  unfold triples read_back leading_keys
  simp only []
  generalize leading_unnamed secs = es at hsplit hnames
  generalize from_first_named secs = ns at hsplit
  subst hsplit
  simp only [List.map_append, List.flatten_append]
  congr 1
  rw [triples_unnamed es hnames]
  cases hk : (es.map (fun sec => sec.keys)).flatten with
  | nil => simp [global_section]
  | cons key keys => simp [global_section]

theorem read_back_named_tail (d : INI F) (h : named_tail d.secs)
    (hk : ∀ sec ∈ d.secs, sec.keys ≠ []) : read_back d = d := by
  obtain ⟨secs⟩ := d
  cases secs with
  | nil => rfl
  | cons sec secs =>
    have ht : ∀ x ∈ secs, x.sec_name ≠ [] := h
    have hdrop : secs.dropWhile (fun sec => sec.sec_name.isEmpty) = secs := by
      cases secs with
      | nil => rfl
      | cons x xs =>
        have := ht x (by simp)
        simp [List.dropWhile_cons, this]
    have htake : secs.takeWhile (fun sec => sec.sec_name.isEmpty) = [] := by
      cases secs with
      | nil => rfl
      | cons x xs =>
        have := ht x (by simp)
        simp [List.takeWhile_cons, this]
    unfold read_back leading_keys leading_unnamed from_first_named
    by_cases hn : sec.sec_name = []
    · have hk0 := hk sec (by simp)
      obtain ⟨name, keys⟩ := sec
      simp only at hn hk0
      subst hn
      simp only [List.takeWhile_cons, List.dropWhile_cons, List.isEmpty_nil, if_true, htake,
        hdrop, List.map_cons, List.map_nil, List.flatten_cons, List.flatten_nil,
        List.append_nil]
      cases keys with
      | nil => exact absurd rfl hk0
      | cons key keys => simp [global_section]
    · have : sec.sec_name.isEmpty = false := by simpa using hn
      simp [List.takeWhile_cons, List.dropWhile_cons, this, global_section]

theorem global_section_length (keys : List (INI_KEY F)) :
    (global_section keys).length ≤ 1 ∧ (keys = [] → global_section keys = []) ∧
      ∀ sec ∈ global_section keys, sec = ⟨[], keys⟩ := by
  cases keys with
  | nil => simp [global_section]
  | cons key keys => simp [global_section]

theorem fits_read_back (d : INI F) (hl : fits_loads d)
    (hm : (leading_keys d.secs).length ≤ KEYS_MAX) : fits (read_back d) := by
  obtain ⟨secs⟩ := d
  obtain ⟨hl1, hl2⟩ := hl
  simp only at hl1 hl2 hm
  have hsplit := leading_split secs
  obtain ⟨g1, g2, g3⟩ := global_section_length (leading_keys secs)
  have hlen : secs.length = (leading_unnamed secs).length + (from_first_named secs).length := by
    conv_lhs => rw [hsplit]
    exact List.length_append _ _
  constructor
  · show (global_section (leading_keys secs) ++ from_first_named secs).length ≤ SECS_MAX
    rw [List.length_append]
    cases hes : leading_unnamed secs with
    | nil =>
      have : leading_keys secs = [] := by simp [leading_keys, hes]
      rw [g2 this]
      simp only [List.length_nil, Nat.zero_add]
      rw [hes] at hlen
      simp only [List.length_nil, Nat.zero_add] at hlen
      omega
    | cons e es =>
      rw [hes] at hlen
      simp only [List.length_cons] at hlen
      omega
  · intro sec hsec
    have hsec1 : sec ∈ global_section (leading_keys secs) ++ from_first_named secs := hsec
    rcases List.mem_append.1 hsec1 with h | h
    · rw [g3 sec h]
      exact hm
    · exact Nat.le_of_lt (hl2 sec (by rw [hsplit]; exact List.mem_append_right _ h))

theorem parse_serialize_returned (libc : Libc F) (d : INI F)
    (h : returned_document libc d) (hp : plain_document d) (hl : fits_loads d)
    (hm : fits (read_back d)) :
    ∃ out, ini_serialize libc d = .ok out ∧
      ini_parse libc ini_create out = .ok (1, read_back d) := by
  refine ⟨render_lines (document_lines libc d), ?_, ?_⟩
  · exact ini_serialize_eq libc d h.1 (fun sec hsec => (h.2.2 sec hsec).2.1) hl
  · have e := ref_parse_document_lines_returned libc d h
    rw [parse_lines libc _ (document_lines_well_formed_returned libc d h hp)
      (by rw [e]; exact hm), e]

/-- Two sections with the empty name that lead a document are read back as one;
the triples are those of the document. -/
theorem round_trip_unnamed_example :
    ini_serialize unit_libc (⟨[⟨[], [⟨bytes "X", .ival 1⟩]⟩,
        ⟨[], [⟨bytes "Y", .ival 2⟩]⟩]⟩ : INI Unit) = .ok (bytes "X=1\n\nY=2\n\n") ∧
      ini_parse unit_libc ini_create (bytes "X=1\n\nY=2\n\n") =
        .ok (1, ⟨[⟨[], [⟨bytes "X", .ival 1⟩, ⟨bytes "Y", .ival 2⟩]⟩]⟩) ∧
      triples (⟨[⟨[], [⟨bytes "X", .ival 1⟩, ⟨bytes "Y", .ival 2⟩]⟩]⟩ : INI Unit) =
        triples (⟨[⟨[], [⟨bytes "X", .ival 1⟩]⟩, ⟨[], [⟨bytes "Y", .ival 2⟩]⟩]⟩ : INI Unit) :=
  ⟨rfl, rfl, rfl⟩

/-! ## Lookup and insertion -/

theorem find_first_none {α : Type} (p : α → Bool) (l : List α) :
    find_first p l = none ↔ ∀ x ∈ l, p x = false := by
  induction l with
  | nil => simp [find_first]
  | cons x xs ih =>
    unfold find_first
    by_cases hx : p x = true
    · simp [hx]
    · simp only [hx, if_false, Option.map_eq_none', ih, List.mem_cons, forall_eq_or_imp]
      simp at hx
      simp [hx, ih]

theorem find_first_some {α : Type} (p : α → Bool) (l : List α) (i : Nat)
    (h : find_first p l = some i) :
    ∃ pre x post, l = pre ++ x :: post ∧ pre.length = i ∧ p x = true ∧
      ∀ y ∈ pre, p y = false := by
  induction l generalizing i with
  | nil => simp [find_first] at h
  | cons a l ih =>
    unfold find_first at h
    by_cases ha : p a = true
    · simp only [ha, if_true, Option.some.injEq] at h
      exact ⟨[], a, l, rfl, by simp [h], ha, by simp⟩
    · simp only [ha] at h
      cases hj : find_first p l with
      | none => simp [hj] at h
      | some j =>
      simp only [hj, Option.map_some', Option.some.injEq, Bool.false_eq_true, if_false] at h
      subst h
      obtain ⟨pre, x, post, h1, h2, h3, h4⟩ := ih j hj
      refine ⟨a :: pre, x, post, by simp [h1], by simp [h2], h3, ?_⟩
      intro y hy
      rcases List.mem_cons.1 hy with e | e
      · subst e; simpa using ha
      · exact h4 y e

theorem find_first_split {α : Type} (p : α → Bool) (pre post : List α) (x : α)
    (h1 : p x = true) (h2 : ∀ y ∈ pre, p y = false) :
    find_first p (pre ++ x :: post) = some pre.length := by
  induction pre with
  | nil => simp [find_first, h1]
  | cons a pre ih =>
    have ha : p a = false := h2 a (by simp)
    simp [find_first, ha, ih (fun y hy => h2 y (by simp [hy]))]

theorem update_sec_split (f : INI_SECTION F → INI_SECTION F) (pre post : List (INI_SECTION F))
    (x : INI_SECTION F) : update_sec f (pre ++ x :: post) pre.length = pre ++ f x :: post := by
  induction pre with
  | nil => rfl
  | cons s ss ih => simp [update_sec, ih]

theorem get_split {α : Type} (pre post : List α) (x : α) :
    (pre ++ x :: post).get? pre.length = some x := by
  induction pre with
  | nil => rfl
  | cons a pre ih => simpa using ih

/-- The first section named `s`, with the sections before and after it. -/
theorem ini_get_section_some (ini : INI F) (s : List Nat) (i : Nat)
    (h : ini_get_section ini s = some i) :
    ∃ pre sec post, ini.secs = pre ++ sec :: post ∧ pre.length = i ∧ sec.sec_name = s ∧
      ∀ x ∈ pre, x.sec_name ≠ s := by
  obtain ⟨pre, sec, post, h1, h2, h3, h4⟩ := find_first_some _ _ _ h
  refine ⟨pre, sec, post, h1, h2, by simpa using h3, ?_⟩
  intro x hx
  simpa using h4 x hx

theorem ini_get_section_none (ini : INI F) (s : List Nat) (h : ini_get_section ini s = none) :
    ∀ x ∈ ini.secs, x.sec_name ≠ s := by
  intro x hx
  have := (find_first_none _ _).1 h x hx
  simpa using this

theorem ini_get_section_split (pre post : List (INI_SECTION F)) (sec : INI_SECTION F)
    (s : List Nat) (h1 : sec.sec_name = s) (h2 : ∀ x ∈ pre, x.sec_name ≠ s) :
    ini_get_section ⟨pre ++ sec :: post⟩ s = some pre.length := by
  unfold ini_get_section
  apply find_first_split
  · simpa using h1
  · intro y hy; simpa using h2 y hy

theorem key_count_append (pre post : List (INI_SECTION F)) (sec : INI_SECTION F) :
    key_count (⟨pre ++ sec :: post⟩ : INI F) =
      key_count (⟨pre⟩ : INI F) + sec.keys.length + key_count (⟨post⟩ : INI F) := by
  simp [key_count, Nat.add_assoc]

theorem sec_add_key_at_split (pre post : List (INI_SECTION F)) (sec : INI_SECTION F)
    (key : INI_KEY F) :
    sec_add_key_at ⟨pre ++ sec :: post⟩ pre.length key =
      if sec.keys.length < KEYS_MAX then
        .ok ⟨pre ++ ⟨sec.sec_name, sec.keys ++ [key]⟩ :: post⟩
      else .error .buffer_overflow := by
  unfold sec_add_key_at
  simp only [get_split, sec_add_key_eq]
  by_cases h : sec.keys.length < KEYS_MAX <;> simp [h, update_sec_split]

theorem ini_add_key_generic_found (pre post : List (INI_SECTION F)) (sec : INI_SECTION F)
    (s : List Nat) (key : INI_KEY F) (h1 : sec.sec_name = s) (h2 : ∀ x ∈ pre, x.sec_name ≠ s) :
    ini_add_key_generic ⟨pre ++ sec :: post⟩ s key =
      if sec.keys.length < KEYS_MAX then
        .ok ⟨pre ++ ⟨s, sec.keys ++ [key]⟩ :: post⟩
      else .error .buffer_overflow := by
  unfold ini_add_key_generic
  simp only [ini_get_section_split pre post sec s h1 h2, sec_add_key_at_split, h1]

theorem ini_add_key_generic_absent (ini : INI F) (s : List Nat) (key : INI_KEY F)
    (hs : s.length < INI_STR_MAX_LENGTH) (h : ∀ x ∈ ini.secs, x.sec_name ≠ s) :
    ini_add_key_generic ini s key =
      if ini.secs.length < SECS_MAX then .ok ⟨ini.secs ++ [⟨s, [key]⟩]⟩
      else .error .buffer_overflow := by
  have hk : 0 < KEYS_MAX := by decide
  have hg : ini_get_section ini s = none := by
    unfold ini_get_section
    exact (find_first_none _ _).2 (fun x hx => by simpa using h x hx)
  unfold ini_add_key_generic
  rw [hg]
  simp only [sec_create, strcpy_s_ok _ _ hs, sec_add_key_eq, List.length_nil, if_pos hk,
    List.nil_append, ini_add_sec_eq]

theorem has_room_found (pre post : List (INI_SECTION F)) (sec : INI_SECTION F)
    (s : List Nat) (h1 : sec.sec_name = s) (h2 : ∀ x ∈ pre, x.sec_name ≠ s) :
    has_room ⟨pre ++ sec :: post⟩ s ↔ sec.keys.length < KEYS_MAX := by
  unfold has_room
  simp only [ini_get_section_split pre post sec s h1 h2, section_at, get_split]

theorem has_room_absent (ini : INI F) (s : List Nat) (h : ∀ x ∈ ini.secs, x.sec_name ≠ s) :
    has_room ini s ↔ ini.secs.length < SECS_MAX := by
  unfold has_room ini_get_section
  rw [(find_first_none _ _).2 (fun x hx => by simpa using h x hx)]
  simp only [section_at]

/-- What `ini_add_key_generic` does with a key. -/
theorem ini_add_key_generic_spec (ini : INI F) (s : List Nat) (key : INI_KEY F)
    (hs : s.length < INI_STR_MAX_LENGTH) (hr : has_room ini s) :
    ∃ ini1, ini_add_key_generic ini s key = .ok ini1 ∧ key_count ini1 = key_count ini + 1 ∧
      ((∃ pre sec post, ini.secs = pre ++ sec :: post ∧ (∀ x ∈ pre, x.sec_name ≠ s) ∧
          sec.sec_name = s ∧ ini1.secs = pre ++ ⟨s, sec.keys ++ [key]⟩ :: post) ∨
        ((∀ x ∈ ini.secs, x.sec_name ≠ s) ∧ ini1.secs = ini.secs ++ [⟨s, [key]⟩])) := by
  cases hg : ini_get_section ini s with
  | some i =>
    obtain ⟨pre, sec, post, h1, h2, h3, h4⟩ := ini_get_section_some ini s i hg
    obtain ⟨secs⟩ := ini
    simp only at h1
    subst h1
    have hr1 := (has_room_found pre post sec s h3 h4).1 hr
    refine ⟨_, by rw [ini_add_key_generic_found pre post sec s key h3 h4, if_pos hr1], ?_,
      Or.inl ⟨pre, sec, post, rfl, h4, h3, rfl⟩⟩
    simp only [key_count_append, List.length_append, List.length_singleton]
    omega
  | none =>
    have hn := ini_get_section_none ini s hg
    have hr1 := (has_room_absent ini s hn).1 hr
    refine ⟨_, by rw [ini_add_key_generic_absent ini s key hs hn, if_pos hr1], ?_,
      Or.inr ⟨hn, rfl⟩⟩
    simp [key_count]

/-- Without room the store of `ini_add_key_generic` is outside its block. -/
theorem ini_add_key_generic_full (ini : INI F) (s : List Nat) (key : INI_KEY F)
    (hs : s.length < INI_STR_MAX_LENGTH) (hr : ¬ has_room ini s) :
    ini_add_key_generic ini s key = .error .buffer_overflow := by
  cases hg : ini_get_section ini s with
  | some i =>
    obtain ⟨pre, sec, post, h1, h2, h3, h4⟩ := ini_get_section_some ini s i hg
    obtain ⟨secs⟩ := ini
    simp only at h1
    subst h1
    rw [ini_add_key_generic_found pre post sec s key h3 h4,
      if_neg (fun hh => hr ((has_room_found pre post sec s h3 h4).2 hh))]
  | none =>
    have hn := ini_get_section_none ini s hg
    rw [ini_add_key_generic_absent ini s key hs hn,
      if_neg (fun hh => hr ((has_room_absent ini s hn).2 hh))]

theorem ini_add_key_eq (ini : INI F) (s k : List Nat) (v : Value F)
    (hk : k.length < INI_STR_MAX_LENGTH)
    (hv : ∀ t, v = .sval t → t.length < INI_STR_MAX_LENGTH) :
    ini_add_key ini s k v = ini_add_key_generic ini s ⟨k, v⟩ := by
  cases v with
  | ival n => simp [ini_add_key, ini_add_key_i, key_create, strcpy_s_ok _ _ hk, key_set_i]
  | fval x => simp [ini_add_key, ini_add_key_f, key_create, strcpy_s_ok _ _ hk, key_set_f]
  | sval t =>
    simp [ini_add_key, ini_add_key_str, key_create, strcpy_s_ok _ _ hk, key_set_str,
      strcpy_s_ok _ _ (hv t rfl)]

theorem lookup_key_split (pre post : List (INI_SECTION F)) (sec : INI_SECTION F)
    (s k : List Nat) (h1 : sec.sec_name = s) (h2 : ∀ x ∈ pre, x.sec_name ≠ s) :
    lookup_key ⟨pre ++ sec :: post⟩ s k = .ok (sec_get_key sec k) := by
  simp only [lookup_key, ini_get_section_split pre post sec s h1 h2, section_at, get_split]

theorem exist_split (pre post : List (INI_SECTION F)) (sec : INI_SECTION F)
    (s k : List Nat) (h1 : sec.sec_name = s) (h2 : ∀ x ∈ pre, x.sec_name ≠ s) :
    ini_does_key_exist ⟨pre ++ sec :: post⟩ s k = (sec_get_key sec k).isSome := by
  simp only [ini_does_key_exist, ini_get_section_split pre post sec s h1 h2, section_at, get_split]
  cases sec_get_key sec k <;> rfl

theorem exist_absent (ini : INI F) (s k : List Nat) (h : ∀ x ∈ ini.secs, x.sec_name ≠ s) :
    ini_does_key_exist ini s k = false := by
  have : ini_get_section ini s = none := by
    unfold ini_get_section
    rw [find_first_none]
    intro x hx; simpa using h x hx
  simp [ini_does_key_exist, this, section_at]

/-! ## Round trip (C1) -/

/-- C1, as stated, fails.  Each document below is free of `=`, `[`, `]`, `;` and
newline.  The Text `1` is written `K=1` and read as the Integer 1.  A Float
below the precision of `%f` is written `0.000000` and read as zero.  The key
named `1K` is written at the start of a line, where the parser accepts no
digit: the parse returns 0 with an empty document.  The section with the empty
name that follows the section `A` gets no header, and its key is read into the
section `A`. -/
theorem round_trip_counterexample :
    (plain_document (⟨[⟨[], [⟨bytes "K", .sval (bytes "1")⟩]⟩]⟩ : INI Unit) ∧
      ini_serialize unit_libc (⟨[⟨[], [⟨bytes "K", .sval (bytes "1")⟩]⟩]⟩ : INI Unit) =
        .ok (bytes "K=1\n\n") ∧
      ini_parse unit_libc ini_create (bytes "K=1\n\n") =
        .ok (1, ⟨[⟨[], [⟨bytes "K", .ival 1⟩]⟩]⟩) ∧
      triples (⟨[⟨[], [⟨bytes "K", .ival 1⟩]⟩]⟩ : INI Unit) ≠
        triples (⟨[⟨[], [⟨bytes "K", .sval (bytes "1")⟩]⟩]⟩ : INI Unit)) ∧
    (plain_document (⟨[⟨[], [⟨bytes "K", .fval true⟩]⟩]⟩ : INI Bool) ∧
      ini_serialize coarse_libc (⟨[⟨[], [⟨bytes "K", .fval true⟩]⟩]⟩ : INI Bool) =
        .ok (bytes "K=0.000000\n\n") ∧
      ini_parse coarse_libc ini_create (bytes "K=0.000000\n\n") =
        .ok (1, ⟨[⟨[], [⟨bytes "K", .fval false⟩]⟩]⟩) ∧
      triples (⟨[⟨[], [⟨bytes "K", .fval false⟩]⟩]⟩ : INI Bool) ≠
        triples (⟨[⟨[], [⟨bytes "K", .fval true⟩]⟩]⟩ : INI Bool)) ∧
    (plain_document (⟨[⟨[], [⟨bytes "1K", .ival 1⟩]⟩]⟩ : INI Unit) ∧
      ini_serialize unit_libc (⟨[⟨[], [⟨bytes "1K", .ival 1⟩]⟩]⟩ : INI Unit) =
        .ok (bytes "1K=1\n\n") ∧
      ini_parse unit_libc ini_create (bytes "1K=1\n\n") = .ok (0, ⟨[]⟩)) ∧
    (plain_document (⟨[⟨bytes "A", [⟨bytes "X", .ival 1⟩]⟩,
        ⟨[], [⟨bytes "Y", .ival 2⟩]⟩]⟩ : INI Unit) ∧
      ini_serialize unit_libc (⟨[⟨bytes "A", [⟨bytes "X", .ival 1⟩]⟩,
        ⟨[], [⟨bytes "Y", .ival 2⟩]⟩]⟩ : INI Unit) = .ok (bytes "[A]\nX=1\n\nY=2\n\n") ∧
      ini_parse unit_libc ini_create (bytes "[A]\nX=1\n\nY=2\n\n") =
        .ok (1, ⟨[⟨bytes "A", [⟨bytes "X", .ival 1⟩, ⟨bytes "Y", .ival 2⟩]⟩]⟩) ∧
      triples (⟨[⟨bytes "A", [⟨bytes "X", .ival 1⟩, ⟨bytes "Y", .ival 2⟩]⟩]⟩ : INI Unit) ≠
        triples (⟨[⟨bytes "A", [⟨bytes "X", .ival 1⟩]⟩,
          ⟨[], [⟨bytes "Y", .ival 2⟩]⟩]⟩ : INI Unit)) := by
  refine ⟨⟨by decide, by rfl, by rfl, by decide⟩, ⟨by decide, by rfl, by rfl, by decide⟩,
    ⟨by decide, by rfl, by rfl⟩, ⟨by decide, by rfl, by rfl, by decide⟩⟩

/-- C1, amended: for every document with at least one section, in which every
section has at least one key, no section with the empty name follows a section
that has a name, every key name starts with a letter, every value is an
Integer, a Text with a letter or a white space byte, or a Float that `%f` writes
without letter or white space and with a dot and that `atof` reads back from
that text, and no name or text holds `=`, `[`, `]`, `;` or newline (names and
texts being at most 127 bytes without NUL, Integers being C ints, the pointer
arrays of the document leaving one pointer of their blocks free, and the
sections with the empty name that lead the document having together no more
keys than a block holds), serializing the document and parsing the output into
an empty document succeeds and yields the same triples of section name, key
name and value, with the same variants, in the same order.  The document read
back is the document itself when only its first section may have the empty
name; otherwise its leading sections with the empty name are read back as one
section. -/
theorem round_trip_restricted (libc : Libc F) (d : INI F)
    (h : returned_document libc d) (hp : plain_document d) (hl : fits_loads d)
    (hm : (leading_keys d.secs).length ≤ KEYS_MAX) :
    ∃ out d1, ini_serialize libc d = .ok out ∧
      ini_parse libc ini_create out = .ok (1, d1) ∧ triples d1 = triples d ∧
      d1 = read_back d ∧ (named_tail d.secs → d1 = d) := by
  obtain ⟨out, h1, h2⟩ := parse_serialize_returned libc d h hp hl (fits_read_back d hl hm)
  exact ⟨out, read_back d, h1, h2, triples_read_back d, rfl,
    fun ht => read_back_named_tail d ht (fun sec hsec => (h.2.2 sec hsec).2.1)⟩

/-- Witness for C1: the document of the example program, whose Float is written
`654.955994`. -/
theorem round_trip_restricted_witness :
    returned_document text_libc (⟨[⟨[], [⟨bytes "GlobalKey", .ival 1⟩]⟩,
        ⟨bytes "Person.Attributes", [⟨bytes "Name", .sval (bytes "John")⟩,
          ⟨bytes "Age", .ival 32⟩, ⟨bytes "RandomNum", .fval (bytes "654.955994")⟩]⟩]⟩ :
            INI (List Nat)) ∧
      ∃ out d1, ini_serialize text_libc (⟨[⟨[], [⟨bytes "GlobalKey", .ival 1⟩]⟩,
        ⟨bytes "Person.Attributes", [⟨bytes "Name", .sval (bytes "John")⟩,
          ⟨bytes "Age", .ival 32⟩, ⟨bytes "RandomNum", .fval (bytes "654.955994")⟩]⟩]⟩ :
            INI (List Nat)) = .ok out ∧
        ini_parse text_libc ini_create out = .ok (1, d1) ∧
        triples d1 = triples (⟨[⟨[], [⟨bytes "GlobalKey", .ival 1⟩]⟩,
          ⟨bytes "Person.Attributes", [⟨bytes "Name", .sval (bytes "John")⟩,
            ⟨bytes "Age", .ival 32⟩, ⟨bytes "RandomNum", .fval (bytes "654.955994")⟩]⟩]⟩ :
              INI (List Nat)) :=
  ⟨by decide,
    match round_trip_restricted text_libc _ (by decide) (by decide) (by decide) (by decide) with
    | ⟨out, d1, h1, h2, h3, _⟩ => ⟨out, d1, h1, h2, h3⟩⟩

/-! ## The parser against the line-oriented reference (C2) -/

/-- C2 at a failing input: nineteen header lines `[A]`, each a line of the
claim.  The fold of the reference has nineteen sections; `ini_parse` stores the
pointer to the nineteenth past the end of the block of
`realloc(ini->secs, sizeof(INI_SECTION))`, which holds eighteen pointers. -/
theorem parse_section_block_overflow :
    (∀ l ∈ List.replicate 19 (Line.header [] (bytes "A")), l.well_formed) ∧
      (ref_parse unit_libc (List.replicate 19 (Line.header [] (bytes "A")))).secs.length = 19 ∧
      ini_parse unit_libc ini_create
        (render_lines (List.replicate 19 (Line.header [] (bytes "A")))) =
          .error .buffer_overflow := by
  refine ⟨by decide, by rfl, ?_⟩
  rw [parse_lines_fits unit_libc _ (by decide), if_neg (by decide)]

/-- Within the blocks the parser agrees with the line-oriented reference: on
every input that is a concatenation of newline-terminated lines, each (after
leading white space) blank, a comment without control bytes, a header `[name]`
with `name` free of `]` and newline, or `name=value` with `name` starting with a
letter and free of `=` and newline and `value` free of newline, `ini_parse` on
the empty document returns 1 and the document is the left-to-right fold of the
reference over the lines, provided that document fits the blocks of the pointer
arrays; a store is outside a block otherwise. -/
theorem parser_agrees_with_line_reference (libc : Libc F) (lines : List Line)
    (h : ∀ l ∈ lines, l.well_formed) :
    ini_parse libc ini_create (render_lines lines) =
      if fits (ref_parse libc lines) then .ok (1, ref_parse libc lines)
      else .error .buffer_overflow :=
  parse_lines_fits libc lines h

/-- An instance: a comment, a global key, a blank line, a header with leading
white space, and two keys. -/
theorem parser_agrees_with_line_reference_example :
    ini_parse unit_libc ini_create
        (bytes "; settings\nGlobalKey=1\n\n [Person]\n\tName=John Smith\nRatio=0.5\n") =
        .ok (1, (⟨[⟨[], [⟨bytes "GlobalKey", .ival 1⟩]⟩,
          ⟨bytes "Person", [⟨bytes "Name", .sval (bytes "John Smith")⟩,
            ⟨bytes "Ratio", .fval ()⟩]⟩]⟩ : INI Unit)) :=
  parse_lines unit_libc
    [Line.comment [] (bytes " settings"), Line.key [] (bytes "GlobalKey") (bytes "1"),
      Line.blank [], Line.header [32] (bytes "Person"),
      Line.key [9] (bytes "Name") (bytes "John Smith"),
      Line.key [] (bytes "Ratio") (bytes "0.5")] (by decide) (by decide)

/-! ## Serialized text (C3) -/

/-- C3 at its failing inputs: `ini_serialize` on the empty document reads
`ini->secs[0]` through the NULL pointer `secs`, and on a document with a section
without keys (as parsing a lone header leaves it) it reads `sec->keys[0]`
through the NULL pointer `keys`; the claim has the empty text, and the header
followed by a blank line, written. -/
theorem serialize_null_dereference (libc : Libc F) :
    ini_serialize libc (ini_create : INI F) = .error .null_dereference ∧
      ini_parse libc ini_create (bytes "[A]\n") = .ok (1, ⟨[⟨bytes "A", []⟩]⟩) ∧
      ini_serialize libc (⟨[⟨bytes "A", []⟩]⟩ : INI F) = .error .null_dereference :=
  ⟨rfl, rfl, rfl⟩

/-- The loops of `ini_serialize` load the pointer after the last element: with
thirty-two keys in a section that load is outside the block of the keys. -/
theorem serialize_load_outside_block :
    ini_serialize unit_libc
      (⟨[⟨bytes "S", List.replicate 32 ⟨bytes "k", .ival 0⟩⟩]⟩ : INI Unit) =
        .error .out_of_bounds_read := rfl

/-- The text written for a document that has a section, no section without
keys, and a free pointer in every block: per section the header line unless the
name is empty, one line per key, one blank line. -/
theorem serialize_text (libc : Libc F) (ini : INI F) (h0 : ini.secs ≠ [])
    (h : ∀ sec ∈ ini.secs, sec.keys ≠ []) (hl : fits_loads ini) :
    ini_serialize libc ini = .ok (ini.secs.map (fun sec =>
      (if sec.sec_name = [] then [] else [91] ++ sec.sec_name ++ [93, 10]) ++
        (sec.keys.map (fun key => key.key_name ++ [61] ++ value_text libc key.val ++ [10])).flatten
          ++ [10])).flatten := by
  rw [ini_serialize_eq libc ini h0 h hl]
  have hsec : ∀ sec : INI_SECTION F, render_lines (section_lines libc sec) =
      (if sec.sec_name = [] then [] else [91] ++ sec.sec_name ++ [93, 10]) ++
        (sec.keys.map (fun key => key.key_name ++ [61] ++ value_text libc key.val ++ [10])).flatten
          ++ [10] := by
    intro sec
    simp only [render_lines, section_lines, List.map_append, List.flatten_append, List.map_map]
    congr 1
    · congr 1
      · split <;> simp [Line.render]
      · congr 1
        apply List.map_congr_left
        intro key _
        simp [Function.comp, key_line, Line.render]
  have hall : ∀ secs : List (INI_SECTION F),
      render_lines (secs.map (section_lines libc)).flatten =
        (secs.map (fun sec => render_lines (section_lines libc sec))).flatten := by
    intro secs
    induction secs with
    | nil => rfl
    | cons sec secs ih =>
      simp only [List.map_cons, List.flatten_cons]
      rw [← ih]
      simp [render_lines]
  simp only [document_lines, hall, hsec]

/-- The example of C3: `set("", "GlobalKey", 1)` then
`set("Person.Attributes", "Name", "John")`, serialized. -/
theorem serialize_example (libc : Libc F) :
    (ini_add_key (ini_create : INI F) [] (bytes "GlobalKey") (.ival 1)).bind (fun d1 =>
      (ini_add_key d1 (bytes "Person.Attributes") (bytes "Name") (.sval (bytes "John"))).bind
        (fun d2 => ini_serialize libc d2)) =
      .ok (bytes "GlobalKey=1\n\n[Person.Attributes]\nName=John\n\n") := rfl

/-! ## Type inference (C4) -/

/-- C4, as stated, fails: the value bytes `1`, NUL, `a` hold a letter, and the
key is a Text; but `key_set_str` copies the buffer as a string, so the Text
holds the byte `1` alone, not the three value bytes. -/
theorem type_inference_counterexample :
    (∃ c ∈ [49, 0, 97], isspace c = true ∨ isalpha c = true) ∧
      ini_parse unit_libc ini_create (bytes "N=" ++ [49, 0, 97, 10]) =
        .ok (1, ⟨[⟨[], [⟨bytes "N", .sval [49]⟩]⟩]⟩) ∧
      (Value.sval [49] : Value Unit) ≠ .sval [49, 0, 97] := by
  refine ⟨⟨97, by decide, by decide⟩, rfl, by decide⟩

/-- C4, amended: with the cursor of the Top state on `name=value` followed by a
newline, `name` and `value` being at most 127 bytes, one iteration of the loop
builds a key and hands it to `sec_add_key` for the current section (for a new
global section if none is current).  The variant of the value is decided by all
the bytes of `value` in this order: Text if one of them is white space or a
letter; otherwise Float if one of them is a dot; otherwise Integer.  The Text
holds the bytes of `value` before its first NUL byte, the Float is what `atof`
reads from them, the Integer what `atoi` reads from them; the key is named by
the bytes of `name` before its first NUL byte.  These are all the bytes where
none is NUL.  The examples of the claim follow. -/
theorem type_inference (libc : Libc F) (ini : INI F) (last : Option Nat)
    (name value rest : List Nat) (h0 : starts_with_letter name = true) (h1 : 61 ∉ name)
    (h2 : name.length < INI_STR_MAX_LENGTH) (h3 : 10 ∉ value)
    (h4 : value.length < INI_STR_MAX_LENGTH) :
    (∃ v : Value F,
      parse_step libc ⟨ini, last, name ++ 61 :: value ++ 10 :: rest⟩ =
        (match add_to_current ini last ⟨cstr name, v⟩ with
          | .ok (ini1, last1) => .next ⟨ini1, last1, rest⟩
          | .error u => .undef u) ∧
      ((∃ c ∈ value, isspace c = true ∨ isalpha c = true) → v = .sval (cstr value)) ∧
      ((∀ c ∈ value, isspace c = false ∧ isalpha c = false) → 46 ∈ value →
        v = .fval (libc.atof (cstr value))) ∧
      ((∀ c ∈ value, isspace c = false ∧ isalpha c = false) → 46 ∉ value →
        v = .ival (atoi libc (cstr value)))) ∧
    (0 ∉ value → cstr value = value) ∧ (0 ∉ name → cstr name = name) ∧
    ini_parse libc ini_create (bytes "Age=32\n") =
      .ok (1, ⟨[⟨[], [⟨bytes "Age", .ival 32⟩]⟩]⟩) ∧
    ini_parse libc ini_create (bytes "Name=John\n") =
      .ok (1, ⟨[⟨[], [⟨bytes "Name", .sval (bytes "John")⟩]⟩]⟩) ∧
    ini_parse libc ini_create (bytes "RandomNum=654.956\n") =
      .ok (1, ⟨[⟨[], [⟨bytes "RandomNum", .fval (libc.atof (bytes "654.956"))⟩]⟩]⟩) ∧
    ini_parse libc ini_create (bytes "Name=John.Smith\n") =
      .ok (1, ⟨[⟨[], [⟨bytes "Name", .sval (bytes "John.Smith")⟩]⟩]⟩) := by
  obtain ⟨c1, c2, c3⟩ := value_of_scan_cases libc value
  exact ⟨⟨value_of_scan libc value,
    parse_step_key_general libc ini last name value rest h0 h1 h2 h3 h4, c1, c2, c3⟩,
    cstr_of_no_nul value, cstr_of_no_nul name, rfl, rfl, rfl, rfl⟩

/-- Witness for C4: a NUL byte in the name and in the value `-12`, NUL, `7`,
parsed into an empty document: the key `N` holds the Integer read from `-12`. -/
theorem type_inference_witness :
    starts_with_letter [78, 0, 66] = true ∧
      ∃ v : Value Unit,
        parse_step unit_libc ⟨ini_create, none, [78, 0, 66] ++ 61 :: [45, 49, 50, 0, 55] ++ 10 :: [0]⟩ =
          (match add_to_current ini_create none ⟨[78], v⟩ with
            | .ok (ini1, last1) => .next ⟨ini1, last1, [0]⟩
            | .error u => .undef u) ∧
        v = .ival (-12) :=
  ⟨by decide,
    match (type_inference unit_libc (ini_create : INI Unit) none [78, 0, 66]
      [45, 49, 50, 0, 55] [0] (by decide) (by decide) (by decide) (by decide) (by decide)).1 with
    | ⟨v, hv, _, _, h3⟩ => ⟨v, hv, h3 (by decide) (by decide)⟩⟩

/-! ## Adding keys (C5, C6) -/

/-- C5 at its failing inputs: the pointer arrays keep the size of the first
allocation, `realloc(sec->keys, sizeof(INI_KEY))` being called with the size of
one `INI_KEY` whatever the number of keys.  The block of 260 bytes has room for
32 pointers of 8 bytes: `set` on a section with 31 keys appends the key, and
`set` on a section that already has 32 keys finds the section and stores the new
pointer past the end of the block.  `ini_add_sec` does the same with
`sizeof(INI_SECTION)`, 144 bytes: `set` with a new section name on a document
of 18 sections stores the pointer to the 19th past the end of the block. -/
theorem add_key_block_overflow :
    SIZEOF_INI_KEY = 260 ∧ SIZEOF_INI_SECTION = 144 ∧
      ini_add_key (⟨[⟨bytes "S", List.replicate 31 ⟨bytes "k", .ival 0⟩⟩]⟩ : INI Unit)
        (bytes "S") (bytes "x") (.ival 1) =
          .ok ⟨[⟨bytes "S", List.replicate 31 ⟨bytes "k", .ival 0⟩ ++ [⟨bytes "x", .ival 1⟩]⟩]⟩ ∧
      ini_add_key (⟨[⟨bytes "S", List.replicate 32 ⟨bytes "k", .ival 0⟩⟩]⟩ : INI Unit)
        (bytes "S") (bytes "x") (.ival 1) = .error .buffer_overflow ∧
      ini_add_key (⟨List.replicate 18 ⟨bytes "S", [⟨bytes "k", .ival 0⟩]⟩⟩ : INI Unit)
        (bytes "T") (bytes "x") (.ival 1) = .error .buffer_overflow :=
  ⟨rfl, rfl, rfl, rfl, rfl⟩

/-- The effect of `set` when the block it stores into has room: with section
name `s`, key name `k` and value `v` (names and Text of the document model: less
than 128 bytes) it succeeds; if some section is named `s`, the key is appended
at the end of the first such section and nothing else changes; otherwise a new
section named `s` holding only that key is appended to the section list.  The
number of keys grows by one. -/
theorem add_key_effect (ini : INI F) (s k : List Nat) (v : Value F)
    (hs : s.length < INI_STR_MAX_LENGTH) (hk : k.length < INI_STR_MAX_LENGTH)
    (hv : ∀ t, v = .sval t → t.length < INI_STR_MAX_LENGTH) (hr : has_room ini s) :
    ∃ ini1, ini_add_key ini s k v = .ok ini1 ∧ key_count ini1 = key_count ini + 1 ∧
      ((∃ pre sec post, ini.secs = pre ++ sec :: post ∧ (∀ x ∈ pre, x.sec_name ≠ s) ∧
          sec.sec_name = s ∧ ini1.secs = pre ++ ⟨s, sec.keys ++ [⟨k, v⟩]⟩ :: post) ∨
        ((∀ x ∈ ini.secs, x.sec_name ≠ s) ∧ ini1.secs = ini.secs ++ [⟨s, [⟨k, v⟩]⟩])) := by
  rw [ini_add_key_eq ini s k v hk hv]
  exact ini_add_key_generic_spec ini s ⟨k, v⟩ hs hr

/-- An instance of `add_key_effect`: a second key for the existing section `S`. -/
theorem add_key_effect_example :
    ∃ ini1, ini_add_key (⟨[⟨bytes "S", [⟨bytes "a", .ival 1⟩]⟩]⟩ : INI Unit) (bytes "S")
        (bytes "b") (.sval (bytes "two")) = .ok ini1 ∧
      key_count ini1 = key_count (⟨[⟨bytes "S", [⟨bytes "a", .ival 1⟩]⟩]⟩ : INI Unit) + 1 ∧
      ((∃ pre sec post, (⟨[⟨bytes "S", [⟨bytes "a", .ival 1⟩]⟩]⟩ : INI Unit).secs =
            pre ++ sec :: post ∧ (∀ x ∈ pre, x.sec_name ≠ bytes "S") ∧
          sec.sec_name = bytes "S" ∧
          ini1.secs = pre ++ ⟨bytes "S", sec.keys ++ [⟨bytes "b", .sval (bytes "two")⟩]⟩ :: post) ∨
        ((∀ x ∈ (⟨[⟨bytes "S", [⟨bytes "a", .ival 1⟩]⟩]⟩ : INI Unit).secs,
            x.sec_name ≠ bytes "S") ∧
          ini1.secs = (⟨[⟨bytes "S", [⟨bytes "a", .ival 1⟩]⟩]⟩ : INI Unit).secs ++
            [⟨bytes "S", [⟨bytes "b", .sval (bytes "two")⟩]⟩])) :=
  add_key_effect _ (bytes "S") (bytes "b") (.sval (bytes "two")) (by decide) (by decide)
    (by intro t ht; cases ht; decide) (by decide)

/-- Without room `set` stores outside a block. -/
theorem add_key_full (ini : INI F) (s k : List Nat) (v : Value F)
    (hs : s.length < INI_STR_MAX_LENGTH) (hk : k.length < INI_STR_MAX_LENGTH)
    (hv : ∀ t, v = .sval t → t.length < INI_STR_MAX_LENGTH) (hr : ¬ has_room ini s) :
    ini_add_key ini s k v = .error .buffer_overflow := by
  rw [ini_add_key_eq ini s k v hk hv]
  exact ini_add_key_generic_full ini s ⟨k, v⟩ hs hr

/-- C6 at a failing input: the section `S` holds the key `k` and thirty-one
other keys, so `exists("S", "k")` holds; `set("S", "k", 2)` finds the section
and stores the pointer to the new key past the end of the block of
`realloc(sec->keys, sizeof(INI_KEY))` instead of appending a second key named
`k`. -/
theorem duplicate_key_block_overflow :
    ini_does_key_exist
        (⟨[⟨bytes "S", ⟨bytes "k", .ival 1⟩ :: List.replicate 31 ⟨bytes "o", .ival 0⟩⟩]⟩ : INI Unit)
        (bytes "S") (bytes "k") = true ∧
      ini_add_key
        (⟨[⟨bytes "S", ⟨bytes "k", .ival 1⟩ :: List.replicate 31 ⟨bytes "o", .ival 0⟩⟩]⟩ : INI Unit)
        (bytes "S") (bytes "k") (.ival 2) = .error .buffer_overflow :=
  ⟨rfl, rfl⟩

/-- Duplicate key names where the block has room: when `exists(s, k)` holds,
`set(s, k, v)` succeeds, appends a further key named `k` at the end of the first
section named `s`, and every getter returns for `(s, k)` what it returned before
the call.  (`k` and a Text `v` are those of the document model: less than 128
bytes.) -/
theorem duplicate_key_first_wins (libc : Libc F) (ini : INI F) (s k : List Nat) (v : Value F)
    (hex : ini_does_key_exist ini s k = true) (hk : k.length < INI_STR_MAX_LENGTH)
    (hv : ∀ t, v = .sval t → t.length < INI_STR_MAX_LENGTH) (hr : has_room ini s) :
    ∃ ini1 pre sec post, ini_add_key ini s k v = .ok ini1 ∧
      ini.secs = pre ++ sec :: post ∧ (∀ x ∈ pre, x.sec_name ≠ s) ∧ sec.sec_name = s ∧
      (∃ key ∈ sec.keys, key.key_name = k) ∧
      ini1.secs = pre ++ ⟨s, sec.keys ++ [⟨k, v⟩]⟩ :: post ∧
      ini_does_key_exist ini1 s k = true ∧
      ini_get_key_i libc ini1 s k = ini_get_key_i libc ini s k ∧
      ini_get_key_f libc ini1 s k = ini_get_key_f libc ini s k ∧
      ∀ n, ini_get_key_str libc ini1 s k n = ini_get_key_str libc ini s k n := by
  obtain ⟨secs⟩ := ini
  cases hg : ini_get_section ⟨secs⟩ s with
  | none =>
    simp [ini_does_key_exist, hg, section_at] at hex
  | some i =>
    obtain ⟨pre, sec, post, h1, h2, h3, h4⟩ := ini_get_section_some _ s i hg
    simp only at h1
    subst h1
    have hroom := (has_room_found pre post sec s h3 h4).1 hr
    rw [exist_split pre post sec s k h3 h4] at hex
    obtain ⟨key, hkey⟩ := Option.isSome_iff_exists.1 hex
    have hfind : sec_get_key ⟨s, sec.keys ++ [⟨k, v⟩]⟩ k = sec_get_key sec k := by
      unfold sec_get_key at hkey ⊢
      simp [List.find?_append, hkey]
    have hlook : lookup_key (⟨pre ++ ⟨s, sec.keys ++ [⟨k, v⟩]⟩ :: post⟩ : INI F) s k =
        lookup_key (⟨pre ++ sec :: post⟩ : INI F) s k := by
      rw [lookup_key_split pre post _ s k rfl h4, lookup_key_split pre post sec s k h3 h4, hfind]
    refine ⟨⟨pre ++ ⟨s, sec.keys ++ [⟨k, v⟩]⟩ :: post⟩, pre, sec, post, ?_, rfl, h4, h3, ?_, rfl,
      ?_, ?_, ?_, ?_⟩
    · rw [ini_add_key_eq _ s k v hk hv, ini_add_key_generic_found pre post sec s _ h3 h4,
        if_pos hroom]
    · unfold sec_get_key at hkey
      have hm := List.mem_of_find?_eq_some hkey
      have hp := List.find?_some hkey
      exact ⟨key, hm, by simpa using hp⟩
    · rw [exist_split pre post _ s k rfl h4, hfind, hkey]; rfl
    · simp only [ini_get_key_i, hlook]
    · simp only [ini_get_key_f, hlook]
    · intro n; simp only [ini_get_key_str, hlook]

/-- An instance: `set` twice with the same section and key; `get` keeps
returning the first value. -/
theorem duplicate_key_first_wins_example :
    ini_does_key_exist (⟨[⟨bytes "S", [⟨bytes "a", .ival 1⟩]⟩]⟩ : INI Unit) (bytes "S")
        (bytes "a") = true ∧
      ini_add_key (⟨[⟨bytes "S", [⟨bytes "a", .ival 1⟩]⟩]⟩ : INI Unit) (bytes "S") (bytes "a")
        (.ival 2) = .ok ⟨[⟨bytes "S", [⟨bytes "a", .ival 1⟩, ⟨bytes "a", .ival 2⟩]⟩]⟩ ∧
      ini_get_key_i unit_libc (⟨[⟨bytes "S", [⟨bytes "a", .ival 1⟩, ⟨bytes "a", .ival 2⟩]⟩]⟩ : INI Unit)
        (bytes "S") (bytes "a") = .ok 1 :=
  ⟨by decide, rfl, rfl⟩

/-! ## Section headers and the global section (C7, C8) -/

/-- C7 at a failing input: eighteen times the header `[A]` with a key, then the
header `[A]` once more with the key `Y`.  The nineteenth header appends no
section: `ini_add_sec` stores the pointer to the section it created past the end
of the block of `realloc(ini->secs, sizeof(INI_SECTION))`.  Eighteen headers
are read into eighteen sections named `A`. -/
theorem header_block_overflow :
    (∀ l ∈ (List.replicate 18 [Line.header [] (bytes "A"), Line.key [] (bytes "X") (bytes "1")]).flatten
        ++ [Line.header [] (bytes "A"), Line.key [] (bytes "Y") (bytes "2")], l.well_formed) ∧
      ini_parse unit_libc ini_create (render_lines
        (List.replicate 18 [Line.header [] (bytes "A"), Line.key [] (bytes "X") (bytes "1")]).flatten) =
          .ok (1, ⟨List.replicate 18 ⟨bytes "A", [⟨bytes "X", .ival 1⟩]⟩⟩) ∧
      ini_parse unit_libc ini_create (render_lines
        ((List.replicate 18 [Line.header [] (bytes "A"), Line.key [] (bytes "X") (bytes "1")]).flatten
          ++ [Line.header [] (bytes "A"), Line.key [] (bytes "Y") (bytes "2")])) =
          .error .buffer_overflow := by
  refine ⟨by decide, ?_, ?_⟩
  · rw [parse_lines_fits unit_libc _ (by decide), if_pos (by decide)]
    rfl
  · rw [parse_lines_fits unit_libc _ (by decide), if_neg (by decide)]

/-- Section headers where the block has room: a header `[name]` read in the Top
state appends a new section named `name` to the document, whatever sections the
document already has, and makes it the current one; a key line read next is
stored in that new section.  Lookup by name stops at the first section with the
name.  So parsing `[A]\nX=1\n[A]\nY=2\n` yields two sections named `A`,
`exists("A","X")` holds and `exists("A","Y")` does not.  (Names and values are
those of the document model: at most 127 bytes, no NUL byte.) -/
theorem headers_never_merged (libc : Libc F) (ini : INI F) (last : Option Nat)
    (name kname value rest : List Nat) (h1 : 93 ∉ name) (h2 : bounded name)
    (k0 : starts_with_letter kname = true) (k1 : 61 ∉ kname) (k2 : bounded kname)
    (k3 : 10 ∉ value) (k4 : bounded value) (hr : ini.secs.length < SECS_MAX) :
    parse_step libc ⟨ini, last, 91 :: name ++ 93 :: 10 :: (kname ++ 61 :: value ++ 10 :: rest)⟩ =
        .next ⟨⟨ini.secs ++ [⟨name, []⟩]⟩, some ini.secs.length,
          kname ++ 61 :: value ++ 10 :: rest⟩ ∧
      parse_step libc ⟨⟨ini.secs ++ [⟨name, []⟩]⟩, some ini.secs.length,
          kname ++ 61 :: value ++ 10 :: rest⟩ =
        .next ⟨⟨ini.secs ++ [⟨name, [⟨kname, value_of_text libc value⟩]⟩]⟩,
          some ini.secs.length, rest⟩ ∧
      (∀ (pre post : List (INI_SECTION F)) (sec : INI_SECTION F) (s k : List Nat),
        sec.sec_name = s → (∀ x ∈ pre, x.sec_name ≠ s) →
          ini_does_key_exist ⟨pre ++ sec :: post⟩ s k = (sec_get_key sec k).isSome) ∧
      ini_parse libc ini_create (bytes "[A]\nX=1\n[A]\nY=2\n") =
        .ok (1, ⟨[⟨bytes "A", [⟨bytes "X", .ival 1⟩]⟩, ⟨bytes "A", [⟨bytes "Y", .ival 2⟩]⟩]⟩) ∧
      ini_does_key_exist (⟨[⟨bytes "A", [⟨bytes "X", .ival 1⟩]⟩,
        ⟨bytes "A", [⟨bytes "Y", .ival 2⟩]⟩]⟩ : INI F) (bytes "A") (bytes "X") = true ∧
      ini_does_key_exist (⟨[⟨bytes "A", [⟨bytes "X", .ival 1⟩]⟩,
        ⟨bytes "A", [⟨bytes "Y", .ival 2⟩]⟩]⟩ : INI F) (bytes "A") (bytes "Y") = false := by
  have hk : 0 < KEYS_MAX := by decide
  refine ⟨?_, ?_, ?_, rfl, rfl, rfl⟩
  · rw [parse_step_header libc ini last [] name 10 _ h1 h2]
    simp only [exec_line, ini_add_sec_eq, if_pos hr]
  · have := parse_step_key libc (⟨ini.secs ++ [⟨name, []⟩]⟩ : INI F) (some ini.secs.length) []
      kname value rest k0 k1 k2 k3 k4
    rw [this]
    simp only [exec_line, add_to_current, parse_key_open, sec_add_key_at_last, List.length_nil,
      if_pos hk, List.nil_append]
  · intro pre post sec s k hs hpre
    exact exist_split pre post sec s k hs hpre

/-- An instance: the header `[A]` and the key `Y=2` read into a document that
already has a section `A`. -/
theorem headers_never_merged_example :
    parse_step unit_libc ⟨(⟨[⟨bytes "A", [⟨bytes "X", .ival 1⟩]⟩]⟩ : INI Unit), some 0,
        bytes "[A]\nY=2\n" ++ [0]⟩ =
      .next ⟨⟨[⟨bytes "A", [⟨bytes "X", .ival 1⟩]⟩, ⟨bytes "A", []⟩]⟩, some 1,
        bytes "Y=2\n" ++ [0]⟩ ∧
    parse_step unit_libc ⟨(⟨[⟨bytes "A", [⟨bytes "X", .ival 1⟩]⟩, ⟨bytes "A", []⟩]⟩ :
        INI Unit), some 1, bytes "Y=2\n" ++ [0]⟩ =
      .next ⟨⟨[⟨bytes "A", [⟨bytes "X", .ival 1⟩]⟩, ⟨bytes "A", [⟨bytes "Y", .ival 2⟩]⟩]⟩,
        some 1, [0]⟩ :=
  ⟨rfl, rfl⟩

theorem fold_no_header_open (libc : Libc F) (pre : List Line) :
    ∀ (closed : List (INI_SECTION F)) (name : List Nat) (keys : List (INI_KEY F)),
      (∀ l ∈ pre, l.is_header = false) →
        pre.foldl (ref_line libc) ⟨closed, some ⟨name, keys⟩⟩ =
          ⟨closed, some ⟨name, keys ++ line_keys libc pre⟩⟩ := by
  induction pre with
  | nil => intro closed name keys _; simp [line_keys]
  | cons l pre ih =>
    intro closed name keys h
    have hl := h l (by simp)
    have ht : ∀ x ∈ pre, x.is_header = false := fun x hx => h x (by simp [hx])
    cases l with
    | blank ws => simpa [ref_line, line_keys] using ih closed name keys ht
    | comment ws body => simpa [ref_line, line_keys] using ih closed name keys ht
    | header ws n => simp [Line.is_header] at hl
    | key ws n v =>
      simp only [List.foldl_cons, ref_line]
      rw [ih closed name _ ht]
      simp [line_keys]

theorem fold_no_header (libc : Libc F) (pre : List Line) :
    ∀ (closed : List (INI_SECTION F)), (∀ l ∈ pre, l.is_header = false) →
      ref_document (pre.foldl (ref_line libc) ⟨closed, none⟩) =
        ⟨closed ++ global_section (line_keys libc pre)⟩ := by
  induction pre with
  | nil => intro closed _; simp [line_keys, global_section, ref_document]
  | cons l pre ih =>
    intro closed h
    have hl := h l (by simp)
    have ht : ∀ x ∈ pre, x.is_header = false := fun x hx => h x (by simp [hx])
    cases l with
    | blank ws => simpa [ref_line, line_keys] using ih closed ht
    | comment ws body => simpa [ref_line, line_keys] using ih closed ht
    | header ws n => simp [Line.is_header] at hl
    | key ws n v =>
      simp only [List.foldl_cons, ref_line]
      rw [fold_no_header_open libc pre closed [] _ ht]
      simp [line_keys, global_section, ref_document]

theorem fold_closed_prefix (libc : Libc F) (lines : List Line) :
    ∀ (p c : List (INI_SECTION F)) (cur : Option (INI_SECTION F)),
      lines.foldl (ref_line libc) ⟨p ++ c, cur⟩ =
        ⟨p ++ (lines.foldl (ref_line libc) ⟨c, cur⟩).closed,
          (lines.foldl (ref_line libc) ⟨c, cur⟩).current⟩ := by
  induction lines with
  | nil => intro p c cur; rfl
  | cons l lines ih =>
    intro p c cur
    cases l with
    | blank ws => simpa [ref_line] using ih p c cur
    | comment ws body => simpa [ref_line] using ih p c cur
    | header ws n =>
      simp only [List.foldl_cons, ref_line, List.append_assoc]
      exact ih p (c ++ cur.toList) _
    | key ws n v =>
      cases cur with
      | none => simpa [ref_line] using ih p c _
      | some sec => simpa [ref_line] using ih p c _

theorem fold_header_names (libc : Libc F) (lines : List Line) :
    ∀ (rs : RefState F), (rs.current = none → ∀ l, lines.head? = some l → l.is_header = true) →
      (ref_document (lines.foldl (ref_line libc) rs)).secs.map (fun sec => sec.sec_name) =
        (ref_document rs).secs.map (fun sec => sec.sec_name) ++ header_names lines := by
  induction lines with
  | nil => intro rs _; simp [header_names]
  | cons l lines ih =>
    intro rs h
    obtain ⟨closed, cur⟩ := rs
    cases l with
    | blank ws =>
      cases cur with
      | none => simpa [Line.is_header] using h rfl
      | some sec =>
        simp only [List.foldl_cons, ref_line]
        rw [ih _ (by simp)]
        simp [header_names]
    | comment ws body =>
      cases cur with
      | none => simpa [Line.is_header] using h rfl
      | some sec =>
        simp only [List.foldl_cons, ref_line]
        rw [ih _ (by simp)]
        simp [header_names]
    | header ws n =>
      simp only [List.foldl_cons, ref_line]
      rw [ih _ (by simp)]
      simp [header_names, ref_document]
    | key ws n v =>
      cases cur with
      | none => simpa [Line.is_header] using h rfl
      | some sec =>
        simp only [List.foldl_cons, ref_line]
        rw [ih _ (by simp)]
        simp [header_names, ref_document]

/-- C8 at a failing input: thirty-three key lines before any header.  The
global section is created on the first of them and receives the first
thirty-two; the thirty-third key is not stored in it: `sec_add_key` stores its
pointer past the end of the block of `realloc(sec->keys, sizeof(INI_KEY))`. -/
theorem global_section_block_overflow :
    (∀ l ∈ List.replicate 33 (Line.key [] (bytes "K") (bytes "1")), l.well_formed) ∧
      ini_parse unit_libc ini_create
        (render_lines (List.replicate 32 (Line.key [] (bytes "K") (bytes "1")))) =
          .ok (1, ⟨[⟨[], List.replicate 32 ⟨bytes "K", .ival 1⟩⟩]⟩) ∧
      ini_parse unit_libc ini_create
        (render_lines (List.replicate 33 (Line.key [] (bytes "K") (bytes "1")))) =
          .error .buffer_overflow := by
  refine ⟨by decide, ?_, ?_⟩
  · rw [parse_lines_fits unit_libc _ (by decide), if_pos (by decide)]
    rfl
  · rw [parse_lines_fits unit_libc _ (by decide), if_neg (by decide)]

/-- The global section within the blocks: let the input be well-formed lines
`pre` without a header, followed by well-formed lines `rest` that are empty or
start with a header.  Parsing it into the empty document succeeds; the document
is the global section (empty name) holding the keys of `pre` in order, present
exactly when `pre` has a key line and then first, followed by the sections of
`rest`, which are one per header of `rest`, named as the headers.  So parsing
`GlobalKey=1\n[Person]\nName=John\n` gives `exists("","GlobalKey")` and
`get("","GlobalKey")` the Integer 1.  (Names and values are those of the
document model.) -/
theorem global_section_first (libc : Libc F) (pre rest : List Line)
    (hpre : ∀ l ∈ pre, l.well_formed ∧ l.is_header = false)
    (hrest : ∀ l ∈ rest, l.well_formed)
    (hhead : ∀ l, rest.head? = some l → l.is_header = true)
    (hf : fits (ref_parse libc (pre ++ rest))) :
    ((ref_parse libc rest).secs.map (fun sec => sec.sec_name) = header_names rest ∧
      ini_parse libc ini_create (render_lines (pre ++ rest)) =
        .ok (1, ⟨global_section (line_keys libc pre) ++ (ref_parse libc rest).secs⟩)) ∧
    ini_parse libc ini_create (bytes "GlobalKey=1\n[Person]\nName=John\n") =
      .ok (1, ⟨[⟨[], [⟨bytes "GlobalKey", .ival 1⟩]⟩,
        ⟨bytes "Person", [⟨bytes "Name", .sval (bytes "John")⟩]⟩]⟩) ∧
    ini_does_key_exist (⟨[⟨[], [⟨bytes "GlobalKey", .ival 1⟩]⟩,
      ⟨bytes "Person", [⟨bytes "Name", .sval (bytes "John")⟩]⟩]⟩ : INI F) []
        (bytes "GlobalKey") = true ∧
    ini_get_key_i libc (⟨[⟨[], [⟨bytes "GlobalKey", .ival 1⟩]⟩,
      ⟨bytes "Person", [⟨bytes "Name", .sval (bytes "John")⟩]⟩]⟩ : INI F) []
        (bytes "GlobalKey") = .ok 1 := by
  refine ⟨⟨?_, ?_⟩, rfl, rfl, rfl⟩
  · have := fold_header_names libc rest ⟨[], none⟩ (fun _ => hhead)
    simpa [ref_parse, ref_document] using this
  · rw [parse_lines libc (pre ++ rest) (by
      intro l hl
      rcases List.mem_append.1 hl with h | h
      · exact (hpre l h).1
      · exact hrest l h) hf]
    congr 2
    unfold ref_parse
    rw [List.foldl_append]
    have hp := fold_no_header libc pre ([] : List (INI_SECTION F)) (fun l hl => (hpre l hl).2)
    cases rest with
    | nil => simpa [ref_document] using hp
    | cons l rest =>
      have hl := hhead l rfl
      cases l with
      | blank ws => simp [Line.is_header] at hl
      | comment ws body => simp [Line.is_header] at hl
      | key ws n v => simp [Line.is_header] at hl
      | header ws n =>
        simp only [List.foldl_cons, ref_line, List.nil_append, Option.toList_none]
        have e : (List.foldl (ref_line libc) ⟨[], none⟩ pre).closed ++
            (List.foldl (ref_line libc) ⟨[], none⟩ pre).current.toList =
              global_section (line_keys libc pre) := by
          have := congrArg INI.secs hp
          simpa [ref_document] using this
        rw [e]
        have := fold_closed_prefix libc rest (global_section (line_keys libc pre)) []
          (some ⟨n, []⟩)
        simp only [List.append_nil] at this
        rw [this]
        simp [ref_document]

/-- An instance: a comment and a key before the first header. -/
theorem global_section_first_example :
    ini_parse unit_libc ini_create
        (render_lines ([Line.comment [] (bytes "c"), Line.key [] (bytes "GlobalKey") (bytes "1")] ++
          [Line.header [] (bytes "Person"), Line.key [] (bytes "Name") (bytes "John")])) =
        .ok (1, ⟨global_section (line_keys unit_libc
          [Line.comment [] (bytes "c"), Line.key [] (bytes "GlobalKey") (bytes "1")]) ++
            (ref_parse unit_libc
              [Line.header [] (bytes "Person"), Line.key [] (bytes "Name") (bytes "John")]).secs⟩) :=
  (global_section_first unit_libc
    [Line.comment [] (bytes "c"), Line.key [] (bytes "GlobalKey") (bytes "1")]
    [Line.header [] (bytes "Person"), Line.key [] (bytes "Name") (bytes "John")]
    (by decide) (by decide) (by decide) (by decide)).1.2

/-! ## Comment lines (C9) -/

/-- C9, as stated, fails: `a` followed by a newline is a prefix made of complete
lines and the comment body `c` has no control byte, yet parsing with the comment
line inserted before `=1` gives the key the name `a\n;c\n`, and parsing without
it gives the key the name `a\n`. -/
theorem comment_counterexample :
    complete_lines (bytes "a\n") ∧ (∀ c ∈ bytes "c", iscntrl c = false) ∧
      ini_parse unit_libc (ini_create : INI Unit)
          (bytes "a\n" ++ 59 :: bytes "c" ++ 10 :: bytes "=1\n") =
        .ok (1, ⟨[⟨[], [⟨bytes "a\n;c\n", .ival 1⟩]⟩]⟩) ∧
      ini_parse unit_libc (ini_create : INI Unit) (bytes "a\n" ++ bytes "=1\n") =
        .ok (1, ⟨[⟨[], [⟨bytes "a\n", .ival 1⟩]⟩]⟩) ∧
      (⟨[⟨[], [⟨bytes "a\n;c\n", .ival 1⟩]⟩]⟩ : INI Unit) ≠
        ⟨[⟨[], [⟨bytes "a\n", .ival 1⟩]⟩]⟩ := by
  refine ⟨by decide, by decide, rfl, rfl, by decide⟩

/-- C9, amended: for every prefix made of well-formed lines (blank, comment,
header or key lines, with names and values of the document model), every
comment body free of control bytes and every remaining input `t`, parsing the
prefix, the comment line and `t` gives the same outcome (the same returned code
and the same document) as parsing the prefix and `t`; in particular
`;comment\nKey=1\n` parses to the same document as `Key=1\n`. -/
theorem comment_line_ignored (libc : Libc F) (ini : INI F) (lines : List Line)
    (body t : List Nat) (h : ∀ l ∈ lines, l.well_formed) (hb : ∀ c ∈ body, iscntrl c = false) :
    ini_parse libc ini (render_lines lines ++ 59 :: body ++ 10 :: t) =
        ini_parse libc ini (render_lines lines ++ t) ∧
      ini_parse libc ini_create (bytes ";comment\nKey=1\n") =
        ini_parse libc ini_create (bytes "Key=1\n") := by
  refine ⟨?_, rfl⟩
  rw [ini_parse_eq_run, ini_parse_eq_run]
  have h1 := run_lines libc lines ini none (59 :: body ++ 10 :: (t ++ [0])) h
  have h2 := run_lines libc lines ini none (t ++ [0]) h
  simp only [List.append_assoc, List.cons_append] at h1 h2 ⊢
  rw [h1, h2]
  cases exec_lines libc ini none lines with
  | error u => rfl
  | ok p => exact run_comment libc _ _ body (t ++ [0]) hb

/-- Witness for C9: a comment line inserted between a header and a key. -/
theorem comment_line_ignored_witness :
    ini_parse unit_libc (ini_create : INI Unit)
        (render_lines [Line.header [] (bytes "A")] ++ 59 :: bytes " note" ++ 10 :: bytes "X=1\n") =
      ini_parse unit_libc (ini_create : INI Unit)
        (render_lines [Line.header [] (bytes "A")] ++ bytes "X=1\n") :=
  (comment_line_ignored unit_libc (ini_create : INI Unit) [Line.header [] (bytes "A")]
    (bytes " note") (bytes "X=1\n") (by decide) (by decide)).1

/-! ## Failure of the parse (C10) -/

theorem parse_step_ret_zero (libc : Libc F) (st : PState F) (ini : INI F) :
    parse_step libc st = .ret 0 ini ↔
      ini = st.ini ∧ ∃ c rest, st.rest = c :: rest ∧ unrecognised c = true ∧ c ≠ EOF_BYTE := by
  unfold parse_step
  split
  · rename_i hrest
    simp [hrest]
  · rename_i c rest hrest
    by_cases h1 : c = EOF_BYTE
    · simp [h1, hrest]
    by_cases h2 : isspace c = true
    · simp [h1, h2, hrest, unrecognised]
    by_cases h3 : iscntrl c = true
    · simp [h1, h2, h3, hrest, unrecognised]
    by_cases h4 : c = 59
    · subst h4
      simp only [h1, h2, h3, if_true, if_false, hrest]
      have : unrecognised 59 = false := by decide
      cases scan_comment rest with
      | error u => simp [this]
      | ok r => cases r <;> simp [this]
    by_cases h5 : isalpha c = true
    · simp only [h1, h2, h3, h4, h5, if_true, if_false, hrest]
      have : unrecognised c = false := by simp [unrecognised, h5]
      cases parse_key libc st <;> simp [this]
    by_cases h6 : c = 91
    · subst h6
      simp only [h1, h2, h3, h4, h5, if_true, if_false, hrest]
      have : unrecognised 91 = false := by decide
      cases parse_section (⟨st.ini, st.last_sec, rest⟩ : PState F) <;> simp [this]
    · simp only [h1, h2, h3, h4, h5, h6, if_false, hrest, Bool.false_eq_true]
      have : unrecognised c = true := by
        simp only [Bool.not_eq_true] at h2 h3 h5
        simp [unrecognised, h2, h3, h4, h5, h6]
      constructor
      · intro h
        simp only [Step.ret.injEq, true_and] at h
        exact ⟨h.symm, c, rest, rfl, this, h1⟩
      · rintro ⟨h, -⟩
        rw [h]

theorem scan_name_error (stop : Nat) : ∀ (buf acc : List Nat) (u : Undef),
    scan_name stop buf acc = .error u → u ≠ .fuel_exhausted := by
  intro buf
  induction buf with
  | nil => intro acc u h; simp only [scan_name, Except.error.injEq] at h; subst h; decide
  | cons c buf ih =>
    intro acc u h
    unfold scan_name at h
    split at h
    · split at h
      · simp at h
      · exact ih _ u h
    · simp only [Except.error.injEq] at h; subst h; decide

theorem scan_value_error : ∀ (buf acc : List Nat) (s f : Bool) (u : Undef),
    scan_value buf acc s f = .error u → u ≠ .fuel_exhausted := by
  intro buf
  induction buf with
  | nil => intro acc s f u h; simp only [scan_value, Except.error.injEq] at h; subst h; decide
  | cons c buf ih =>
    intro acc s f u h
    unfold scan_value at h
    split at h
    · split at h
      · simp at h
      · exact ih _ _ _ u h
    · simp only [Except.error.injEq] at h; subst h; decide

theorem scan_comment_error : ∀ (buf : List Nat) (u : Undef),
    scan_comment buf = .error u → u ≠ .fuel_exhausted := by
  intro buf
  induction buf with
  | nil => intro u h; simp only [scan_comment, Except.error.injEq] at h; subst h; decide
  | cons c buf ih =>
    intro u h
    unfold scan_comment at h
    split at h
    · simp at h
    · split at h
      · simp at h
      · exact ih u h

theorem strcpy_s_error (cap : Nat) (src : List Nat) (u : Undef)
    (h : strcpy_s cap src = .error u) : u ≠ .fuel_exhausted := by
  unfold strcpy_s at h
  split at h
  · simp at h
  · simp only [Except.error.injEq] at h; subst h; decide

theorem sec_create_error (name : List Nat) (u : Undef)
    (h : (sec_create name : Except Undef (INI_SECTION F)) = .error u) : u ≠ .fuel_exhausted := by
  unfold sec_create at h
  split at h
  · simp at h
  · rename_i u1 hs
    simp only [Except.error.injEq] at h; subst h
    exact strcpy_s_error _ _ _ hs

theorem classify_error (libc : Libc F) (name : List Nat) (v : ScanValue) (u : Undef)
    (h : classify libc name v = .error u) : u ≠ .fuel_exhausted := by
  unfold classify at h
  split at h
  · unfold key_set_str at h
    split at h
    · simp at h
    · rename_i u1 hs
      simp only [Except.error.injEq] at h; subst h
      exact strcpy_s_error _ _ _ hs
  · split at h
    · simp at h
    · simp at h

theorem store_in_block_error (size count : Nat) (u : Undef)
    (h : store_in_block size count = .error u) : u ≠ .fuel_exhausted := by
  unfold store_in_block at h
  split at h
  · simp at h
  · simp only [Except.error.injEq] at h; subst h; decide

theorem sec_add_key_error (sec : INI_SECTION F) (key : INI_KEY F) (u : Undef)
    (h : sec_add_key sec key = .error u) : u ≠ .fuel_exhausted := by
  unfold sec_add_key at h
  split at h
  · simp at h
  · rename_i u1 hs
    simp only [Except.error.injEq] at h; subst h
    exact store_in_block_error _ _ _ hs

theorem ini_add_sec_error (ini : INI F) (sec : INI_SECTION F) (u : Undef)
    (h : ini_add_sec ini sec = .error u) : u ≠ .fuel_exhausted := by
  unfold ini_add_sec at h
  split at h
  · simp at h
  · rename_i u1 hs
    simp only [Except.error.injEq] at h; subst h
    exact store_in_block_error _ _ _ hs

theorem sec_add_key_at_error (ini : INI F) (i : Nat) (key : INI_KEY F) (u : Undef)
    (h : sec_add_key_at ini i key = .error u) : u ≠ .fuel_exhausted := by
  unfold sec_add_key_at at h
  split at h
  · split at h
    · simp at h
    · rename_i u1 hs
      simp only [Except.error.injEq] at h; subst h
      exact sec_add_key_error _ _ _ hs
  · simp only [Except.error.injEq] at h; subst h; decide

theorem parse_key_open_error (ini : INI F) (last : Option Nat) (u : Undef)
    (h : parse_key_open ini last = .error u) : u ≠ .fuel_exhausted := by
  unfold parse_key_open at h
  split at h
  · simp at h
  · split at h
    · split at h
      · simp at h
      · rename_i u1 hs
        simp only [Except.error.injEq] at h; subst h
        exact ini_add_sec_error _ _ _ hs
    · rename_i u2 hs
      simp only [Except.error.injEq] at h; subst h
      exact sec_create_error _ _ hs

theorem parse_key_scan_error (libc : Libc F) (rest : List Nat) (u : Undef)
    (h : parse_key_scan libc rest = .error u) : u ≠ .fuel_exhausted := by
  unfold parse_key_scan at h
  split at h
  · rename_i u1 hs
    simp only [Except.error.injEq] at h; subst h
    exact scan_name_error _ _ _ _ hs
  · split at h
    · rename_i u1 hs
      simp only [Except.error.injEq] at h; subst h
      exact strcpy_s_error _ _ _ hs
    · split at h
      · rename_i u1 hs
        simp only [Except.error.injEq] at h; subst h
        exact scan_value_error _ _ _ _ _ hs
      · split at h
        · rename_i u1 hs
          simp only [Except.error.injEq] at h; subst h
          exact classify_error libc _ _ _ hs
        · simp at h

theorem parse_key_error (libc : Libc F) (st : PState F) (u : Undef)
    (h : parse_key libc st = .error u) : u ≠ .fuel_exhausted := by
  unfold parse_key at h
  split at h
  · rename_i u1 ho
    simp only [Except.error.injEq] at h; subst h
    exact parse_key_open_error _ _ _ ho
  · split at h
    · rename_i u1 hs
      simp only [Except.error.injEq] at h; subst h
      exact parse_key_scan_error libc _ _ hs
    · split at h
      · simp at h
      · rename_i u1 hs
        simp only [Except.error.injEq] at h; subst h
        exact sec_add_key_at_error _ _ _ _ hs

theorem parse_section_error (st : PState F) (u : Undef)
    (h : parse_section st = .error u) : u ≠ .fuel_exhausted := by
  unfold parse_section at h
  split at h
  · rename_i u1 hs
    simp only [Except.error.injEq] at h; subst h
    exact scan_name_error _ _ _ _ hs
  · split at h
    · rename_i u1 hs
      simp only [Except.error.injEq] at h; subst h
      exact sec_create_error _ _ hs
    · split at h
      · simp at h
      · rename_i u1 hs
        simp only [Except.error.injEq] at h; subst h
        exact ini_add_sec_error _ _ _ hs

theorem parse_step_undef (libc : Libc F) (st : PState F) (u : Undef)
    (h : parse_step libc st = .undef u) : u ≠ .fuel_exhausted := by
  unfold parse_step at h
  split at h
  · simp only [Step.undef.injEq] at h; subst h; decide
  · split at h
    · simp at h
    split at h
    · simp at h
    split at h
    · simp at h
    split at h
    · split at h
      · rename_i u1 hs
        simp only [Step.undef.injEq] at h; subst h
        exact scan_comment_error _ _ hs
      · simp at h
      · simp at h
    split at h
    · split at h
      · rename_i u1 hs
        simp only [Step.undef.injEq] at h; subst h
        exact parse_key_error libc _ _ hs
      · simp at h
    split at h
    · split at h
      · rename_i u1 hs
        simp only [Step.undef.injEq] at h; subst h
        exact parse_section_error _ _ hs
      · simp at h
    · simp at h

theorem run_fuel (libc : Libc F) :
    ∀ (n : Nat) (st : PState F), st.rest.length < n → run libc st ≠ .error .fuel_exhausted := by
  intro n
  induction n with
  | zero => intro st h; omega
  | succ n ih =>
    intro st hlen
    cases hs : parse_step libc st with
    | next st1 =>
      have hd := parse_step_decreases libc st st1 hs
      rw [run_next libc st st1 hs]
      exact ih st1 (by omega)
    | ret code ini => rw [run_ret libc st code ini hs]; simp
    | undef u =>
      rw [run_undef libc st u hs]
      intro e
      simp only [Except.error.injEq] at e
      exact parse_step_undef libc st u hs e

/-- The loop of `ini_parse` never uses up its fuel: every outcome of
`ini_parse` is an outcome of the C function. -/
theorem ini_parse_fuel (libc : Libc F) (ini : INI F) (file : List Nat) :
    ini_parse libc ini file ≠ .error .fuel_exhausted := by
  rw [ini_parse_eq_run]
  exact run_fuel libc _ _ (Nat.lt_succ_self _)

/-! ## A failed parse keeps what it has read (C11) -/

theorem run_zero_document (libc : Libc F) :
    ∀ (n : Nat) (st : PState F), st.rest.length < n → ∀ d : INI F,
      run libc st = .ok (0, d) →
        ∃ st1 c rest, Visits libc st st1 ∧ st1.rest = c :: rest ∧ unrecognised c = true ∧
          c ≠ EOF_BYTE ∧ d = st1.ini := by
  intro n
  induction n with
  | zero => intro st h; omega
  | succ n ih =>
    intro st hlen d h
    cases hs : parse_step libc st with
    | next st1 =>
      have hd := parse_step_decreases libc st st1 hs
      rw [run_next libc st st1 hs] at h
      obtain ⟨x, c, rest, hv, hx⟩ := ih st1 (by omega) d h
      exact ⟨x, c, rest, Visits.step st st1 x hs hv, hx⟩
    | ret code ini =>
      rw [run_ret libc st code ini hs] at h
      simp only [Except.ok.injEq, Prod.mk.injEq] at h
      obtain ⟨hc, hi⟩ := h
      subst hc hi
      obtain ⟨hini, c, rest, h1, h2, h3⟩ := (parse_step_ret_zero libc st ini).1 hs
      exact ⟨st, c, rest, Visits.start st, h1, h2, h3, hini⟩
    | undef u =>
      rw [run_undef libc st u hs] at h
      simp at h

theorem run_unrecognised (libc : Libc F) (ini : INI F) (last : Option Nat) (c : Nat)
    (rest : List Nat) (hc : unrecognised c = true) (he : c ≠ EOF_BYTE) :
    run libc ⟨ini, last, c :: rest⟩ = .ok (0, ini) :=
  run_ret libc _ 0 ini ((parse_step_ret_zero libc _ ini).2 ⟨rfl, c, rest, rfl, hc, he⟩)

/-- C11, as stated, fails: the parse of `A=1\n#\n` into the empty document
returns 0 and leaves in the document the global section with the key `A`, so
`exists("", "A")` holds afterwards; it did not hold before the call. -/
theorem failed_parse_counterexample :
    ini_parse unit_libc (ini_create : INI Unit) (bytes "A=1\n#\n") =
        .ok (0, ⟨[⟨[], [⟨bytes "A", .ival 1⟩]⟩]⟩) ∧
      ini_does_key_exist (⟨[⟨[], [⟨bytes "A", .ival 1⟩]⟩]⟩ : INI Unit) [] (bytes "A") = true ∧
      ini_does_key_exist (ini_create : INI Unit) [] (bytes "A") = false :=
  ⟨rfl, rfl, rfl⟩

/-- C11, amended: a failed parse keeps what it has read.  Whenever `ini_parse`
returns 0, the document it leaves is the document the loop has built when the
Top state meets the offending byte; and when the input is a sequence of
well-formed lines followed by an offending byte `c` and anything else, that
document is the one that parsing the lines alone gives.  After the failing parse
of `A=1\n#\n` into the empty document `exists("", "A")` holds. -/
theorem failed_parse_keeps_document (libc : Libc F) (ini d : INI F) (lines : List Line)
    (c : Nat) (t : List Nat) (h : ∀ l ∈ lines, l.well_formed)
    (hc : unrecognised c = true) (he : c ≠ EOF_BYTE)
    (hd : ini_parse libc ini (render_lines lines) = .ok (1, d)) :
    ini_parse libc ini (render_lines lines ++ c :: t) = .ok (0, d) ∧
      (∀ (file : List Nat) (d1 : INI F), ini_parse libc ini file = .ok (0, d1) →
        ∃ st b rest, Visits libc ⟨ini, none, file ++ [0]⟩ st ∧ st.rest = b :: rest ∧
          unrecognised b = true ∧ b ≠ EOF_BYTE ∧ d1 = st.ini) ∧
      ini_parse libc ini_create (bytes "A=1\n#\n") =
        .ok (0, ⟨[⟨[], [⟨bytes "A", .ival 1⟩]⟩]⟩) ∧
      ini_does_key_exist (⟨[⟨[], [⟨bytes "A", .ival 1⟩]⟩]⟩ : INI F) [] (bytes "A") = true := by
  refine ⟨?_, ?_, rfl, rfl⟩
  · rw [parse_exec_lines libc ini lines h] at hd
    rw [ini_parse_eq_run]
    have := run_lines libc lines ini none (c :: (t ++ [0])) h
    simp only [List.append_assoc, List.cons_append] at this ⊢
    rw [this]
    cases he2 : exec_lines libc ini none lines with
    | error u => rw [he2] at hd; simp at hd
    | ok p =>
      obtain ⟨ini1, last1⟩ := p
      rw [he2] at hd
      simp only [Except.ok.injEq, Prod.mk.injEq, true_and] at hd
      subst hd
      exact run_unrecognised libc _ _ c _ hc he
  · intro file d1 h1
    rw [ini_parse_eq_run] at h1
    exact run_zero_document libc _ _ (Nat.lt_succ_self _) d1 h1

/-- Witness for C11: a header and a key, then the offending byte `#`. -/
theorem failed_parse_keeps_document_witness :
    ini_parse unit_libc (ini_create : INI Unit)
        (render_lines [Line.header [] (bytes "S"), Line.key [] (bytes "A") (bytes "1")]) =
          .ok (1, ⟨[⟨bytes "S", [⟨bytes "A", .ival 1⟩]⟩]⟩) ∧
      ini_parse unit_libc (ini_create : INI Unit)
        (render_lines [Line.header [] (bytes "S"), Line.key [] (bytes "A") (bytes "1")] ++
          35 :: bytes "\nB=2\n") = .ok (0, ⟨[⟨bytes "S", [⟨bytes "A", .ival 1⟩]⟩]⟩) :=
  ⟨rfl, (failed_parse_keeps_document unit_libc ini_create ⟨[⟨bytes "S", [⟨bytes "A", .ival 1⟩]⟩]⟩
    [Line.header [] (bytes "S"), Line.key [] (bytes "A") (bytes "1")] 35 (bytes "\nB=2\n")
    (by decide) (by decide) (by decide) rfl).1⟩

/-! ## Lookup: `exist`, `get_opt` and `get` (C12, C13) -/

theorem sec_get_key_some (sec : INI_SECTION F) (k : List Nat) (key : INI_KEY F) :
    sec_get_key sec k = some key ↔
      ∃ kpre kpost, sec.keys = kpre ++ key :: kpost ∧ (∀ x ∈ kpre, x.key_name ≠ k) ∧
        key.key_name = k := by
  unfold sec_get_key
  rw [List.find?_eq_some]
  constructor
  · rintro ⟨h1, a, b, h2, h3⟩
    exact ⟨a, b, h2, fun x hx => by simpa using h3 x hx, by simpa using h1⟩
  · rintro ⟨a, b, h2, h3, h1⟩
    exact ⟨by simpa using h1, a, b, h2, fun x hx => by simpa using h3 x hx⟩

theorem sec_get_key_none (sec : INI_SECTION F) (k : List Nat) :
    sec_get_key sec k = none ↔ ∀ x ∈ sec.keys, x.key_name ≠ k := by
  unfold sec_get_key
  rw [List.find?_eq_none]
  constructor
  · intro h x hx; simpa using h x hx
  · intro h x hx; simpa using h x hx

/-- The keys that `exists` finds. -/
theorem exist_iff (ini : INI F) (s k : List Nat) :
    ini_does_key_exist ini s k = true ↔
      ∃ pre sec post, ini.secs = pre ++ sec :: post ∧ (∀ x ∈ pre, x.sec_name ≠ s) ∧
        sec.sec_name = s ∧ ∃ key ∈ sec.keys, key.key_name = k := by
  obtain ⟨secs⟩ := ini
  constructor
  · intro h
    cases hg : ini_get_section ⟨secs⟩ s with
    | none => simp [ini_does_key_exist, hg, section_at] at h
    | some i =>
      obtain ⟨pre, sec, post, h1, h2, h3, h4⟩ := ini_get_section_some _ s i hg
      simp only at h1
      subst h1
      rw [exist_split pre post sec s k h3 h4] at h
      obtain ⟨key, hkey⟩ := Option.isSome_iff_exists.1 h
      obtain ⟨a, b, e1, -, e3⟩ := (sec_get_key_some sec k key).1 hkey
      exact ⟨pre, sec, post, rfl, h4, h3, key, by simp [e1], e3⟩
  · rintro ⟨pre, sec, post, h1, h2, h3, key, hk1, hk2⟩
    simp only at h1
    subst h1
    rw [exist_split pre post sec s k h3 h2]
    cases hg : sec_get_key sec k with
    | some x => rfl
    | none => exact absurd hk2 ((sec_get_key_none sec k).1 hg key hk1)

/-- C12: `exists(s, k)` holds if and only if there is a first section named `s`
and it has a key named `k`; each `get_opt` returns absence exactly when
`exists(s, k)` does not hold, and otherwise what the `get` of its type returns;
on the document that `ini_create` returns, `exists` is false and every `get_opt`
returns absence. -/
theorem exist_and_get_opt (libc : Libc F) (ini : INI F) (s k : List Nat) :
    (exist ini s k = true ↔
      ∃ pre sec post, ini.secs = pre ++ sec :: post ∧ (∀ x ∈ pre, x.sec_name ≠ s) ∧
        sec.sec_name = s ∧ ∃ key ∈ sec.keys, key.key_name = k) ∧
    (get_opt_int libc ini s k = .ok none ↔ exist ini s k = false) ∧
    (get_opt_float libc ini s k = .ok none ↔ exist ini s k = false) ∧
    (get_opt_string libc ini s k = .ok none ↔ exist ini s k = false) ∧
    (exist ini s k = true →
      get_opt_int libc ini s k = (get_int libc ini s k).map some ∧
      get_opt_float libc ini s k = (get_float libc ini s k).map some ∧
      get_opt_string libc ini s k = (get_string libc ini s k).map some) ∧
    (exist (ini_create : INI F) s k = false ∧
      get_opt_int libc (ini_create : INI F) s k = .ok none ∧
      get_opt_float libc (ini_create : INI F) s k = .ok none ∧
      get_opt_string libc (ini_create : INI F) s k = .ok none) := by
  refine ⟨exist_iff ini s k, ?_, ?_, ?_, ?_, rfl, rfl, rfl, rfl⟩
  · unfold get_opt_int
    cases he : exist ini s k
    · simp
    · simp only [if_true]
      cases ini_get_key_i libc ini s k <;> simp
  · unfold get_opt_float
    cases he : exist ini s k
    · simp
    · simp only [if_true]
      cases ini_get_key_f libc ini s k <;> simp
  · unfold get_opt_string
    cases he : exist ini s k
    · simp
    · simp only [if_true]
      cases ini_get_key_str libc ini s k INI_STR_MAX_LENGTH <;> simp
  · intro he
    unfold get_opt_int get_opt_float get_opt_string get_int get_float get_string
    simp only [he, if_true]
    refine ⟨?_, ?_, ?_⟩
    · cases ini_get_key_i libc ini s k <;> rfl
    · cases ini_get_key_f libc ini s k <;> rfl
    · cases ini_get_key_str libc ini s k INI_STR_MAX_LENGTH <;> rfl

/-- The `int` that `key->ival` gives on the Text `John`: the bytes `4A 6F 68 6E`
read least significant byte first. -/
theorem union_bytes_getD (libc : Libc F) (val : Value F) (i : Nat)
    (h : i < (union_written libc val).length) (h1 : i < INI_STR_MAX_LENGTH) :
    (union_bytes libc val).getD i 0 = (union_written libc val).getD i 0 := by
  unfold union_bytes
  rw [List.getD_eq_getElem?_getD, List.getD_eq_getElem?_getD, List.getElem?_take_of_lt h1,
    List.getElem?_append_left h]

theorem read_ival_text_example (libc : Libc F) :
    read_ival libc (.sval (bytes "John")) = 1852337994 := by
  unfold read_ival union_int
  have h : ∀ i, i < 4 → i < (union_written libc (.sval (bytes "John"))).length ∧
      i < INI_STR_MAX_LENGTH := by
    intro i hi
    have : (union_written libc (.sval (bytes "John"))).length = 5 := rfl
    have : INI_STR_MAX_LENGTH = 128 := rfl
    omega
  rw [union_bytes_getD libc _ 0 (h 0 (by omega)).1 (h 0 (by omega)).2,
    union_bytes_getD libc _ 1 (h 1 (by omega)).1 (h 1 (by omega)).2,
    union_bytes_getD libc _ 2 (h 2 (by omega)).1 (h 2 (by omega)).2,
    union_bytes_getD libc _ 3 (h 3 (by omega)).1 (h 3 (by omega)).2]
  simp [union_written, bytes, int_of_bytes]

theorem scan_name_unterminated (stop : Nat) : ∀ (buf acc : List Nat), stop ∉ buf →
    scan_name stop buf acc = .error .out_of_bounds_read ∨
      scan_name stop buf acc = .error .buffer_overflow := by
  intro buf
  induction buf with
  | nil => intro acc _; exact Or.inl rfl
  | cons c buf ih =>
    intro acc h
    have hc : c ≠ stop := fun e => h (by simp [e])
    have hb : stop ∉ buf := fun e => h (by simp [e])
    unfold scan_name
    by_cases hl : acc.length < INI_STR_MAX_LENGTH
    · simp only [hl, if_true, hc, if_false]
      exact ih _ hb
    · simp [hl]

theorem scan_value_unterminated : ∀ (buf acc : List Nat) (s f : Bool), 10 ∉ buf →
    scan_value buf acc s f = .error .out_of_bounds_read ∨
      scan_value buf acc s f = .error .buffer_overflow := by
  intro buf
  induction buf with
  | nil => intro acc s f _; exact Or.inl rfl
  | cons c buf ih =>
    intro acc s f h
    have hc : c ≠ 10 := fun e => h (by simp [e])
    have hb : 10 ∉ buf := fun e => h (by simp [e])
    unfold scan_value
    by_cases hl : acc.length < INI_STR_MAX_LENGTH
    · simp only [hl, if_true, hc, if_false]
      exact ih _ _ _ hb
    · simp [hl]

theorem scan_name_overflow (stop : Nat) : ∀ (pre : List Nat) (c : Nat) (rest acc : List Nat),
    stop ∉ pre → acc.length + pre.length = INI_STR_MAX_LENGTH →
      scan_name stop (pre ++ c :: rest) acc = .error .buffer_overflow := by
  intro pre
  induction pre with
  | nil =>
    intro c rest acc _ hl
    simp only [List.length_nil, Nat.add_zero] at hl
    simp [scan_name, hl]
  | cons p pre ih =>
    intro c rest acc h hl
    have hp : p ≠ stop := fun e => h (by simp [e])
    have hb : stop ∉ pre := fun e => h (by simp [e])
    simp only [List.length_cons] at hl
    have hlt : acc.length < INI_STR_MAX_LENGTH := by omega
    simp only [List.cons_append, scan_name, hlt, if_true, hp, if_false]
    exact ih c rest _ hb (by simp only [List.length_append, List.length_singleton]; omega)

theorem scan_value_overflow : ∀ (pre : List Nat) (c : Nat) (rest acc : List Nat) (s f : Bool),
    10 ∉ pre → acc.length + pre.length = INI_STR_MAX_LENGTH →
      scan_value (pre ++ c :: rest) acc s f = .error .buffer_overflow := by
  intro pre
  induction pre with
  | nil =>
    intro c rest acc s f _ hl
    simp only [List.length_nil, Nat.add_zero] at hl
    simp [scan_value, hl]
  | cons p pre ih =>
    intro c rest acc s f h hl
    have hp : p ≠ 10 := fun e => h (by simp [e])
    have hb : 10 ∉ pre := fun e => h (by simp [e])
    simp only [List.length_cons] at hl
    have hlt : acc.length < INI_STR_MAX_LENGTH := by omega
    simp only [List.cons_append, scan_value, hlt, if_true, hp, if_false]
    exact ih c rest _ _ _ hb (by simp only [List.length_append, List.length_singleton]; omega)

/-- A key name without `=` up to the end of the buffer: the iteration of the
Top state that starts on its first letter has no defined outcome, whatever the
document; it does not return 0. -/
theorem parse_step_unterminated (libc : Libc F) (ini : INI F) (last : Option Nat)
    (c : Nat) (rest : List Nat) (hc : isalpha c = true) (h : 61 ∉ c :: rest) :
    parse_step libc ⟨ini, last, c :: rest⟩ = .undef .out_of_bounds_read ∨
      parse_step libc ⟨ini, last, c :: rest⟩ = .undef .buffer_overflow := by
  obtain ⟨e1, e2, e3, e4, -, -, -⟩ := isalpha_facts c hc
  have hs := scan_name_unterminated 61 (c :: rest) [] h
  unfold parse_step
  simp only [e1, e2, e3, e4, hc, if_false, if_true, Bool.false_eq_true]
  unfold parse_key parse_key_scan
  rw [parse_key_open_spec]
  cases last with
  | some i =>
    simp only []
    rcases hs with hs | hs <;> simp [hs]
  | none =>
    simp only [ini_add_sec_eq]
    by_cases hr : ini.secs.length < SECS_MAX
    · simp only [hr, if_true]
      rcases hs with hs | hs <;> simp [hs]
    · simp [hr]

/-- C14 at its failing inputs: on the inputs `Key` and `Key\n` the key-name scan
of `parse_key` finds no `=`, has no test for the end of the buffer, and reads
the byte after the terminator that `parse_buffer_stream` left: `ini_parse` does
not report failure, it reads beyond the end of the input. -/
theorem unterminated_key_name (libc : Libc F) :
    ini_parse libc (ini_create : INI F) (bytes "Key") = .error .out_of_bounds_read ∧
      ini_parse libc (ini_create : INI F) (bytes "Key\n") = .error .out_of_bounds_read ∧
      scan_name 61 (bytes "Key" ++ [0]) [] = .error .out_of_bounds_read :=
  ⟨rfl, rfl, rfl⟩

/-- A value without newline up to the end of the buffer: the value scan has no
defined outcome. -/
theorem parse_key_scan_unterminated (libc : Libc F) (name value : List Nat)
    (h1 : 61 ∉ name) (h2 : bounded name) (h3 : 10 ∉ value) :
    parse_key_scan libc (name ++ 61 :: value) = .error .out_of_bounds_read ∨
      parse_key_scan libc (name ++ 61 :: value) = .error .buffer_overflow := by
  have hs := scan_name_spec 61 name value [] h1 (by simpa using h2.1)
  simp only [List.nil_append] at hs
  have hv := scan_value_unterminated value [] false false h3
  unfold parse_key_scan
  simp only [hs, cstr_of_no_nul name h2.2, key_create, strcpy_s_ok _ _ h2.1,
    List.drop_succ_cons, List.drop_zero]
  rcases hv with hv | hv <;> simp [hv]

/-- C20 at its failing input: on the input `Key=1` the value scan of `parse_key`
looks for a newline, has no test for the end of the buffer, and reads the byte
after the terminator that `parse_buffer_stream` left: the parse does not
succeed with the document that `Key=1\n` gives. -/
theorem unterminated_value (libc : Libc F) :
    ini_parse libc (ini_create : INI F) (bytes "Key=1") = .error .out_of_bounds_read ∧
      ini_parse libc (ini_create : INI F) (bytes "Key=1\n") =
        .ok (1, ⟨[⟨[], [⟨bytes "Key", .ival 1⟩]⟩]⟩) ∧
      scan_value (bytes "1" ++ [0]) [] false false = .error .out_of_bounds_read :=
  ⟨rfl, rfl, rfl⟩

theorem scan_overflow_split (stop : Nat) (name : List Nat) (rest : List Nat)
    (h1 : stop ∉ name) (h2 : INI_STR_MAX_LENGTH ≤ name.length) :
    scan_name stop (name ++ stop :: rest) [] = .error .buffer_overflow := by
  have e : name = name.take INI_STR_MAX_LENGTH ++ name.drop INI_STR_MAX_LENGTH :=
    (List.take_append_drop _ _).symm
  have hpre : stop ∉ name.take INI_STR_MAX_LENGTH := fun hh => h1 (List.mem_of_mem_take hh)
  have hlen : (name.take INI_STR_MAX_LENGTH).length = INI_STR_MAX_LENGTH := by
    rw [List.length_take]; omega
  rw [e, List.append_assoc]
  cases hd : name.drop INI_STR_MAX_LENGTH with
  | nil =>
    exact scan_name_overflow stop _ stop rest [] hpre (by simp [hlen])
  | cons x xs =>
    exact scan_name_overflow stop _ x (xs ++ stop :: rest) [] hpre (by simp [hlen])

/-- A key name of 128 bytes or more: the name scan writes past `key_name`. -/
theorem parse_key_scan_long_name (libc : Libc F) (name rest : List Nat)
    (h1 : 61 ∉ name) (h2 : INI_STR_MAX_LENGTH ≤ name.length) :
    parse_key_scan libc (name ++ 61 :: rest) = .error .buffer_overflow := by
  unfold parse_key_scan
  simp only [scan_overflow_split 61 name rest h1 h2]

/-- A value of 128 bytes or more: the value scan writes past `key_name`. -/
theorem parse_key_scan_long_value (libc : Libc F) (name value rest : List Nat)
    (h1 : 61 ∉ name) (h2 : bounded name) (h3 : 10 ∉ value)
    (h4 : INI_STR_MAX_LENGTH ≤ value.length) :
    parse_key_scan libc (name ++ 61 :: value ++ 10 :: rest) = .error .buffer_overflow := by
  have hs := scan_name_spec 61 name (value ++ 10 :: rest) [] h1 (by simpa using h2.1)
  simp only [List.nil_append] at hs
  have e : value = value.take INI_STR_MAX_LENGTH ++ value.drop INI_STR_MAX_LENGTH :=
    (List.take_append_drop _ _).symm
  have hpre : 10 ∉ value.take INI_STR_MAX_LENGTH := fun hh => h3 (List.mem_of_mem_take hh)
  have hlen : (value.take INI_STR_MAX_LENGTH).length = INI_STR_MAX_LENGTH := by
    rw [List.length_take]; omega
  have hv : scan_value (value ++ 10 :: rest) [] false false = .error .buffer_overflow := by
    rw [e, List.append_assoc]
    cases hd : value.drop INI_STR_MAX_LENGTH with
    | nil => exact scan_value_overflow _ 10 rest [] _ _ hpre (by simp [hlen])
    | cons x xs => exact scan_value_overflow _ x (xs ++ 10 :: rest) [] _ _ hpre (by simp [hlen])
  unfold parse_key_scan
  simp only [List.append_assoc, List.cons_append, hs, cstr_of_no_nul name h2.2, key_create,
    strcpy_s_ok _ _ h2.1, List.drop_succ_cons, List.drop_zero, hv]

/-- The iteration of the Top state on a key line whose scans overflow. -/
theorem parse_step_scan_overflow (libc : Libc F) (ini : INI F) (last : Option Nat)
    (c : Nat) (rest : List Nat) (hc : isalpha c = true)
    (h : parse_key_scan libc (c :: rest) = .error .buffer_overflow) :
    parse_step libc ⟨ini, last, c :: rest⟩ = .undef .buffer_overflow := by
  obtain ⟨e1, e2, e3, e4, -, -, -⟩ := isalpha_facts c hc
  unfold parse_step
  simp only [e1, e2, e3, e4, hc, if_false, if_true, Bool.false_eq_true]
  unfold parse_key
  rw [parse_key_open_spec]
  cases last with
  | some i => simp only [h]
  | none =>
    simp only [ini_add_sec_eq]
    by_cases hr : ini.secs.length < SECS_MAX
    · simp only [hr, if_true, h]
    · simp only [hr, if_false]

/-- A section name of 128 bytes or more: the name scan writes past `sec_name`. -/
theorem parse_step_long_section_name (libc : Libc F) (ini : INI F) (last : Option Nat)
    (name rest : List Nat) (h1 : 93 ∉ name) (h2 : INI_STR_MAX_LENGTH ≤ name.length) :
    parse_step libc ⟨ini, last, 91 :: name ++ 93 :: rest⟩ = .undef .buffer_overflow := by
  have hs := scan_overflow_split 93 name rest h1 h2
  simp only [parse_step, List.cons_append, EOF_BYTE, isspace, iscntrl, isalpha, parse_section, hs]
  simp

/-- C15 at its failing inputs: the scans of `parse_key` and `parse_section`
store every byte they read without comparing the index with
`INI_STR_MAX_LENGTH`: a key name, a value or a section name of 128 bytes in the
input is written past the end of the 128 byte buffer (a name of 127 bytes is
stored).  `set` with a name or a text of 128 bytes violates the constraint of
`strcpy_s`, whose result the library does not look at. -/
theorem capacity_overflow :
    ini_parse unit_libc (ini_create : INI Unit) (List.replicate 128 97 ++ 61 :: bytes "1\n") =
        .error .buffer_overflow ∧
      ini_parse unit_libc (ini_create : INI Unit)
        (bytes "K" ++ 61 :: List.replicate 128 97 ++ 10 :: []) = .error .buffer_overflow ∧
      ini_parse unit_libc (ini_create : INI Unit) (91 :: List.replicate 128 97 ++ 93 :: [10]) =
        .error .buffer_overflow ∧
      ini_parse unit_libc (ini_create : INI Unit)
        (render_lines [Line.key [] (List.replicate 127 97) (bytes "1")]) =
          .ok (1, ⟨[⟨[], [⟨List.replicate 127 97, .ival 1⟩]⟩]⟩) ∧
      ini_add_key (ini_create : INI Unit) [] (List.replicate 128 97) (.ival 1) =
        .error .constraint_violation ∧
      ini_add_key (ini_create : INI Unit) (List.replicate 128 97) (bytes "K") (.ival 1) =
        .error .constraint_violation ∧
      ini_add_key (ini_create : INI Unit) [] (bytes "K") (.sval (List.replicate 128 97)) =
        .error .constraint_violation := by
  have hlen : INI_STR_MAX_LENGTH ≤ (List.replicate 128 97).length := by
    simp [INI_STR_MAX_LENGTH]
  have hviol : strcpy_s INI_STR_MAX_LENGTH (List.replicate 128 97) =
      .error .constraint_violation := by
    simp [strcpy_s, INI_STR_MAX_LENGTH]
  refine ⟨?_, ?_, ?_, ?_, ?_, ?_, ?_⟩
  · rw [ini_parse_eq_run]
    apply run_undef
    have h := parse_key_scan_long_name unit_libc (List.replicate 128 97) (bytes "1\n" ++ [0])
      (by simp) hlen
    exact parse_step_scan_overflow unit_libc _ _ 97 _ (by decide) h
  · rw [ini_parse_eq_run]
    apply run_undef
    have h := parse_key_scan_long_value unit_libc (bytes "K") (List.replicate 128 97) [0]
      (by decide) (by decide) (by simp) hlen
    exact parse_step_scan_overflow unit_libc _ _ 75 _ (by decide) h
  · rw [ini_parse_eq_run]
    apply run_undef
    exact parse_step_long_section_name unit_libc _ _ (List.replicate 128 97) ([10] ++ [0])
      (by simp) hlen
  · rw [parse_lines unit_libc _ (by
      intro l hl
      simp only [List.mem_singleton] at hl
      subst hl
      refine ⟨by decide, by rfl, by simp, by simp, ⟨by simp [INI_STR_MAX_LENGTH], by simp⟩,
        by decide, by decide⟩) (by decide)]
    rfl
  · simp only [ini_add_key, ini_add_key_i, key_create, hviol]
  · have hk : key_create (bytes "K") = .ok (bytes "K") := rfl
    have hg : ini_get_section (ini_create : INI Unit) (List.replicate 128 97) = none := rfl
    simp only [ini_add_key, ini_add_key_i, hk, ini_add_key_generic, hg, sec_create, hviol]
  · have hk : key_create (bytes "K") = .ok (bytes "K") := rfl
    simp only [ini_add_key, ini_add_key_str, hk, key_set_str, hviol]

/-! ## Integers through the text form (C17) -/

theorem value_of_text_fmt_i (libc : Libc F) (n : Int) (h1 : INT_MIN ≤ n) (h2 : n ≤ INT_MAX) :
    value_of_text libc (fmt_i n) = .ival n :=
  value_of_text_stable libc (.ival n) ⟨h1, h2⟩

theorem fmt_i_bounded (n : Int) (h1 : INT_MIN ≤ n) (h2 : n ≤ INT_MAX) :
    10 ∉ fmt_i n ∧ bounded (fmt_i n) := by
  have hbytes := fmt_i_plain_bytes n
  refine ⟨fun hc => (hbytes 10 hc).2.2.2.1 rfl, ?_, fun hc => (hbytes 0 hc).2.2.2.2.1 rfl⟩
  have := fmt_i_length n h1 h2
  show (fmt_i n).length < INI_STR_MAX_LENGTH
  unfold INI_STR_MAX_LENGTH; omega

/-- C17: for every `n` that is a C `int`, and a key name that starts with a
letter, has no `=` and is at most 127 bytes without NUL, the iteration of the
Top state on `name=`, the `%i` rendering of `n` and a newline builds the key
`name` with the Integer `n` and hands it to `sec_add_key`; parsed into the empty
document the line gives the global section holding that key.  The renderings of
-5 and of the least `int` start with `-`, and come back as Integers. -/
theorem integer_survives_text (libc : Libc F) (ini : INI F) (last : Option Nat)
    (name rest : List Nat) (n : Int) (h0 : starts_with_letter name = true) (h1 : 61 ∉ name)
    (h2 : bounded name) (hmin : INT_MIN ≤ n) (hmax : n ≤ INT_MAX) :
    parse_step libc ⟨ini, last, name ++ 61 :: fmt_i n ++ 10 :: rest⟩ =
        (match add_to_current ini last ⟨name, .ival n⟩ with
          | .ok (ini1, last1) => .next ⟨ini1, last1, rest⟩
          | .error u => .undef u) ∧
      ini_parse libc ini_create (name ++ 61 :: fmt_i n ++ [10]) =
        .ok (1, ⟨[⟨[], [⟨name, .ival n⟩]⟩]⟩) ∧
      fmt_i (-5) = bytes "-5" ∧ fmt_i INT_MIN = bytes "-2147483648" ∧
      ini_parse libc ini_create (bytes "N=-5\n") = .ok (1, ⟨[⟨[], [⟨bytes "N", .ival (-5)⟩]⟩]⟩) ∧
      ini_parse libc ini_create (bytes "N=-2147483648\n") =
        .ok (1, ⟨[⟨[], [⟨bytes "N", .ival INT_MIN⟩]⟩]⟩) := by
  obtain ⟨h3, h4⟩ := fmt_i_bounded n hmin hmax
  have hstep : ∀ (ini : INI F) (last : Option Nat) (rest : List Nat),
      parse_step libc ⟨ini, last, name ++ 61 :: fmt_i n ++ 10 :: rest⟩ =
        (match add_to_current ini last ⟨name, .ival n⟩ with
          | .ok (ini1, last1) => .next ⟨ini1, last1, rest⟩
          | .error u => .undef u) := by
    intro ini last rest
    have := parse_step_key libc ini last [] name (fmt_i n) rest h0 h1 h2 h3 h4
    rw [this]
    show (match add_to_current ini last ⟨name, value_of_text libc (fmt_i n)⟩ with
      | .ok (ini1, last1) => Step.next ⟨ini1, last1, rest⟩
      | .error u => Step.undef u) = _
    rw [value_of_text_fmt_i libc n hmin hmax]
  refine ⟨hstep ini last rest, ?_, rfl, rfl, rfl, rfl⟩
  rw [ini_parse_eq_run]
  have e : name ++ 61 :: fmt_i n ++ [10] ++ [0] = name ++ 61 :: fmt_i n ++ 10 :: [0] := by simp
  rw [e, run_next libc _ _ (hstep ini_create none [0])]
  exact run_terminator libc _ _ _

/-- Witness for C17: the value -2147483648 read into an existing section. -/
theorem integer_survives_text_witness :
    parse_step unit_libc ⟨(⟨[⟨bytes "S", []⟩]⟩ : INI Unit), some 0,
        bytes "Low" ++ 61 :: fmt_i (-2147483648) ++ 10 :: [0]⟩ =
      .next ⟨⟨[⟨bytes "S", [⟨bytes "Low", .ival (-2147483648)⟩]⟩]⟩, some 0, [0]⟩ :=
  (integer_survives_text unit_libc (⟨[⟨bytes "S", []⟩]⟩ : INI Unit) (some 0) (bytes "Low") [0]
    (-2147483648) (by decide) (by decide) (by decide) (by decide) (by decide)).1

/-! ## The byte after a section header (C18) -/

/-- C18 at its failing input: `parse_section` leaves `pos` after the `]` and the
loop of `ini_parse` increments it once more, so the byte that follows the `]` is
never read by the Top state.  On `[A]X=1\n` the parser skips `X`, meets `=` in
the Top state and returns 0 with the section `A` empty; the claim has the parse
succeed with the key `X` in the section.  The skipped byte is the newline in
`[A]\nX=1\n`, and any other byte is skipped alike, as `#` in `[A]#X=1\n`. -/
theorem header_skips_next_byte (libc : Libc F) :
    ini_parse libc (ini_create : INI F) (bytes "[A]X=1\n") =
        .ok (0, ⟨[⟨bytes "A", []⟩]⟩) ∧
      parse_step libc ⟨(ini_create : INI F), none, bytes "[A]X=1\n" ++ [0]⟩ =
        .next ⟨⟨[⟨bytes "A", []⟩]⟩, some 0, bytes "=1\n" ++ [0]⟩ ∧
      ini_parse libc (ini_create : INI F) (bytes "[A]\nX=1\n") =
        .ok (1, ⟨[⟨bytes "A", [⟨bytes "X", .ival 1⟩]⟩]⟩) ∧
      ini_parse libc (ini_create : INI F) (bytes "[A]#X=1\n") =
        .ok (1, ⟨[⟨bytes "A", [⟨bytes "X", .ival 1⟩]⟩]⟩) :=
  ⟨rfl, rfl, rfl, rfl⟩

/-! ## Control bytes (C19) -/

theorem scan_comment_cntrl (body : List Nat) (c : Nat) (rest : List Nat)
    (hb : ∀ b ∈ body, iscntrl b = false) (hc : iscntrl c = true) (hn : c ≠ 10) :
    scan_comment (body ++ c :: rest) = .ok none := by
  induction body with
  | nil => simp [scan_comment, hn, hc]
  | cons b body ih =>
    have h1 : iscntrl b = false := hb b (by simp)
    have h2 : b ≠ 10 := by
      intro e; subst e; exact absurd h1 (by decide)
    simp only [List.cons_append, scan_comment, h2, if_false, h1, Bool.false_eq_true]
    exact ih (fun x hx => hb x (by simp [hx]))

theorem iscntrl_not_eof (c : Nat) (h : iscntrl c = true) : c ≠ EOF_BYTE := by
  intro e
  subst e
  exact absurd h (by decide)

theorem parse_step_cntrl (libc : Libc F) (ini : INI F) (last : Option Nat) (c : Nat)
    (rest : List Nat) (hc : iscntrl c = true) (hs : isspace c = false) :
    parse_step libc ⟨ini, last, c :: rest⟩ = .ret 1 ini := by
  simp [parse_step, iscntrl_not_eof c hc, hs, hc]

theorem parse_step_comment_cntrl (libc : Libc F) (ini : INI F) (last : Option Nat)
    (body : List Nat) (c : Nat) (rest : List Nat)
    (hb : ∀ b ∈ body, iscntrl b = false) (hc : iscntrl c = true) (hn : c ≠ 10) :
    parse_step libc ⟨ini, last, 59 :: body ++ c :: rest⟩ = .ret 1 ini := by
  have := scan_comment_cntrl body c rest hb hc hn
  simp [parse_step, EOF_BYTE, isspace, iscntrl, this]

/-- C19: in the Top state at a control byte that is not white space, and in the
comment loop at a control byte other than newline (the comment body before it
having no control byte), the iteration returns 1 at once, with the document as
it is, whatever follows the byte.  So after a prefix of well-formed lines the
parse gives what parsing the prefix alone gives.  The inputs `;a\tb\nKey=1\n` and
`;x\r\nKey=1\n` are parsed with success to a document without the key. -/
theorem control_byte_sentinel (libc : Libc F) (ini : INI F) (last : Option Nat)
    (lines : List Line) (body : List Nat) (c d : Nat) (rest : List Nat)
    (h : ∀ l ∈ lines, l.well_formed)
    (hc : iscntrl c = true) (hs : isspace c = false)
    (hb : ∀ b ∈ body, iscntrl b = false) (hd : iscntrl d = true) (hn : d ≠ 10) :
    parse_step libc ⟨ini, last, c :: rest⟩ = .ret 1 ini ∧
      parse_step libc ⟨ini, last, 59 :: body ++ d :: rest⟩ = .ret 1 ini ∧
      ini_parse libc ini (render_lines lines ++ c :: rest) =
        ini_parse libc ini (render_lines lines) ∧
      ini_parse libc ini (render_lines lines ++ 59 :: body ++ d :: rest) =
        ini_parse libc ini (render_lines lines) ∧
      ini_parse libc ini_create (bytes ";a\tb\nKey=1\n") = .ok (1, ini_create) ∧
      ini_parse libc ini_create (bytes ";x\r\nKey=1\n") = .ok (1, ini_create) ∧
      ini_does_key_exist (ini_create : INI F) [] (bytes "Key") = false := by
  refine ⟨parse_step_cntrl libc ini last c rest hc hs,
    parse_step_comment_cntrl libc ini last body d rest hb hd hn, ?_, ?_, rfl, rfl, rfl⟩
  · rw [ini_parse_eq_run, ini_parse_eq_run]
    have h1 := run_lines libc lines ini none (c :: (rest ++ [0])) h
    have h2 := run_lines libc lines ini none [0] h
    simp only [List.append_assoc, List.cons_append] at h1 h2 ⊢
    rw [h1, h2]
    cases exec_lines libc ini none lines with
    | error u => rfl
    | ok p =>
      obtain ⟨ini1, last1⟩ := p
      simp only []
      rw [run_ret libc _ 1 ini1 (parse_step_cntrl libc ini1 last1 c _ hc hs),
        run_terminator]
  · rw [ini_parse_eq_run, ini_parse_eq_run]
    have h1 := run_lines libc lines ini none (59 :: body ++ d :: (rest ++ [0])) h
    have h2 := run_lines libc lines ini none [0] h
    simp only [List.append_assoc, List.cons_append] at h1 h2 ⊢
    rw [h1, h2]
    cases exec_lines libc ini none lines with
    | error u => rfl
    | ok p =>
      obtain ⟨ini1, last1⟩ := p
      simp only []
      have hstep := parse_step_comment_cntrl libc ini1 last1 body d (rest ++ [0]) hb hd hn
      simp only [List.cons_append] at hstep
      rw [run_ret libc _ 1 ini1 hstep, run_terminator]

/-- Witness for C19: the byte 0x01 in the Top state and a tab in a comment,
after a key line. -/
theorem control_byte_sentinel_witness :
    ini_parse unit_libc (ini_create : INI Unit)
        (render_lines [Line.key [] (bytes "A") (bytes "1")] ++ 1 :: bytes "B=2\n") =
      ini_parse unit_libc (ini_create : INI Unit)
        (render_lines [Line.key [] (bytes "A") (bytes "1")]) ∧
    ini_parse unit_libc (ini_create : INI Unit)
        (render_lines [Line.key [] (bytes "A") (bytes "1")] ++ 59 :: bytes "a" ++
          9 :: bytes "B=2\n") =
      ini_parse unit_libc (ini_create : INI Unit)
        (render_lines [Line.key [] (bytes "A") (bytes "1")]) :=
  ⟨(control_byte_sentinel unit_libc ini_create none [Line.key [] (bytes "A") (bytes "1")]
      (bytes "a") 1 9 (bytes "B=2\n") (by decide) (by decide) (by decide) (by decide)
      (by decide) (by decide)).2.2.1,
    (control_byte_sentinel unit_libc ini_create none [Line.key [] (bytes "A") (bytes "1")]
      (bytes "a") 1 9 (bytes "B=2\n") (by decide) (by decide) (by decide) (by decide)
      (by decide) (by decide)).2.2.2.1⟩

/-! ## The round trip of documents built by `set` (C16) -/

/-- C16 at its failing inputs.  The empty sequence of calls leaves the empty
document, on which `ini_serialize` reads `ini->secs[0]` through the NULL pointer
`secs`.  Thirty-two calls `set("S", "k", 0)` fill the block of the keys of `S`,
and `ini_serialize` loads `sec->keys[32]` from outside the block; the
thirty-third call stores there.  Each sequence satisfies the conditions of the
claim. -/
theorem sets_round_trip_failure :
    restricted_calls ([] : List (SetCall Unit)) ∧
      apply_sets (ini_create : INI Unit) [] = .ok ini_create ∧
      ini_serialize unit_libc (ini_create : INI Unit) = .error .null_dereference ∧
      restricted_calls (List.replicate 33 (⟨bytes "S", bytes "k", .ival 0⟩ : SetCall Unit)) ∧
      apply_sets (ini_create : INI Unit)
        (List.replicate 32 (⟨bytes "S", bytes "k", .ival 0⟩ : SetCall Unit)) =
          .ok ⟨[⟨bytes "S", List.replicate 32 ⟨bytes "k", .ival 0⟩⟩]⟩ ∧
      ini_serialize unit_libc
        (⟨[⟨bytes "S", List.replicate 32 ⟨bytes "k", .ival 0⟩⟩]⟩ : INI Unit) =
          .error .out_of_bounds_read ∧
      apply_sets (ini_create : INI Unit)
        (List.replicate 33 (⟨bytes "S", bytes "k", .ival 0⟩ : SetCall Unit)) =
          .error .buffer_overflow := by
  refine ⟨by decide, rfl, rfl, by decide, rfl, rfl, rfl⟩

theorem key_line_well_formed_good (libc : Libc F) (key : INI_KEY F) (h : good_key key) :
    (key_line libc key).well_formed := by
  obtain ⟨⟨ha, hb, hv⟩, h1, h2, h3⟩ := h
  refine ⟨by simp [all_space], ha, h1, h2, hb, ?_⟩
  cases hval : key.val with
  | ival n =>
    rw [hval] at hv
    exact fmt_i_bounded n hv.1 hv.2
  | fval x => rw [hval] at hv; exact absurd hv (by simp [stable_value])
  | sval t =>
    rw [hval] at hv h3
    exact ⟨h3, hv.2⟩

theorem document_lines_well_formed_good (libc : Libc F) (d : INI F)
    (h : ∀ sec ∈ d.secs, good_section sec) :
    ∀ l ∈ document_lines libc d, l.well_formed := by
  intro l hl
  simp only [document_lines, List.mem_flatten, List.mem_map, exists_exists_and_eq_and] at hl
  obtain ⟨sec, hsec, hl⟩ := hl
  obtain ⟨hb, h93, h10, -, hk⟩ := h sec hsec
  simp only [section_lines, List.mem_append, List.mem_map, List.mem_singleton] at hl
  rcases hl with (hl | ⟨key, hkey, rfl⟩) | rfl
  · split at hl
    · simp at hl
    · simp only [List.mem_singleton] at hl
      subst hl
      exact ⟨by simp [all_space], h93, h10, hb⟩
  · exact key_line_well_formed_good libc key (hk key hkey)
  · simp [Line.well_formed, all_space]

theorem round_trippable_of_good (d : INI F) (h0 : d.secs ≠ []) (ht : named_tail d.secs)
    (h : ∀ sec ∈ d.secs, good_section sec) : round_trippable d :=
  ⟨h0, ht, fun sec hsec => ⟨(h sec hsec).1, (h sec hsec).2.2.2.1,
    fun key hkey => ((h sec hsec).2.2.2.2 key hkey).1⟩⟩

/-- The round trip of a document with good sections. -/
theorem parse_serialize_good (libc : Libc F) (d : INI F) (h0 : d.secs ≠ [])
    (ht : named_tail d.secs) (h : ∀ sec ∈ d.secs, good_section sec) (hl : fits_loads d) :
    ∃ out, ini_serialize libc d = .ok out ∧ ini_parse libc ini_create out = .ok (1, d) := by
  have hr := round_trippable_of_good d h0 ht h
  refine ⟨render_lines (document_lines libc d), ?_, ?_⟩
  · exact ini_serialize_eq libc d h0 (fun sec hsec => (h sec hsec).2.2.2.1) hl
  · have e := ref_parse_document_lines libc d hr
    rw [parse_lines libc _ (document_lines_well_formed_good libc d h)
      (by rw [e]; exact fits_of_fits_loads d hl), e]

/-- The two shapes of the document after a `set` that returns. -/
theorem add_key_shape (ini ini1 : INI F) (s k : List Nat) (v : Value F)
    (hs : s.length < INI_STR_MAX_LENGTH) (hk : k.length < INI_STR_MAX_LENGTH)
    (hv : ∀ t, v = .sval t → t.length < INI_STR_MAX_LENGTH)
    (h : ini_add_key ini s k v = .ok ini1) :
    (∃ pre sec post, ini.secs = pre ++ sec :: post ∧ (∀ x ∈ pre, x.sec_name ≠ s) ∧
        sec.sec_name = s ∧ ini1.secs = pre ++ ⟨s, sec.keys ++ [⟨k, v⟩]⟩ :: post) ∨
      ((∀ x ∈ ini.secs, x.sec_name ≠ s) ∧ ini1.secs = ini.secs ++ [⟨s, [⟨k, v⟩]⟩]) := by
  by_cases hr : has_room ini s
  · obtain ⟨ini2, h2, -, hshape⟩ := add_key_effect ini s k v hs hk hv hr
    rw [h] at h2
    simp only [Except.ok.injEq] at h2
    subst h2
    exact hshape
  · rw [add_key_full ini s k v hs hk hv hr] at h
    simp at h

theorem named_tail_append (secs : List (INI_SECTION F)) (sec : INI_SECTION F)
    (h : named_tail secs) (h0 : secs ≠ []) (hn : sec.sec_name ≠ []) :
    named_tail (secs ++ [sec]) := by
  cases secs with
  | nil => exact absurd rfl h0
  | cons a rest =>
    show ∀ x ∈ rest ++ [sec], x.sec_name ≠ []
    intro x hx
    simp only [List.mem_append, List.mem_singleton] at hx
    rcases hx with hx | hx
    · exact h x hx
    · subst hx; exact hn

theorem named_tail_update (pre post : List (INI_SECTION F)) (sec : INI_SECTION F)
    (keys : List (INI_KEY F)) (h : named_tail (pre ++ sec :: post)) :
    named_tail (pre ++ ⟨sec.sec_name, keys⟩ :: post) := by
  cases pre with
  | nil => exact h
  | cons a pre =>
    show ∀ x ∈ pre ++ ⟨sec.sec_name, keys⟩ :: post, x.sec_name ≠ []
    have h : ∀ x ∈ pre ++ sec :: post, x.sec_name ≠ [] := h
    intro x hx
    simp only [List.mem_append, List.mem_cons] at hx
    rcases hx with hx | hx | hx
    · exact h x (by simp [hx])
    · subst hx
      exact h sec (by simp)
    · exact h x (by simp [hx])

theorem good_key_of_call (c : SetCall F) (h : restricted_call c) :
    good_key (⟨c.key_name, c.val⟩ : INI_KEY F) := h.2.2.2

/-- What a sequence of restricted calls builds: good sections, the empty name
on the first section only, and at least one section. -/
theorem apply_sets_good : ∀ (calls : List (SetCall F)) (ini d : INI F),
    (∀ c ∈ calls, restricted_call c) → empty_name_first ini.secs calls →
    (∀ sec ∈ ini.secs, good_section sec) → named_tail ini.secs →
    apply_sets ini calls = .ok d →
      (∀ sec ∈ d.secs, good_section sec) ∧ named_tail d.secs ∧
        (calls ≠ [] ∨ ini.secs ≠ [] → d.secs ≠ []) := by
  intro calls
  induction calls with
  | nil =>
    intro ini d _ _ hg ht h
    simp only [apply_sets, Except.ok.injEq] at h
    subst h
    exact ⟨hg, ht, fun hh => hh.resolve_left (fun e => e rfl)⟩
  | cons c cs ih =>
    intro ini d hc hf hg ht h
    have hrc := hc c (by simp)
    obtain ⟨hb, h93, h10, hgk⟩ := hrc
    have hcs : ∀ x ∈ cs, restricted_call x := fun x hx => hc x (by simp [hx])
    unfold apply_sets at h
    cases hadd : ini_add_key ini c.sec_name c.key_name c.val with
    | error u => rw [hadd] at h; simp at h
    | ok ini1 =>
      rw [hadd] at h
      simp only at h
      have hshape := add_key_shape ini ini1 c.sec_name c.key_name c.val hb.1 hgk.1.2.1.1
        (by
          intro t ht
          have := hgk.1.2.2
          rw [show (⟨c.key_name, c.val⟩ : INI_KEY F).val = c.val from rfl, ht] at this
          exact this.2.1) hadd
      have hne : ini1.secs ≠ [] := by
        rcases hshape with ⟨pre, sec, post, -, -, -, e⟩ | ⟨-, e⟩ <;> simp [e]
      have key : (∀ sec ∈ ini1.secs, good_section sec) ∧ named_tail ini1.secs ∧
          empty_name_first ini1.secs cs := by
        rcases hshape with ⟨pre, sec, post, e0, hpre, hname, e⟩ | ⟨habs, e⟩
        · have hgs := hg sec (by simp [e0])
          refine ⟨?_, ?_, ?_⟩
          · intro x hx
            rw [e] at hx
            simp only [List.mem_append, List.mem_cons] at hx
            rcases hx with hx | hx | hx
            · exact hg x (by simp [e0, hx])
            · subst hx
              refine ⟨hb, h93, h10, by simp, ?_⟩
              intro key hkey
              simp only [List.mem_append, List.mem_singleton] at hkey
              rcases hkey with hkey | hkey
              · exact hgs.2.2.2.2 key hkey
              · subst hkey; exact hgk
            · exact hg x (by simp [e0, hx])
          · rw [e, ← hname]
            rw [e0] at ht
            exact named_tail_update pre post sec _ ht
          · rw [e]
            rw [e0] at hf
            cases pre with
            | nil =>
              simp only [List.nil_append, empty_name_first] at hf ⊢
              intro x hx hxe
              rw [← hname]
              exact hf x (by simp [hx]) hxe
            | cons a pre =>
              simp only [List.cons_append, empty_name_first] at hf ⊢
              intro x hx hxe
              exact hf x (by simp [hx]) hxe
        · refine ⟨?_, ?_, ?_⟩
          · intro x hx
            rw [e] at hx
            simp only [List.mem_append, List.mem_singleton] at hx
            rcases hx with hx | hx
            · exact hg x hx
            · subst hx
              refine ⟨hb, h93, h10, by simp, ?_⟩
              intro key hkey
              simp only [List.mem_singleton] at hkey
              subst hkey; exact hgk
          · rw [e]
            cases hsecs : ini.secs with
            | nil => simp [named_tail]
            | cons a rest =>
              rw [hsecs] at hf ht habs
              apply named_tail_append _ _ ht (by simp)
              simp only []
              intro hce
              have := hf c (by simp) hce
              exact habs a (by simp) (by rw [this, hce])
          · rw [e]
            cases hsecs : ini.secs with
            | nil =>
              rw [hsecs] at hf
              simp only [List.nil_append, empty_name_first] at hf ⊢
              exact hf
            | cons a rest =>
              rw [hsecs] at hf
              simp only [List.cons_append, empty_name_first] at hf ⊢
              intro x hx hxe
              exact hf x (by simp [hx]) hxe
      obtain ⟨k1, k2, k3⟩ := key
      obtain ⟨r1, r2, r3⟩ := ih ini1 d hcs k3 k1 k2 h
      exact ⟨r1, r2, fun _ => r3 (Or.inr hne)⟩

/-- The restricted round trip where the code has no slip: a non-empty sequence
of calls of `set` that satisfies the conditions (i) to (v) and stays within the
blocks builds a document whose serialized text parses, into the empty document,
to a document equal to it. -/
theorem sets_round_trip (libc : Libc F) (calls : List (SetCall F)) (d : INI F)
    (hc : restricted_calls calls) (hne : calls ≠ [])
    (hd : apply_sets ini_create calls = .ok d) (hl : fits_loads d) :
    ∃ out, ini_serialize libc d = .ok out ∧ ini_parse libc ini_create out = .ok (1, d) := by
  obtain ⟨r1, r2, r3⟩ := apply_sets_good calls ini_create d hc.1 hc.2
    (fun sec hs => absurd hs (List.not_mem_nil _)) trivial hd
  exact parse_serialize_good libc d (r3 (Or.inl hne)) r2 r1 hl

/-- An instance: the calls of the example program without its Float key. -/
theorem sets_round_trip_example :
    ∃ out, ini_serialize unit_libc (⟨[⟨[], [⟨bytes "GlobalKey", .ival 1⟩]⟩,
        ⟨bytes "Person.Attributes", [⟨bytes "Name", .sval (bytes "John")⟩,
          ⟨bytes "Age", .ival 32⟩]⟩]⟩ : INI Unit) = .ok out ∧
      ini_parse unit_libc ini_create out = .ok (1, ⟨[⟨[], [⟨bytes "GlobalKey", .ival 1⟩]⟩,
        ⟨bytes "Person.Attributes", [⟨bytes "Name", .sval (bytes "John")⟩,
          ⟨bytes "Age", .ival 32⟩]⟩]⟩) :=
  sets_round_trip unit_libc
    [⟨[], bytes "GlobalKey", .ival 1⟩, ⟨bytes "Person.Attributes", bytes "Name", .sval (bytes "John")⟩,
      ⟨bytes "Person.Attributes", bytes "Age", .ival 32⟩] _ (by decide) (by simp) rfl (by decide)

/-! ## Names and values are taken verbatim (C21) -/

/-- C21, as stated, fails: on `K`, NUL, `B=x`, NUL, `y` and a newline the bytes
from the first letter up to the `=` are `K`, NUL, `B` and the bytes between the
`=` and the newline are `x`, NUL, `y`; the key is named `K` and holds the Text
`x`: `key_create` and `key_set_str` copy the buffers as strings. -/
theorem names_and_values_counterexample :
    ini_parse unit_libc ini_create [75, 0, 66, 61, 120, 0, 121, 10] =
        .ok (1, ⟨[⟨[], [⟨[75], .sval [120]⟩]⟩]⟩) ∧
      ([75] : List Nat) ≠ [75, 0, 66] ∧ ([120] : List Nat) ≠ [120, 0, 121] := by
  refine ⟨rfl, by decide, by decide⟩

/-- C21, amended: with the cursor of the Top state on a letter, the name buffer
takes the bytes from that letter up to the first `=`, spaces and newlines
included, and the value buffer the bytes between that `=` and the next newline
(each at most 127 bytes); nothing is trimmed.  The key is named by the bytes of
the name buffer before its first NUL byte, and the value is classified from all
the bytes of the value buffer and read from those before its first NUL byte: a
Text holds exactly them.  Where no byte is NUL these are all the bytes: the key
name is exactly the bytes up to the `=` and a Text holds exactly the bytes up to
the newline.  So `Key = 1\n` gives the key `Key ` (with the space) the Text
` 1`, and `exists("", "Key")` is false; `A\nB=1\n` gives one key named `A\nB`;
`Age=32\r\n` gives the Text `32\r`. -/
theorem names_and_values_verbatim (libc : Libc F) (ini : INI F) (last : Option Nat)
    (name value rest : List Nat) (h0 : starts_with_letter name = true) (h1 : 61 ∉ name)
    (h2 : name.length < INI_STR_MAX_LENGTH) (h3 : 10 ∉ value)
    (h4 : value.length < INI_STR_MAX_LENGTH) :
    parse_key_scan libc (name ++ 61 :: value ++ 10 :: rest) =
        .ok (⟨cstr name, value_of_scan libc value⟩, 10 :: rest) ∧
      parse_step libc ⟨ini, last, name ++ 61 :: value ++ 10 :: rest⟩ =
        (match add_to_current ini last ⟨cstr name, value_of_scan libc value⟩ with
          | .ok (ini1, last1) => .next ⟨ini1, last1, rest⟩
          | .error u => .undef u) ∧
      (has_text_byte value = true → value_of_scan libc value = .sval (cstr value)) ∧
      (0 ∉ name → cstr name = name) ∧ (0 ∉ value → cstr value = value) ∧
      (0 ∉ name → 0 ∉ value →
        parse_key_scan libc (name ++ 61 :: value ++ 10 :: rest) =
          .ok (⟨name, value_of_text libc value⟩, 10 :: rest)) ∧
      ini_parse libc ini_create (bytes "Key = 1\n") =
        .ok (1, ⟨[⟨[], [⟨bytes "Key ", .sval (bytes " 1")⟩]⟩]⟩) ∧
      ini_does_key_exist (⟨[⟨[], [⟨bytes "Key ", .sval (bytes " 1")⟩]⟩]⟩ : INI F) []
        (bytes "Key") = false ∧
      ini_parse libc ini_create (bytes "A\nB=1\n") =
        .ok (1, ⟨[⟨[], [⟨bytes "A\nB", .ival 1⟩]⟩]⟩) ∧
      ini_parse libc ini_create (bytes "Age=32\r\n") =
        .ok (1, ⟨[⟨[], [⟨bytes "Age", .sval (bytes "32\r")⟩]⟩]⟩) := by
  refine ⟨parse_key_scan_general libc name value rest h1 h2 h3 h4,
    parse_step_key_general libc ini last name value rest h0 h1 h2 h3 h4, ?_,
    cstr_of_no_nul name, cstr_of_no_nul value, ?_, rfl, rfl, rfl, rfl⟩
  · intro ht
    simp [value_of_scan, ht]
  · intro hn hv
    exact parse_key_scan_spec libc name value rest h1 ⟨h2, hn⟩ h3 ⟨h4, hv⟩

/-- Witness for C21: a name with a newline and a space, a value with a space
on each side. -/
theorem names_and_values_verbatim_witness :
    parse_key_scan unit_libc (bytes "A\nB " ++ 61 :: bytes " x " ++ 10 :: [0]) =
      .ok (⟨bytes "A\nB ", .sval (bytes " x ")⟩, 10 :: [0]) :=
  (names_and_values_verbatim unit_libc ini_create none (bytes "A\nB ") (bytes " x ") [0]
    (by decide) (by decide) (by decide) (by decide) (by decide)).2.2.2.2.2.1 (by decide)
      (by decide)

/-! ## The law of `set` followed by `get` (C22) -/

theorem find_first_get {α : Type} (p : α → Bool) (l : List α) :
    (match find_first p l with
      | some i => l.get? i
      | none => none) = l.find? p := by
  induction l with
  | nil => rfl
  | cons x xs ih =>
    unfold find_first
    by_cases hx : p x = true
    · simp [hx]
    · simp only [hx, if_false, Bool.false_eq_true, List.find?_cons]
      cases hf : find_first p xs with
      | none => rw [hf] at ih; simpa using ih
      | some i => rw [hf] at ih; simpa using ih

theorem section_at_find (ini : INI F) (s : List Nat) :
    section_at ini (ini_get_section ini s) =
      ini.secs.find? (fun sec => sec.sec_name == s) := by
  unfold section_at ini_get_section
  exact find_first_get _ _

theorem exist_find_key (ini : INI F) (s k : List Nat) :
    ini_does_key_exist ini s k = (find_key ini s k).isSome := by
  unfold ini_does_key_exist find_key
  rw [section_at_find]
  cases ini.secs.find? (fun sec => sec.sec_name == s) with
  | none => rfl
  | some sec =>
    simp only [Option.some_bind, sec_get_key]
    cases sec.keys.find? (fun key => key.key_name == k) <;> rfl

theorem get_i_find_key (libc : Libc F) (ini : INI F) (s k : List Nat) :
    ini_get_key_i libc ini s k =
      match find_key ini s k with
      | some key => .ok (read_ival libc key.val)
      | none => .error .null_dereference := by
  unfold ini_get_key_i lookup_key find_key
  rw [section_at_find]
  cases ini.secs.find? (fun sec => sec.sec_name == s) with
  | none => rfl
  | some sec =>
    simp only [Option.some_bind, sec_get_key]
    cases sec.keys.find? (fun key => key.key_name == k) <;> rfl

theorem get_f_find_key (libc : Libc F) (ini : INI F) (s k : List Nat) :
    ini_get_key_f libc ini s k =
      match find_key ini s k with
      | some key => .ok (read_fval libc key.val)
      | none => .error .null_dereference := by
  unfold ini_get_key_f lookup_key find_key
  rw [section_at_find]
  cases ini.secs.find? (fun sec => sec.sec_name == s) with
  | none => rfl
  | some sec =>
    simp only [Option.some_bind, sec_get_key]
    cases sec.keys.find? (fun key => key.key_name == k) <;> rfl

theorem get_str_find_key (libc : Libc F) (ini : INI F) (s k : List Nat) (n : Nat) :
    ini_get_key_str libc ini s k n =
      match find_key ini s k with
      | some key => read_sval libc key.val n
      | none => .error .null_dereference := by
  unfold ini_get_key_str lookup_key find_key
  rw [section_at_find]
  cases ini.secs.find? (fun sec => sec.sec_name == s) with
  | none => rfl
  | some sec =>
    simp only [Option.some_bind, sec_get_key]
    cases sec.keys.find? (fun key => key.key_name == k) <;> rfl

theorem find_section_none (l : List (INI_SECTION F)) (s : List Nat)
    (h : ∀ x ∈ l, x.sec_name ≠ s) : l.find? (fun sec => sec.sec_name == s) = none := by
  rw [List.find?_eq_none]
  intro x hx
  simpa using h x hx

/-- The key the lookups reach after a `set` that returns: for the pair that was
set, the key that was found before, or else the new key; for every other pair
the key that was found before. -/
theorem find_key_after_set (ini ini1 : INI F) (s k : List Nat) (v : Value F)
    (hs : s.length < INI_STR_MAX_LENGTH) (hk : k.length < INI_STR_MAX_LENGTH)
    (hv : ∀ t, v = .sval t → t.length < INI_STR_MAX_LENGTH)
    (h : ini_add_key ini s k v = .ok ini1) (s1 k1 : List Nat) :
    find_key ini1 s1 k1 =
      if s1 = s ∧ k1 = k then (find_key ini s k).or (some ⟨k, v⟩) else find_key ini s1 k1 := by
  obtain ⟨secs⟩ := ini
  obtain ⟨secs1⟩ := ini1
  rcases add_key_shape _ _ s k v hs hk hv h with ⟨pre, sec, post, e0, hpre, hname, e1⟩ | ⟨habs, e1⟩
  · simp only at e0 e1
    subst e0 e1
    unfold find_key
    simp only [List.find?_append, List.find?_cons]
    by_cases hs1 : s1 = s
    · subst hs1
      have hp := find_section_none pre s1 hpre
      simp only [hp, Option.none_or, hname, beq_self_eq_true, Option.bind_some, true_and]
      by_cases hk1 : k1 = k
      · subst hk1
        simp [List.find?_append]
      · have : (k == k1) = false := by simpa using fun e => hk1 e.symm
        simp [hk1, List.find?_append, this]
    · have h1 : (sec.sec_name == s1) = false := by
        rw [hname]; simpa using fun e => hs1 e.symm
      have h2 : (s == s1) = false := by simpa using fun e => hs1 e.symm
      simp [hs1, h1, h2]
  · simp only at habs e1
    subst e1
    unfold find_key
    simp only [List.find?_append, List.find?_cons, List.find?_nil]
    by_cases hs1 : s1 = s
    · subst hs1
      have hp := find_section_none secs s1 habs
      simp only [hp, Option.none_or, beq_self_eq_true, Option.bind_some, true_and,
        Option.bind_none]
      by_cases hk1 : k1 = k
      · subst hk1
        simp
      · have : (k == k1) = false := by simpa using fun e => hk1 e.symm
        simp [hk1, this]
    · have h2 : (s == s1) = false := by simpa using fun e => hs1 e.symm
      simp [hs1, h2]

/-- The law of `set` followed by `get` where the block has room: after a
`set(s, k, v)` that returns, `exists(s, k)` holds; if it did not hold before,
the getter of the type of `v` returns `v`; and for every other pair `exists` and
the three getters give what they gave before the call.  (`s`, `k` and a Text `v`
are shorter than 128 bytes.) -/
theorem set_then_get (libc : Libc F) (ini ini1 : INI F) (s k : List Nat) (v : Value F)
    (hs : s.length < INI_STR_MAX_LENGTH) (hk : k.length < INI_STR_MAX_LENGTH)
    (hv : ∀ t, v = .sval t → t.length < INI_STR_MAX_LENGTH)
    (h : ini_add_key ini s k v = .ok ini1) :
    exist ini1 s k = true ∧
      (exist ini s k = false →
        (∀ n, v = .ival n → get_int libc ini1 s k = .ok n) ∧
        (∀ x, v = .fval x → get_float libc ini1 s k = .ok x) ∧
        (∀ t, v = .sval t → get_string libc ini1 s k = .ok t)) ∧
      (∀ s1 k1, ¬ (s1 = s ∧ k1 = k) →
        exist ini1 s1 k1 = exist ini s1 k1 ∧
        get_int libc ini1 s1 k1 = get_int libc ini s1 k1 ∧
        get_float libc ini1 s1 k1 = get_float libc ini s1 k1 ∧
        get_string libc ini1 s1 k1 = get_string libc ini s1 k1) := by
  have hfind := find_key_after_set ini ini1 s k v hs hk hv h
  refine ⟨?_, ?_, ?_⟩
  · unfold exist
    rw [exist_find_key, hfind s k]
    simp only [and_self, if_true]
    cases find_key ini s k <;> rfl
  · intro hex
    unfold exist at hex
    rw [exist_find_key] at hex
    have hnone : find_key ini s k = none := by
      cases hf : find_key ini s k with
      | none => rfl
      | some x => rw [hf] at hex; simp at hex
    have hnew : find_key ini1 s k = some ⟨k, v⟩ := by
      rw [hfind s k, hnone]; simp
    refine ⟨?_, ?_, ?_⟩
    · intro n hn
      unfold get_int
      rw [get_i_find_key, hnew, hn]
      rfl
    · intro x hx
      unfold get_float
      rw [get_f_find_key, hnew, hx]
      rfl
    · intro t ht
      unfold get_string
      rw [get_str_find_key, hnew, ht]
      show strcpy_s INI_STR_MAX_LENGTH t = .ok t
      exact strcpy_s_ok _ _ (hv t ht)
  · intro s1 k1 hne
    have e : find_key ini1 s1 k1 = find_key ini s1 k1 := by
      rw [hfind s1 k1, if_neg hne]
    unfold exist get_int get_float get_string
    rw [exist_find_key, exist_find_key, get_i_find_key, get_i_find_key, get_f_find_key,
      get_f_find_key, get_str_find_key, get_str_find_key, e]
    exact ⟨rfl, rfl, rfl, rfl⟩

/-- An instance of `set_then_get`: a key added to an existing section. -/
theorem set_then_get_example :
    exist (⟨[⟨bytes "S", [⟨bytes "a", .ival 1⟩, ⟨bytes "b", .ival 2⟩]⟩]⟩ : INI Unit)
        (bytes "S") (bytes "b") = true ∧
      get_int unit_libc (⟨[⟨bytes "S", [⟨bytes "a", .ival 1⟩, ⟨bytes "b", .ival 2⟩]⟩]⟩ : INI Unit)
        (bytes "S") (bytes "b") = .ok 2 :=
  ⟨(set_then_get unit_libc (⟨[⟨bytes "S", [⟨bytes "a", .ival 1⟩]⟩]⟩ : INI Unit) _ (bytes "S") (bytes "b")
      (.ival 2) (by decide) (by decide) (by intro t ht; cases ht) rfl).1,
    ((set_then_get unit_libc (⟨[⟨bytes "S", [⟨bytes "a", .ival 1⟩]⟩]⟩ : INI Unit) _ (bytes "S") (bytes "b")
      (.ival 2) (by decide) (by decide) (by intro t ht; cases ht) rfl).2.1 rfl).1 2 rfl⟩

/-- C22 at its failing inputs: the section `T` holds thirty-two keys named `a`,
so `exists("T", "b")` is false; `set("T", "b", 1)` finds the section and stores
the pointer to the new key past the end of the block of
`realloc(sec->keys, sizeof(INI_KEY))`, and there is no document after the call
in which `exists("T", "b")` holds.  Likewise `set` with a new section name on a
document of eighteen sections. -/
theorem set_then_get_block_overflow :
    exist (⟨[⟨bytes "T", List.replicate 32 ⟨bytes "a", .ival 0⟩⟩]⟩ : INI Unit)
        (bytes "T") (bytes "b") = false ∧
      ini_add_key (⟨[⟨bytes "T", List.replicate 32 ⟨bytes "a", .ival 0⟩⟩]⟩ : INI Unit)
        (bytes "T") (bytes "b") (.ival 1) = .error .buffer_overflow ∧
      exist (⟨List.replicate 18 ⟨bytes "T", [⟨bytes "a", .ival 0⟩]⟩⟩ : INI Unit)
        (bytes "U") (bytes "b") = false ∧
      ini_add_key (⟨List.replicate 18 ⟨bytes "T", [⟨bytes "a", .ival 0⟩]⟩⟩ : INI Unit)
        (bytes "U") (bytes "b") (.ival 1) = .error .buffer_overflow :=
  ⟨rfl, rfl, rfl, rfl⟩

/-! ## An empty-named section that is not the first (C23) -/

/-- The text form of a section named `a` followed by an empty-named section is
read back as one section named `a` with the keys of both. -/
theorem empty_named_section_merges (libc : Libc F) (a : List Nat)
    (ks1 ks2 : List (INI_KEY F)) (ha : a ≠ [])
    (h1 : good_section (⟨a, ks1⟩ : INI_SECTION F))
    (h2 : good_section (⟨[], ks2⟩ : INI_SECTION F))
    (hl : ks1.length + ks2.length ≤ KEYS_MAX) :
    ∃ out, ini_serialize libc ⟨[⟨a, ks1⟩, ⟨[], ks2⟩]⟩ = .ok out ∧
      ini_parse libc ini_create out = .ok (1, ⟨[⟨a, ks1 ++ ks2⟩]⟩) := by
  have hk1 : ks1 ≠ [] := h1.2.2.2.1
  have hk2 : ks2 ≠ [] := h2.2.2.2.1
  have hlen1 : 0 < ks1.length := List.length_pos.2 hk1
  have hlen2 : 0 < ks2.length := List.length_pos.2 hk2
  have hs : 2 < SECS_MAX := by decide
  have hg : ∀ sec ∈ ([⟨a, ks1⟩, ⟨[], ks2⟩] : List (INI_SECTION F)), good_section sec := by
    intro sec hsec
    simp only [List.mem_cons, List.mem_singleton, List.not_mem_nil, or_false] at hsec
    rcases hsec with e | e <;> (subst e; assumption)
  have hfl : fits_loads (⟨[⟨a, ks1⟩, ⟨[], ks2⟩]⟩ : INI F) := by
    refine ⟨hs, ?_⟩
    intro sec hsec
    simp only [List.mem_cons, List.mem_singleton, List.not_mem_nil, or_false] at hsec
    rcases hsec with e | e <;> (subst e; simp only; omega)
  refine ⟨render_lines (document_lines libc ⟨[⟨a, ks1⟩, ⟨[], ks2⟩]⟩), ?_, ?_⟩
  · exact ini_serialize_eq libc _ (by simp) (fun sec hsec => (hg sec hsec).2.2.2.1) hfl
  · have hfold : ref_parse libc (document_lines libc ⟨[⟨a, ks1⟩, ⟨[], ks2⟩]⟩) =
        ⟨[⟨a, ks1 ++ ks2⟩]⟩ := by
      unfold ref_parse document_lines
      simp only [List.map_cons, List.map_nil, List.flatten_cons, List.flatten_nil,
        List.append_nil, List.foldl_append]
      rw [fold_section_named libc ⟨a, ks1⟩ _ ha (fun key hkey => (h1.2.2.2.2 key hkey).1)]
      simp only [section_lines, if_true, List.nil_append, List.foldl_append, Option.toList_none,
        List.append_nil]
      rw [fold_keys libc ks2 _ _ _ (fun key hkey => (h2.2.2.2.2 key hkey).1)]
      simp [ref_line, ref_document]
    rw [parse_lines libc _ (document_lines_well_formed_good libc _ hg) (by
      rw [hfold]
      refine ⟨by show 1 ≤ SECS_MAX; decide, ?_⟩
      intro sec hsec
      simp only [List.mem_singleton] at hsec
      subst hsec
      simpa using hl), hfold]

/-- C23: `ini_serialize` writes no header for a section with the empty name,
wherever the section is.  The document built by `set("A", "x", 1)` and
`set("", "g", 2)` is serialized to `[A]\nx=1\n\ng=2\n\n`; parsing that text gives
one section `A` with the keys `x` and `g`, in which `exists("", "g")` is false
and `exists("A", "g")` is true. -/
theorem empty_name_not_first (libc : Libc F) (keys : List (INI_KEY F)) :
    serialize_header (⟨[], keys⟩ : INI_SECTION F) = [] ∧
      apply_sets (ini_create : INI F)
        [⟨bytes "A", bytes "x", .ival 1⟩, ⟨[], bytes "g", .ival 2⟩] =
          .ok ⟨[⟨bytes "A", [⟨bytes "x", .ival 1⟩]⟩, ⟨[], [⟨bytes "g", .ival 2⟩]⟩]⟩ ∧
      ini_does_key_exist (⟨[⟨bytes "A", [⟨bytes "x", .ival 1⟩]⟩,
        ⟨[], [⟨bytes "g", .ival 2⟩]⟩]⟩ : INI F) [] (bytes "g") = true ∧
      ini_serialize libc (⟨[⟨bytes "A", [⟨bytes "x", .ival 1⟩]⟩,
        ⟨[], [⟨bytes "g", .ival 2⟩]⟩]⟩ : INI F) = .ok (bytes "[A]\nx=1\n\ng=2\n\n") ∧
      ini_parse libc ini_create (bytes "[A]\nx=1\n\ng=2\n\n") =
        .ok (1, ⟨[⟨bytes "A", [⟨bytes "x", .ival 1⟩, ⟨bytes "g", .ival 2⟩]⟩]⟩) ∧
      ini_does_key_exist (⟨[⟨bytes "A", [⟨bytes "x", .ival 1⟩, ⟨bytes "g", .ival 2⟩]⟩]⟩ : INI F)
        [] (bytes "g") = false ∧
      ini_does_key_exist (⟨[⟨bytes "A", [⟨bytes "x", .ival 1⟩, ⟨bytes "g", .ival 2⟩]⟩]⟩ : INI F)
        (bytes "A") (bytes "g") = true :=
  ⟨rfl, rfl, rfl, rfl, rfl, rfl, rfl⟩

/-! ## Values without letter, white space and dot (C24) -/

theorem atoi_digits_decimal : ∀ (r : List Nat) (acc : Nat),
    atoi_digits r acc = (leading_digits r).foldl (fun n d => n * 10 + (d - 48)) acc := by
  intro r
  induction r with
  | nil => intro acc; rfl
  | cons c r ih =>
    intro acc
    unfold atoi_digits leading_digits
    by_cases hc : isdigit c = true
    · simp only [hc, if_true, List.takeWhile_cons_of_pos, List.foldl_cons]
      exact ih _
    · simp [hc]

theorem leading_digits_cstr (r : List Nat) : leading_digits (cstr r) = leading_digits r := by
  unfold leading_digits cstr
  induction r with
  | nil => rfl
  | cons c r ih =>
    by_cases h0 : c = 0
    · subst h0
      simp [isdigit]
    · have : (c != 0) = true := by simpa using h0
      simp only [List.takeWhile_cons, this, if_true]
      by_cases hd : isdigit c = true
      · simp only [hd, if_true, ih]
      · simp [hd]

theorem dropWhile_no_space (s : List Nat) (h : has_text_byte s = false) :
    s.dropWhile isspace = s := by
  cases s with
  | nil => rfl
  | cons c r =>
    have : isspace c = false := by
      unfold has_text_byte at h
      rw [List.any_eq_false] at h
      have := h c (by simp)
      simp only [Bool.or_eq_true, not_or, Bool.not_eq_true] at this
      exact this.1
    simp [List.dropWhile_cons, this]

theorem has_text_byte_cstr (s : List Nat) (h : has_text_byte s = false) :
    has_text_byte (cstr s) = false := by
  unfold has_text_byte at h ⊢
  rw [List.any_eq_false] at h ⊢
  intro x hx
  exact h x ((List.takeWhile_prefix _).subset hx)

/-- What `atoi` reads in a buffer without white space: the number of the sign
and digit prefix of the bytes, the terminator being no digit. -/
theorem atoi_value_prefix_number (s : List Nat) (h : has_text_byte s = false) :
    atoi_value (cstr s) = prefix_number s := by
  unfold atoi_value
  rw [dropWhile_no_space _ (has_text_byte_cstr s h)]
  cases s with
  | nil => rfl
  | cons c r =>
    by_cases h0 : c = 0
    · subst h0
      simp [cstr, prefix_number, leading_digits, isdigit, decimal, atoi_digits]
    · have hc : cstr (c :: r) = c :: cstr r := by
        have : (c != 0) = true := by simpa using h0
        simp [cstr, List.takeWhile_cons, this]
      rw [hc]
      by_cases h45 : c = 45
      · subst h45
        simp only [prefix_number, decimal, atoi_digits_decimal, leading_digits_cstr]
      · by_cases h43 : c = 43
        · subst h43
          simp only [prefix_number, decimal, atoi_digits_decimal, leading_digits_cstr]
        · have e1 : atoi_digits (c :: cstr r) 0 =
              (leading_digits (c :: r)).foldl (fun n d => n * 10 + (d - 48)) 0 := by
            rw [← hc, atoi_digits_decimal, leading_digits_cstr]
          have e2 : prefix_number (c :: r) = (decimal (leading_digits (c :: r)) : Int) := by
            unfold prefix_number
            split
            · rename_i heq; simp only [List.cons.injEq] at heq; exact absurd heq.1 h45
            · rename_i heq; simp only [List.cons.injEq] at heq; exact absurd heq.1 h43
            · rfl
          rw [e2]
          unfold decimal
          rw [← e1]
          split
          · rename_i heq; simp only [List.cons.injEq] at heq; exact absurd heq.1 h45
          · rename_i heq; simp only [List.cons.injEq] at heq; exact absurd heq.1 h43
          · rfl

/-- The scans of `parse_key` on a value without letter, white space and dot:
the key is an Integer, whatever the other bytes. -/
theorem parse_key_scan_integer (libc : Libc F) (name value rest : List Nat)
    (h1 : 61 ∉ name) (h2 : bounded name) (h3 : 10 ∉ value)
    (h4 : value.length < INI_STR_MAX_LENGTH)
    (ht : has_text_byte value = false) (hd : has_dot value = false) :
    parse_key_scan libc (name ++ 61 :: value ++ 10 :: rest) =
      .ok (⟨name, .ival (atoi libc (cstr value))⟩, 10 :: rest) := by
  have hs := scan_name_spec 61 name (value ++ 10 :: rest) [] h1 (by simpa using h2.1)
  have hv := scan_value_spec value rest [] false false h3 (by simpa using h4)
  simp only [List.nil_append, Bool.false_or] at hs hv
  have ht1 : (value.any fun c => isspace c || isalpha c) = false := ht
  have hd1 : (value.any fun c => c == 46) = false := hd
  rw [ht1, hd1] at hv
  unfold parse_key_scan
  simp only [List.append_assoc, List.cons_append, hs,
    cstr_of_no_nul name h2.2, key_create, strcpy_s_ok _ _ h2.1, List.drop_succ_cons,
    List.drop_zero, hv, classify, Bool.false_eq_true, if_false, key_set_i]

theorem parse_step_of_scan (libc : Libc F) (ini : INI F) (last : Option Nat)
    (c : Nat) (buf at_nl : List Nat) (key : INI_KEY F) (hc : isalpha c = true)
    (h : parse_key_scan libc (c :: buf) = .ok (key, at_nl)) :
    parse_step libc ⟨ini, last, c :: buf⟩ =
      match add_to_current ini last key with
      | .ok (ini1, last1) => .next ⟨ini1, last1, at_nl.drop 1⟩
      | .error u => .undef u := by
  obtain ⟨e1, e2, e3, e4, -, -, -⟩ := isalpha_facts c hc
  unfold parse_step
  simp only [e1, e2, e3, e4, hc, if_false, if_true, Bool.false_eq_true]
  unfold parse_key add_to_current
  simp only [h]
  cases parse_key_open ini last with
  | error u => rfl
  | ok r =>
    obtain ⟨ini0, i⟩ := r
    simp only []
    cases sec_add_key_at ini0 i key <;> rfl

/-- C24, as stated, fails: the value `99999999999` has no letter, white space or
dot, and the number of its digits is above the largest `int`; the key is an
Integer, which cannot hold that number, whatever `atoi` returns: no `int` is
equal to it. -/
theorem integer_fallback_counterexample :
    has_text_byte (bytes "99999999999") = false ∧ has_dot (bytes "99999999999") = false ∧
      prefix_number (bytes "99999999999") = 99999999999 ∧ INT_MAX < 99999999999 ∧
      ini_parse unit_libc (ini_create : INI Unit) (bytes "K=99999999999\n") =
        .ok (1, ⟨[⟨[], [⟨bytes "K", .ival (unit_libc.atoi_overflow (bytes "99999999999"))⟩]⟩]⟩) ∧
      unit_libc.atoi_overflow (bytes "99999999999") ≠ prefix_number (bytes "99999999999") ∧
      (∀ n : Int, INT_MIN ≤ n ∧ n ≤ INT_MAX → n ≠ prefix_number (bytes "99999999999")) := by
  refine ⟨by decide, by decide, by decide, by decide, rfl, by decide, ?_⟩
  intro n hn e
  have h1 : prefix_number (bytes "99999999999") = 99999999999 := by decide
  rw [h1] at e
  have := hn.2
  unfold INT_MAX at this
  omega

/-- C24, amended: a value of at most 127 bytes without letter, white space and
dot is always read as an Integer, whatever its bytes; when the number denoted by
its longest prefix of an optional sign and decimal digits (0 when there is no
digit) is a C `int`, the Integer is that number.  So `K=\n` and `K=#\n` give the
Integer 0 and `K=12-3\n` gives the Integer 12. -/
theorem integer_fallback (libc : Libc F) (ini : INI F) (last : Option Nat)
    (name value rest : List Nat) (h0 : starts_with_letter name = true) (h1 : 61 ∉ name)
    (h2 : bounded name) (h3 : 10 ∉ value) (h4 : value.length < INI_STR_MAX_LENGTH)
    (ht : has_text_byte value = false) (hd : has_dot value = false) :
    (∃ n : Int,
      parse_step libc ⟨ini, last, name ++ 61 :: value ++ 10 :: rest⟩ =
        (match add_to_current ini last ⟨name, .ival n⟩ with
          | .ok (ini1, last1) => .next ⟨ini1, last1, rest⟩
          | .error u => .undef u) ∧
      (INT_MIN ≤ prefix_number value ∧ prefix_number value ≤ INT_MAX →
        n = prefix_number value)) ∧
    ini_parse libc ini_create (bytes "K=\n") = .ok (1, ⟨[⟨[], [⟨bytes "K", .ival 0⟩]⟩]⟩) ∧
    ini_parse libc ini_create (bytes "K=#\n") = .ok (1, ⟨[⟨[], [⟨bytes "K", .ival 0⟩]⟩]⟩) ∧
    ini_parse libc ini_create (bytes "K=12-3\n") =
      .ok (1, ⟨[⟨[], [⟨bytes "K", .ival 12⟩]⟩]⟩) := by
  refine ⟨⟨atoi libc (cstr value), ?_, ?_⟩, rfl, rfl, rfl⟩
  · have hk := parse_key_scan_integer libc name value rest h1 h2 h3 h4 ht hd
    cases name with
    | nil => simp [starts_with_letter] at h0
    | cons c r =>
      simp only [List.cons_append] at hk ⊢
      have := parse_step_of_scan libc ini last c _ _ _ h0 hk
      simpa using this
  · intro hr
    unfold atoi
    rw [atoi_value_prefix_number value ht, if_pos hr]

/-- Witness for C24: a sign followed by punctuation, and digits followed by
punctuation. -/
theorem integer_fallback_witness :
    ∃ n : Int,
      parse_step unit_libc ⟨(ini_create : INI Unit), none,
          bytes "K" ++ 61 :: bytes "-7#8" ++ 10 :: [0]⟩ =
        (match add_to_current ini_create none ⟨bytes "K", .ival n⟩ with
          | .ok (ini1, last1) => .next ⟨ini1, last1, [0]⟩
          | .error u => .undef u) ∧
      n = -7 :=
  match (integer_fallback unit_libc (ini_create : INI Unit) none (bytes "K") (bytes "-7#8") [0]
    (by decide) (by decide) (by decide) (by decide) (by decide) (by decide) (by decide)).1 with
  | ⟨n, hn, hv⟩ => ⟨n, hn, hv (by decide)⟩

end Libini
